import Mathlib

/-
Verification of the alignment and correspondence engine of
`calculate_rmsd.py` (RMSD between two labeled 3-D point sets).

Conventions of the shallow embedding:
* coordinates are real numbers (`ℝ`); an (N,3) numpy array is a
  `Matrix (Fin n) (Fin 3) ℝ` (or a `List (Fin 3 → ℝ)` where the source
  operates on python lists of rows of unknown, possibly differing, length);
* the external LAPACK calls `np.linalg.svd` / `np.linalg.eig` and the scipy
  call `linear_sum_assignment` are modelled as parameters: the factors they
  return are passed in explicitly, and theorems hypothesize exactly the
  properties those libraries guarantee about their output;
* fallible numpy operations (shape errors on broadcasting) return `Option`.
-/

namespace CalculateRmsd

/-- One 3-D point, i.e. one row of an (N,3) coordinate array. -/
abbrev Pt := Fin 3 → ℝ

/-- A 3×3 real matrix. -/
abbrev Mat3 := Matrix (Fin 3) (Fin 3) ℝ

/-- Pointwise difference of two rows. -/
def ptSub (v w : Pt) : Pt := fun i => v i - w i

/-- Subtraction `np.array(V) - np.array(W)` of an (N,3) and an (M,3) array,
following numpy broadcasting on the first axis: defined elementwise when
`N = M`, and by broadcasting when one of the two lengths is 1; any other
shape combination raises `ValueError`, modelled as `none`. -/
def npSub (V W : List Pt) : Option (List Pt) :=
  if V.length = W.length then some (List.zipWith ptSub V W)
  else if V.length = 1 then some (W.map fun w => ptSub V.headI w)
  else if W.length = 1 then some (V.map fun v => ptSub v W.headI)
  else none

/-- Function `rmsd(V, W)` of the source: `diff = np.array(V) - np.array(W)`;
`N = len(V)`; result `sqrt((diff * diff).sum() / N)`.  The subtraction
follows numpy broadcasting (`npSub`), so a shape mismatch that numpy cannot
broadcast yields `none` (the raised `ValueError`). -/
noncomputable def rmsd (V W : List Pt) : Option ℝ :=
  (npSub V W).map fun diff =>
    Real.sqrt ((diff.map fun d => ∑ i, d i * d i).sum / (V.length : ℝ))

/-- Output `(V, S, W)` of the external call `np.linalg.svd(C)`:
`C = V · diag(S) · W` with `V`, `W` orthogonal and `S` the singular
values.  The factors are passed to the embedded functions as a parameter;
theorems hypothesize `IsSvdOf` for the matrix the source decomposes. -/
structure SvdOut where
  V : Mat3
  S : Fin 3 → ℝ
  W : Mat3

/-- The factor triple is a genuine singular value decomposition of `C`. -/
def SvdOut.IsSvdOf (F : SvdOut) (C : Mat3) : Prop :=
  C = F.V * Matrix.diagonal F.S * F.W ∧
    F.V.transpose * F.V = 1 ∧
    F.W.transpose * F.W = 1 ∧
    ∀ i, 0 ≤ F.S i

/-- In-place update `V[:, -1] = -V[:, -1]`: negate the last column. -/
def negLastCol (M : Mat3) : Mat3 :=
  Matrix.of fun i k => if k = 2 then -M i k else M i k

/-- In-place update `S[-1] = -S[-1]`: negate the last singular value. -/
def negLast (S : Fin 3 → ℝ) : Fin 3 → ℝ :=
  fun i => if i = 2 then -S i else S i

/-- Function `kabsch(P, Q)` of the source.  The covariance is
`C = np.dot(np.transpose(P), Q)`; `F` models the result of
`np.linalg.svd(C)`.  When `det(V) * det(W) < 0` the last singular value
and the last column of `V` are negated; the returned rotation is
`U = np.dot(V, W)`. -/
noncomputable def kabsch {n : ℕ} (P Q : Matrix (Fin n) (Fin 3) ℝ)
    (F : SvdOut) : Mat3 :=
  -- C = P^T Q is the matrix F decomposes (hypothesized via IsSvdOf)
  let d := F.V.det * F.W.det < 0
  let Vc := if d then negLastCol F.V else F.V
  Vc * F.W

/-- Unfolding lemma for `kabsch`. -/
theorem kabsch_eq {n : ℕ} (P Q : Matrix (Fin n) (Fin 3) ℝ) (F : SvdOut) :
    kabsch P Q F = (if F.V.det * F.W.det < 0 then negLastCol F.V else F.V) * F.W :=
  rfl

/-- Negating the last column is right multiplication by `diag(1, 1, -1)`. -/
theorem negLastCol_eq_mul_diag (M : Mat3) :
    negLastCol M = M * Matrix.diagonal ![1, 1, -1] := by
  ext i k
  rw [Matrix.mul_diagonal]
  fin_cases k <;> simp [negLastCol]

/-- Determinant of a matrix with the last column negated. -/
theorem det_negLastCol (M : Mat3) : (negLastCol M).det = -M.det := by
  rw [negLastCol_eq_mul_diag, Matrix.det_mul, Matrix.det_diagonal,
    Fin.prod_univ_three]
  norm_num

/-- An orthogonal matrix has determinant 1 or -1. -/
theorem det_pm_one_of_orthogonal (M : Mat3) (h : M.transpose * M = 1) :
    M.det = 1 ∨ M.det = -1 := by
  have h2 : M.det * M.det = 1 := by
    have := congrArg Matrix.det h
    rwa [Matrix.det_mul, Matrix.det_transpose, Matrix.det_one] at this
  exact mul_self_eq_one_iff.mp h2

/-- C3: for every pair of point sets `P`, `Q` and every singular value
decomposition of the covariance `P^T Q`, the matrix returned by
`kabsch(P, Q)` has determinant +1: whenever `det(V) * det(W) < 0` the
sign fix (negating the last singular value and the last column of `V`)
forces `det(U) = +1`, so a proper rotation is always returned. -/
theorem kabsch_det_eq_one {n : ℕ} (P Q : Matrix (Fin n) (Fin 3) ℝ)
    (F : SvdOut) (hF : F.IsSvdOf (P.transpose * Q)) :
    (kabsch P Q F).det = 1 := by
  obtain ⟨-, hV, hW, -⟩ := hF
  have hdV := det_pm_one_of_orthogonal F.V hV
  have hdW := det_pm_one_of_orthogonal F.W hW
  rw [kabsch_eq]
  by_cases hd : F.V.det * F.W.det < 0
  · rw [if_pos hd, Matrix.det_mul, det_negLastCol]
    rcases hdV with h1 | h1 <;> rcases hdW with h2 | h2 <;>
      rw [h1, h2] <;> rw [h1, h2] at hd <;> norm_num at hd ⊢
  · rw [if_neg hd, Matrix.det_mul]
    rcases hdV with h1 | h1 <;> rcases hdW with h2 | h2 <;>
      rw [h1, h2] <;> rw [h1, h2] at hd <;> norm_num at hd ⊢

/-- Witness for C3: a concrete input (single point (1,0,0) in both sets,
with the explicit SVD of its covariance) on which the hypotheses of
`kabsch_det_eq_one` hold and the determinant is 1. -/
theorem kabsch_det_eq_one_witness :
    (SvdOut.mk 1 ![1, 0, 0] 1).IsSvdOf
      ((!![(1 : ℝ), 0, 0]).transpose * !![(1 : ℝ), 0, 0]) ∧
      (kabsch !![(1 : ℝ), 0, 0] !![(1 : ℝ), 0, 0]
        (SvdOut.mk 1 ![1, 0, 0] 1)).det = 1 := by
  have hF : (SvdOut.mk 1 ![1, 0, 0] 1).IsSvdOf
      ((!![(1 : ℝ), 0, 0]).transpose * !![(1 : ℝ), 0, 0]) := by
    refine ⟨?_, by simp, by simp, ?_⟩
    · ext i k
      rw [Matrix.mul_apply]
      fin_cases i <;> fin_cases k <;>
        simp [Matrix.diagonal, Fin.sum_univ_succ]
    · intro i
      fin_cases i <;> norm_num
  exact ⟨hF, kabsch_det_eq_one _ _ _ hF⟩

/-- C7 counterexample: the claim says `rmsd(V, W)` fails for every pair
with `len(V) != len(W)`, but for `V` of length 1 and `W` of length 2 numpy
broadcasting makes the subtraction succeed and `rmsd` silently returns a
number (here `sqrt 6`) instead of raising. -/
theorem rmsd_len_mismatch_counterexample :
    [(fun _ => 0 : Pt)].length ≠ [(fun _ => 1 : Pt), fun _ => 1].length ∧
      rmsd [fun _ => 0] [fun _ => 1, fun _ => 1] = some (Real.sqrt 6) := by
  refine ⟨by simp, ?_⟩
  rw [rmsd, npSub]
  norm_num [ptSub, List.headI, Fin.sum_univ_three]

/-- C7 amended: `rmsd(V, W)` fails (raises `ValueError`) whenever
`len(V) != len(W)` and neither length is 1; when one of the two lengths
is 1, numpy broadcasting silently produces a number instead. -/
theorem rmsd_len_mismatch_fails (V W : List Pt)
    (hne : V.length ≠ W.length) (hV : V.length ≠ 1) (hW : W.length ≠ 1) :
    rmsd V W = none := by
  rw [rmsd, npSub, if_neg hne, if_neg hV, if_neg hW]
  rfl

/-- Witness for C7: concrete point lists of lengths 2 and 3 on which
`rmsd_len_mismatch_fails` applies and returns the error. -/
theorem rmsd_len_mismatch_fails_witness :
    rmsd [(fun _ => 0 : Pt), fun _ => 0] [fun _ => 1, fun _ => 1, fun _ => 1] =
      none :=
  rmsd_len_mismatch_fails _ _ (by simp) (by simp) (by simp)

/-- Cross product `np.cross(v1, v2)`. -/
def npCross (a b : Pt) : Pt :=
  ![a 1 * b 2 - a 2 * b 1, a 2 * b 0 - a 0 * b 2, a 0 * b 1 - a 1 * b 0]

/-- Skew-symmetric matrix `vx` built from `v` in the source. -/
def skewMat (v : Pt) : Mat3 :=
  !![0, -v 2, v 1; v 2, 0, -v 0; -v 1, v 0, 0]

open scoped Classical in
/-- Function `rotation_matrix_vectors(v1, v2)` of the source: guards for
exact elementwise equality `v1 == v2` and `v1 == -v2`, otherwise the
general Rodrigues branch `eye(3) + vx + vx·vx·((1-c)/(s·s))` with
`v = cross(v1, v2)`, `s = norm(v)`, `c = vdot(v1, v2)`. -/
noncomputable def rotation_matrix_vectors (v1 v2 : Pt) : Mat3 :=
  if v1 = v2 then 1
  else if v1 = (fun i => -v2 i) then !![-1, 0, 0; 0, 1, 0; 0, 0, -1]
  else
    let v := npCross v1 v2
    let s := Real.sqrt (∑ i, v i * v i)
    let c := ∑ i, v1 i * v2 i
    let vx := skewMat v
    1 + vx + ((1 - c) / (s * s)) • (vx * vx)

/-- C10: the guards of `rotation_matrix_vectors` test exact elementwise
equality only, so the collinear pair `v1 = (1,0,0)`, `v2 = 2·v1` (neither
equal nor opposite elementwise) reaches the general Rodrigues branch with
a zero cross product, where the code divides by `s·s = 0`; the division
is not guarded against all singular-cross-product inputs (over the reals
the unguarded division makes the branch return the identity matrix; in
floating point it produces NaNs). -/
theorem rotation_matrix_vectors_unguarded_division :
    (![1, 0, 0] : Pt) ≠ ![2, 0, 0] ∧
      (![1, 0, 0] : Pt) ≠ (fun i => -(![2, 0, 0] : Pt) i) ∧
      npCross ![1, 0, 0] ![2, 0, 0] = (fun _ => 0) ∧
      Real.sqrt (∑ i, npCross ![1, 0, 0] ![2, 0, 0] i *
          npCross ![1, 0, 0] ![2, 0, 0] i) *
        Real.sqrt (∑ i, npCross ![1, 0, 0] ![2, 0, 0] i *
          npCross ![1, 0, 0] ![2, 0, 0] i) = 0 ∧
      rotation_matrix_vectors ![1, 0, 0] ![2, 0, 0] = 1 := by
  have hcross : npCross ![1, 0, 0] ![2, 0, 0] = (fun _ => 0) := by
    funext i
    fin_cases i <;> norm_num [npCross]
  have h1 : (![1, 0, 0] : Pt) ≠ ![2, 0, 0] := by
    intro h
    have := congrFun h 0
    norm_num at this
  have h2 : (![1, 0, 0] : Pt) ≠ (fun i => -(![2, 0, 0] : Pt) i) := by
    intro h
    have := congrFun h 0
    norm_num at this
  have hsum : (∑ i, npCross ![1, 0, 0] ![2, 0, 0] i *
      npCross ![1, 0, 0] ![2, 0, 0] i) = 0 := by
    rw [hcross]
    norm_num
  have hskew : skewMat (fun _ => (0 : ℝ)) = 0 := by
    ext i k
    fin_cases i <;> fin_cases k <;> norm_num [skewMat]
  refine ⟨h1, h2, hcross, ?_, ?_⟩
  · rw [hsum, Real.sqrt_zero, mul_zero]
  · rw [rotation_matrix_vectors, if_neg h1, if_neg h2]
    simp only [hcross, hskew, hsum, Real.sqrt_zero, mul_zero]
    simp

/-- The weight vector used by `kabsch_weighted`: the supplied `W`, or the
default `np.ones(len(P)) / len(P)`. -/
noncomputable def kwW {n : ℕ} (W : Option (Fin n → ℝ)) : Fin n → ℝ :=
  match W with
  | none => fun _ => 1 / (n : ℝ)
  | some w => w

theorem kwW_some {n : ℕ} (w : Fin n → ℝ) : kwW (some w) = w := rfl

theorem kwW_none {n : ℕ} : kwW (none : Option (Fin n → ℝ)) = fun _ => 1 / (n : ℝ) := rfl

/-- The weighted covariance computed inside `kabsch_weighted` and handed to
`np.linalg.svd`: after replicating the weights to an (N,3) matrix
(`W = np.array([W,W,W]).T`, so `W.sum()` is three times the weight sum and
`iw = 3.0/W.sum()`), it is `C[i,k] = Σ_j P[j,i]·Q[j,k]·W[j,i]` followed by
`C = (C - outer(CMP, CMQ)·iw)·iw` with `CMP = (P*W).sum(axis=0)` and
`CMQ = (Q*W).sum(axis=0)`. -/
noncomputable def kwCov {n : ℕ} (P Q : Matrix (Fin n) (Fin 3) ℝ)
    (W : Option (Fin n → ℝ)) : Mat3 :=
  let w := kwW W
  let iw : ℝ := 3 / ∑ j, ∑ _i : Fin 3, w j
  let CMP : Pt := fun i => ∑ j, P j i * w j
  let CMQ : Pt := fun i => ∑ j, Q j i * w j
  Matrix.of fun i k => ((∑ j, P j i * Q j k * w j) - CMP i * CMQ k * iw) * iw

/-- Function `kabsch_weighted(P, Q, W)` of the source, returning the triple
`(U, V, RMSD)`.  `F` models the result of `np.linalg.svd` on the weighted
covariance `kwCov P Q W`; the same determinant sign fix as in `kabsch` is
applied to the factors, `U = V·W`, the translation is
`V[i] = (CMP[i] - (U[i,:]·CMQ).sum())·iw`, and the RMSD is the square root
of `msd = (PSQ + QSQ)·iw - 2·S.sum()` clamped to 0 from below. -/
noncomputable def kabsch_weighted {n : ℕ} (P Q : Matrix (Fin n) (Fin 3) ℝ)
    (W : Option (Fin n → ℝ)) (F : SvdOut) : Mat3 × Pt × ℝ :=
  let w := kwW W
  let iw : ℝ := 3 / ∑ j, ∑ _i : Fin 3, w j
  let CMP : Pt := fun i => ∑ j, P j i * w j
  let CMQ : Pt := fun i => ∑ j, Q j i * w j
  let PSQ : ℝ := (∑ j, ∑ i, P j i * P j i * w j) - (∑ i, CMP i * CMP i) * iw
  let QSQ : ℝ := (∑ j, ∑ i, Q j i * Q j i * w j) - (∑ i, CMQ i * CMQ i) * iw
  let d := F.V.det * F.W.det < 0
  let S := if d then negLast F.S else F.S
  let Vc := if d then negLastCol F.V else F.V
  let U : Mat3 := Vc * F.W
  let msd : ℝ := (PSQ + QSQ) * iw - 2 * ∑ i, S i
  let msdc : ℝ := if msd < 0 then 0 else msd
  let T : Pt := fun i => (CMP i - ∑ k, U i k * CMQ k) * iw
  (U, T, Real.sqrt msdc)

/-- The unclamped mean squared deviation computed inside `kabsch_weighted`,
`msd = (PSQ + QSQ)·iw - 2·S.sum()` (after the sign fix on `S`). -/
noncomputable def kwMsd {n : ℕ} (P Q : Matrix (Fin n) (Fin 3) ℝ)
    (W : Option (Fin n → ℝ)) (F : SvdOut) : ℝ :=
  let w := kwW W
  let iw : ℝ := 3 / ∑ j, ∑ _i : Fin 3, w j
  let CMP : Pt := fun i => ∑ j, P j i * w j
  let CMQ : Pt := fun i => ∑ j, Q j i * w j
  let PSQ : ℝ := (∑ j, ∑ i, P j i * P j i * w j) - (∑ i, CMP i * CMP i) * iw
  let QSQ : ℝ := (∑ j, ∑ i, Q j i * Q j i * w j) - (∑ i, CMQ i * CMQ i) * iw
  let d := F.V.det * F.W.det < 0
  let S := if d then negLast F.S else F.S
  (PSQ + QSQ) * iw - 2 * ∑ i, S i

/-- C9: in `kabsch_weighted` the mean squared deviation
`msd = (PSQ + QSQ)·iw - 2·sum(singular values)` is clamped to 0 whenever it
is negative before the square root is taken, so for every input and every
factor triple the square root receives a nonnegative argument and the
returned RMSD is a nonnegative real. -/
theorem kabsch_weighted_clamps_msd {n : ℕ} (P Q : Matrix (Fin n) (Fin 3) ℝ)
    (W : Option (Fin n → ℝ)) (F : SvdOut) :
    (kabsch_weighted P Q W F).2.2 =
        Real.sqrt (if kwMsd P Q W F < 0 then 0 else kwMsd P Q W F) ∧
      (0 ≤ if kwMsd P Q W F < 0 then 0 else kwMsd P Q W F) ∧
      0 ≤ (kabsch_weighted P Q W F).2.2 := by
  refine ⟨rfl, ?_, Real.sqrt_nonneg _⟩
  by_cases h : kwMsd P Q W F < 0
  · rw [if_pos h]
  · rw [if_neg h]
    exact le_of_not_lt h

/-- Unfolding of the rotation component of `kabsch_weighted`. -/
theorem kabsch_weighted_U {n : ℕ} (P Q : Matrix (Fin n) (Fin 3) ℝ)
    (W : Option (Fin n → ℝ)) (F : SvdOut) :
    (kabsch_weighted P Q W F).1 =
      (if F.V.det * F.W.det < 0 then negLastCol F.V else F.V) * F.W := rfl

/-- Unfolding of the translation component of `kabsch_weighted`. -/
theorem kabsch_weighted_T {n : ℕ} (P Q : Matrix (Fin n) (Fin 3) ℝ)
    (W : Option (Fin n → ℝ)) (F : SvdOut) :
    (kabsch_weighted P Q W F).2.1 = fun i =>
      ((∑ j, P j i * kwW W j) -
          ∑ k, (kabsch_weighted P Q W F).1 i k * ∑ j, Q j k * kwW W j) *
        (3 / ∑ j, ∑ _i : Fin 3, kwW W j) := rfl

/-- C1 amended: `kabsch_weighted(P, Q, W)` returns `(U, V, RMSD)` mapping
`Q` onto `P`, i.e. `Q·Uᵗ + V ≈ P`, not `P` onto `Q` as the claim states
(the wrapper `kabsch_weighted_fit(P, Q)` compensates by calling
`kabsch_weighted(Q, P)`).  Proved exactly for inputs related by a pure
translation `Q = P + t`: for every weight vector with positive total and
every SVD of the computed covariance whose factors satisfy `W = Vᵀ` (the
covariance is symmetric PSD here), the returned transform satisfies
`Q·Uᵗ + V = P` exactly. -/
theorem kabsch_weighted_maps_Q_onto_P {n : ℕ} (P : Matrix (Fin n) (Fin 3) ℝ)
    (t : Pt) (w : Fin n → ℝ) (hw : 0 < ∑ j, w j) (F : SvdOut)
    (hC : F.IsSvdOf (kwCov P (Matrix.of fun j i => P j i + t i) (some w)))
    (hWV : F.W = F.V.transpose) :
    ∀ j i,
      (∑ k, (kabsch_weighted P (Matrix.of fun j i => P j i + t i) (some w) F).1 i k
          * (P j k + t k))
        + (kabsch_weighted P (Matrix.of fun j i => P j i + t i) (some w) F).2.1 i
      = P j i := by
  obtain ⟨-, hV, -, -⟩ := hC
  have hVV : F.V * F.V.transpose = 1 := Matrix.mul_eq_one_comm.mp hV
  have hdet : ¬ (F.V.det * F.W.det < 0) := by
    rw [hWV, Matrix.det_transpose]
    exact not_lt.mpr (mul_self_nonneg _)
  have hU : (kabsch_weighted P (Matrix.of fun j i => P j i + t i) (some w) F).1 = 1 := by
    rw [kabsch_weighted_U, if_neg hdet, hWV]
    exact hVV
  intro j i
  rw [kabsch_weighted_T, hU]
  simp only [Matrix.one_apply, ite_mul, one_mul, zero_mul, Finset.sum_ite_eq,
    Finset.mem_univ, if_true, kwW_some, Matrix.of_apply]
  have h3 : (∑ jj, ∑ _x : Fin 3, w jj) = 3 * ∑ jj, w jj := by
    have hrow : ∀ jj, (∑ _x : Fin 3, w jj) = 3 * w jj := fun jj => by
      simp [Finset.sum_const, Finset.card_univ]
    rw [Finset.sum_congr rfl fun jj _ => hrow jj, ← Finset.mul_sum]
  have hq : (∑ jj, (P jj i + t i) * w jj) =
      (∑ jj, P jj i * w jj) + t i * ∑ jj, w jj := by
    simp only [add_mul, Finset.sum_add_distrib, Finset.mul_sum]
  rw [h3, hq]
  have hwne : (∑ jj, w jj) ≠ 0 := ne_of_gt hw
  field_simp
  ring

/-- C1 counterexample: for `P = [(1,0,0)]`, `Q = [(2,0,0)]` with default
weights and the explicit SVD of the computed covariance (the zero matrix),
`kabsch_weighted(P, Q)` returns `U = I` and translation `V = (-1,0,0)`;
the claimed relation `P·Uᵗ + V ≈ Q` fails: the first coordinate of
`P·Uᵗ + V` is 0 while that of `Q` is 2. -/
theorem kabsch_weighted_direction_counterexample :
    (SvdOut.mk 1 (fun _ => 0) 1).IsSvdOf
        (kwCov !![(1 : ℝ), 0, 0] !![(2 : ℝ), 0, 0] none) ∧
      (kabsch_weighted !![(1 : ℝ), 0, 0] !![(2 : ℝ), 0, 0] none
          (SvdOut.mk 1 (fun _ => 0) 1)).1 = 1 ∧
      (∑ k, (kabsch_weighted !![(1 : ℝ), 0, 0] !![(2 : ℝ), 0, 0] none
            (SvdOut.mk 1 (fun _ => 0) 1)).1 0 k * (!![(1 : ℝ), 0, 0]) 0 k)
          + (kabsch_weighted !![(1 : ℝ), 0, 0] !![(2 : ℝ), 0, 0] none
            (SvdOut.mk 1 (fun _ => 0) 1)).2.1 0 = 0 ∧
      (!![(2 : ℝ), 0, 0]) 0 0 = 2 := by
  have hdet : ¬ ((1 : Mat3).det * (1 : Mat3).det < 0) := by
    rw [Matrix.det_one]
    norm_num
  have hU : (kabsch_weighted !![(1 : ℝ), 0, 0] !![(2 : ℝ), 0, 0] none
      (SvdOut.mk 1 (fun _ => 0) 1)).1 = 1 := by
    rw [kabsch_weighted_U]
    simp
  refine ⟨⟨?_, by simp, by simp, fun i => le_refl 0⟩, hU, ?_, by simp⟩
  · ext i k
    simp [kwCov, kwW_none, Fin.sum_univ_one, Matrix.diagonal,
      Fin.sum_univ_three]
  · rw [kabsch_weighted_T, hU]
    simp [Matrix.one_apply, kwW_none, Fin.sum_univ_one, Fin.sum_univ_three]
    norm_num

/-- Witness for C1 (amended): the hypotheses of
`kabsch_weighted_maps_Q_onto_P` hold at the concrete input `P = [(1,0,0)]`,
`t = (1,0,0)`, unit weights, with the explicit SVD of the covariance, and
the conclusion `Q·Uᵗ + V = P` follows by applying the theorem. -/
theorem kabsch_weighted_maps_Q_onto_P_witness :
    (∑ k, (kabsch_weighted !![(1 : ℝ), 0, 0]
          (Matrix.of fun j i => (!![(1 : ℝ), 0, 0]) j i + (![1, 0, 0] : Pt) i)
          (some fun _ => 1) (SvdOut.mk 1 (fun _ => 0) 1)).1 0 k
        * ((!![(1 : ℝ), 0, 0]) 0 k + (![1, 0, 0] : Pt) k))
      + (kabsch_weighted !![(1 : ℝ), 0, 0]
          (Matrix.of fun j i => (!![(1 : ℝ), 0, 0]) j i + (![1, 0, 0] : Pt) i)
          (some fun _ => 1) (SvdOut.mk 1 (fun _ => 0) 1)).2.1 0
    = (!![(1 : ℝ), 0, 0]) 0 0 := by
  refine kabsch_weighted_maps_Q_onto_P !![(1 : ℝ), 0, 0] ![1, 0, 0]
    (fun _ => 1) (by simp) (SvdOut.mk 1 (fun _ => 0) 1) ⟨?_, by simp, by simp,
      fun i => le_refl 0⟩ (by simp) 0 0
  ext i k
  simp [kwCov, kwW_some, Fin.sum_univ_one, Matrix.diagonal, Fin.sum_univ_three]

/-- Unfolding of the RMSD component of `kabsch_weighted`. -/
theorem kabsch_weighted_R {n : ℕ} (P Q : Matrix (Fin n) (Fin 3) ℝ)
    (W : Option (Fin n → ℝ)) (F : SvdOut) :
    (kabsch_weighted P Q W F).2.2 =
      Real.sqrt (if kwMsd P Q W F < 0 then 0 else kwMsd P Q W F) := rfl

/-- Function `centroid(X)`: `X.mean(axis=0)`. -/
noncomputable def centroid {n : ℕ} (X : Matrix (Fin n) (Fin 3) ℝ) : Pt :=
  fun i => (∑ j, X j i) / n

/-- Function `kabsch_rotate(P, Q)`: `np.dot(P, kabsch(P, Q))`. -/
noncomputable def kabsch_rotate {n : ℕ} (P Q : Matrix (Fin n) (Fin 3) ℝ)
    (F : SvdOut) : Matrix (Fin n) (Fin 3) ℝ :=
  P * kabsch P Q F

/-- Plain RMSD between two equal-shape (N,3) coordinate matrices: the value
computed by `rmsd(V, W)` on equal-length inputs (the matrix-typed
specialisation of `rmsd`). -/
noncomputable def rmsdM {n : ℕ} (P Q : Matrix (Fin n) (Fin 3) ℝ) : ℝ :=
  Real.sqrt ((∑ j, ∑ i, (P j i - Q j i) * (P j i - Q j i)) / n)

/-- Function `kabsch_rmsd(P, Q, W=None, translate=False)`: optionally
recenter both matrices on their centroids, delegate to
`kabsch_weighted_rmsd` when weights are given, otherwise rotate `P` with
`kabsch` and take the plain RMSD. -/
noncomputable def kabsch_rmsd {n : ℕ} (P Q : Matrix (Fin n) (Fin 3) ℝ)
    (W : Option (Fin n → ℝ)) (translate : Bool) (F : SvdOut) : ℝ :=
  let Q2 := if translate then Matrix.of fun j i => Q j i - centroid Q i else Q
  let P2 := if translate then Matrix.of fun j i => P j i - centroid P i else P
  match W with
  | some w => (kabsch_weighted P2 Q2 (some w) F).2.2
  | none => rmsdM (kabsch_rotate P2 Q2 F) Q2

/-- Function `kabsch_weighted_rmsd(P, Q, W)`: the RMSD component of
`kabsch_weighted(P, Q, W)`. -/
noncomputable def kabsch_weighted_rmsd {n : ℕ} (P Q : Matrix (Fin n) (Fin 3) ℝ)
    (W : Option (Fin n → ℝ)) (F : SvdOut) : ℝ :=
  (kabsch_weighted P Q W F).2.2

/-- Frobenius inner product of two (N,3) matrices as a trace. -/
theorem frob_eq_trace {n : ℕ} (A B : Matrix (Fin n) (Fin 3) ℝ) :
    (∑ j, ∑ i, A j i * B j i) = Matrix.trace (A.transpose * B) := by
  rw [Matrix.trace]
  simp only [Matrix.diag_apply, Matrix.mul_apply, Matrix.transpose_apply]
  rw [Finset.sum_comm]

/-- Negating the last column preserves orthogonality. -/
theorem negLastCol_orthogonal (M : Mat3) (h : M.transpose * M = 1) :
    (negLastCol M).transpose * negLastCol M = 1 := by
  rw [negLastCol_eq_mul_diag, Matrix.transpose_mul, Matrix.diagonal_transpose,
    Matrix.mul_assoc, ← Matrix.mul_assoc M.transpose, h, Matrix.one_mul,
    Matrix.diagonal_mul_diagonal]
  ext i k
  by_cases hik : i = k
  · subst hik
    fin_cases i <;> simp [Matrix.diagonal, Matrix.one_apply]
  · simp [Matrix.diagonal, Matrix.one_apply, hik]

/-- The sign fix rewrites the factorisation: negating the last column of
`V` and the last singular value leaves `V·diag(S)` unchanged. -/
theorem negLastCol_mul_diag_negLast (M : Mat3) (S : Fin 3 → ℝ) :
    negLastCol M * Matrix.diagonal (negLast S) = M * Matrix.diagonal S := by
  rw [negLastCol_eq_mul_diag, Matrix.mul_assoc, Matrix.diagonal_mul_diagonal]
  congr 1
  ext i k
  by_cases hik : i = k
  · subst hik
    fin_cases i <;> simp [Matrix.diagonal, negLast]
  · simp [Matrix.diagonal, hik]

/-- Unfolding of `kabsch_rmsd` on the default (unweighted, untranslated)
path. -/
theorem kabsch_rmsd_none {n : ℕ} (P Q : Matrix (Fin n) (Fin 3) ℝ) (F : SvdOut) :
    kabsch_rmsd P Q none false F =
      rmsdM (P * ((if F.V.det * F.W.det < 0 then negLastCol F.V else F.V) * F.W)) Q :=
  rfl

/-- Core Kabsch identity: if the covariance factors as
`P^T·Q = Vc·diag(S2)·W` with `Vc`, `W` orthogonal, then the RMSD after
rotating `P` by `Vc·W` is the square root of
`(‖P‖² + ‖Q‖² - 2·ΣS2)/n`, and that numerator is nonnegative. -/
theorem rmsd_rotated_eq {n : ℕ} (P Q : Matrix (Fin n) (Fin 3) ℝ)
    (Vc Wm : Mat3) (S2 : Fin 3 → ℝ)
    (hVc : Vc.transpose * Vc = 1) (hWm : Wm.transpose * Wm = 1)
    (hfact : P.transpose * Q = Vc * Matrix.diagonal S2 * Wm) :
    rmsdM (P * (Vc * Wm)) Q =
        Real.sqrt (((∑ j, ∑ i, P j i * P j i) + (∑ j, ∑ i, Q j i * Q j i)
          - 2 * ∑ i, S2 i) / n) ∧
      0 ≤ (∑ j, ∑ i, P j i * P j i) + (∑ j, ∑ i, Q j i * Q j i)
          - 2 * ∑ i, S2 i := by
  have hVcc : Vc * Vc.transpose = 1 := Matrix.mul_eq_one_comm.mp hVc
  have hWmc : Wm * Wm.transpose = 1 := Matrix.mul_eq_one_comm.mp hWm
  have hUU : (Vc * Wm) * (Vc * Wm).transpose = 1 := by
    rw [Matrix.transpose_mul, Matrix.mul_assoc, ← Matrix.mul_assoc Wm, hWmc,
      Matrix.one_mul, hVcc]
  have hPP : (∑ j, ∑ i, (P * (Vc * Wm)) j i * (P * (Vc * Wm)) j i) =
      ∑ j, ∑ i, P j i * P j i := by
    rw [frob_eq_trace, frob_eq_trace, Matrix.transpose_mul,
      Matrix.trace_mul_comm, Matrix.mul_assoc, ← Matrix.mul_assoc (Vc * Wm),
      hUU, Matrix.one_mul, Matrix.trace_mul_comm]
  have hPQ : (∑ j, ∑ i, (P * (Vc * Wm)) j i * Q j i) = ∑ i, S2 i := by
    rw [frob_eq_trace, Matrix.transpose_mul, Matrix.mul_assoc, hfact,
      Matrix.transpose_mul, Matrix.trace_mul_comm,
      Matrix.mul_assoc (Vc * Matrix.diagonal S2), ← Matrix.mul_assoc Wm, hWmc,
      Matrix.one_mul, Matrix.trace_mul_comm, ← Matrix.mul_assoc, hVc,
      Matrix.one_mul, Matrix.trace_diagonal]
  have hexp : (∑ j, ∑ i, ((P * (Vc * Wm)) j i - Q j i) *
        ((P * (Vc * Wm)) j i - Q j i)) =
      (∑ j, ∑ i, P j i * P j i) + (∑ j, ∑ i, Q j i * Q j i)
        - 2 * ∑ i, S2 i := by
    have hpt : (∑ j, ∑ i, ((P * (Vc * Wm)) j i - Q j i) *
          ((P * (Vc * Wm)) j i - Q j i)) =
        ∑ j, ∑ i, ((P * (Vc * Wm)) j i * (P * (Vc * Wm)) j i
          + Q j i * Q j i - 2 * ((P * (Vc * Wm)) j i * Q j i)) :=
      Finset.sum_congr rfl fun j _ => Finset.sum_congr rfl fun i _ => by ring
    rw [hpt]
    simp only [Finset.sum_sub_distrib, Finset.sum_add_distrib, ← Finset.mul_sum]
    rw [hPP, hPQ]
  refine ⟨?_, by
    rw [← hexp]
    exact Finset.sum_nonneg fun j _ => Finset.sum_nonneg fun i _ =>
      mul_self_nonneg _⟩
  rw [rmsdM, hexp]

/-- Pointwise scaling commutes with the last-entry sign flip. -/
theorem negLast_div (S : Fin 3 → ℝ) (c : ℝ) :
    negLast (fun i => S i / c) = fun i => negLast S i / c := by
  funext i
  rw [negLast, negLast]
  split_ifs
  · rw [neg_div]
  · rfl

/-- Value of the unclamped `msd` of `kabsch_weighted` under uniform weights
`1/N` on origin-centered inputs. -/
theorem kwMsd_uniform_centered {n : ℕ} (hn : 0 < n)
    (P Q : Matrix (Fin n) (Fin 3) ℝ)
    (hP : ∀ i, (∑ j, P j i) = 0) (hQ : ∀ i, (∑ j, Q j i) = 0) (F : SvdOut) :
    kwMsd P Q (some fun _ => 1 / (n : ℝ)) F =
      (∑ j, ∑ i, P j i * P j i) / n + (∑ j, ∑ i, Q j i * Q j i) / n
        - 2 * ∑ i, (if F.V.det * F.W.det < 0 then negLast F.S else F.S) i := by
  have hnne : (n : ℝ) ≠ 0 := Nat.cast_ne_zero.mpr hn.ne'
  have hiw : (3 : ℝ) / (∑ _j : Fin n, ∑ _i : Fin 3, 1 / (n : ℝ)) = 1 := by
    simp only [Finset.sum_const, Finset.card_univ, Fintype.card_fin,
      nsmul_eq_mul]
    field_simp
  have hCMP : ∀ i : Fin 3, (∑ j, P j i * (1 / (n : ℝ))) = 0 := fun i => by
    rw [← Finset.sum_mul, hP, zero_mul]
  have hCMQ : ∀ i : Fin 3, (∑ j, Q j i * (1 / (n : ℝ))) = 0 := fun i => by
    rw [← Finset.sum_mul, hQ, zero_mul]
  have hPsq : (∑ j, ∑ i, P j i * P j i * (1 / (n : ℝ)))
      = (∑ j, ∑ i, P j i * P j i) / n := by
    rw [Finset.sum_div]
    refine Finset.sum_congr rfl fun j _ => ?_
    rw [Finset.sum_div]
    exact Finset.sum_congr rfl fun i _ => by ring
  have hQsq : (∑ j, ∑ i, Q j i * Q j i * (1 / (n : ℝ)))
      = (∑ j, ∑ i, Q j i * Q j i) / n := by
    rw [Finset.sum_div]
    refine Finset.sum_congr rfl fun j _ => ?_
    rw [Finset.sum_div]
    exact Finset.sum_congr rfl fun i _ => by ring
  rw [kwMsd]
  simp only [kwW_some, hiw, hPsq, hQsq]
  simp only [hCMP, hCMQ, zero_mul, Finset.sum_const, Finset.card_univ,
    smul_zero, mul_one, sub_zero, one_mul]

/-- C8 amended: the unweighted Kabsch RMSD path and the weighted path with
uniform weights `1/N` agree exactly, provided `P` and `Q` are centered at
the origin (as the claim's sources assume of Kabsch inputs); the SVD of
the weighted covariance `P^T·Q/N` is the SVD of `P^T·Q` with singular
values scaled by `1/N`.  Without the centering hypothesis the two sides
differ, since `kabsch_weighted` additionally optimizes a translation (see
the counterexample). -/
theorem kabsch_rmsd_eq_weighted_uniform {n : ℕ} (hn : 0 < n)
    (P Q : Matrix (Fin n) (Fin 3) ℝ)
    (hP : ∀ i, (∑ j, P j i) = 0) (hQ : ∀ i, (∑ j, Q j i) = 0)
    (F : SvdOut) (hF : F.IsSvdOf (P.transpose * Q)) :
    kabsch_rmsd P Q none false F =
      kabsch_weighted_rmsd P Q (some fun _ => 1 / (n : ℝ))
        (SvdOut.mk F.V (fun i => F.S i / n) F.W) := by
  obtain ⟨hC, hV, hW, hS⟩ := hF
  have hnR : (0 : ℝ) < n := by exact_mod_cast hn
  have hnne : (n : ℝ) ≠ 0 := ne_of_gt hnR
  have hVc : (if F.V.det * F.W.det < 0 then negLastCol F.V else F.V).transpose *
      (if F.V.det * F.W.det < 0 then negLastCol F.V else F.V) = 1 := by
    split_ifs with h
    · exact negLastCol_orthogonal F.V hV
    · exact hV
  have hfact : P.transpose * Q =
      (if F.V.det * F.W.det < 0 then negLastCol F.V else F.V) *
        Matrix.diagonal (if F.V.det * F.W.det < 0 then negLast F.S else F.S) *
        F.W := by
    rw [hC]
    split_ifs with h
    · rw [negLastCol_mul_diag_negLast]
    · rfl
  have key := rmsd_rotated_eq P Q
    (if F.V.det * F.W.det < 0 then negLastCol F.V else F.V) F.W
    (if F.V.det * F.W.det < 0 then negLast F.S else F.S) hVc hW hfact
  rw [kabsch_rmsd_none, key.1, kabsch_weighted_rmsd, kabsch_weighted_R,
    kwMsd_uniform_centered hn P Q hP hQ]
  have hsum : (∑ i, (if F.V.det * F.W.det < 0 then
        negLast (fun i => F.S i / (n : ℝ)) else fun i => F.S i / (n : ℝ)) i) =
      (∑ i, (if F.V.det * F.W.det < 0 then negLast F.S else F.S) i) / n := by
    split_ifs with h
    · rw [negLast_div, ← Finset.sum_div]
    · rw [← Finset.sum_div]
  rw [hsum]
  have hm : (∑ j, ∑ i, P j i * P j i) / n + (∑ j, ∑ i, Q j i * Q j i) / n
      - 2 * ((∑ i, (if F.V.det * F.W.det < 0 then negLast F.S else F.S) i) / n)
      = ((∑ j, ∑ i, P j i * P j i) + (∑ j, ∑ i, Q j i * Q j i)
        - 2 * ∑ i, (if F.V.det * F.W.det < 0 then negLast F.S else F.S) i) / n := by
    field_simp
  rw [hm]
  have hm0 : 0 ≤ ((∑ j, ∑ i, P j i * P j i) + (∑ j, ∑ i, Q j i * Q j i)
      - 2 * ∑ i, (if F.V.det * F.W.det < 0 then negLast F.S else F.S) i) / n :=
    div_nonneg key.2 (le_of_lt hnR)
  rw [if_neg (not_lt.mpr hm0)]

/-- C8 counterexample: for the non-centered pair `P = [(1,0,0)]`,
`Q = [(2,0,0)]` (with N = 1 the uniform weight vector `1/N` is `(1)`), the
unweighted path returns `kabsch_rmsd(P, Q) = 1` while the weighted path
returns `kabsch_weighted_rmsd(P, Q, W) = 0`: the weighted path also
optimizes the translation, so the claimed equivalence fails on
non-centered inputs. -/
theorem kabsch_rmsd_weighted_uniform_counterexample :
    (SvdOut.mk 1 ![2, 0, 0] 1).IsSvdOf
        ((!![(1 : ℝ), 0, 0]).transpose * !![(2 : ℝ), 0, 0]) ∧
      (SvdOut.mk 1 (fun _ => 0) 1).IsSvdOf
        (kwCov !![(1 : ℝ), 0, 0] !![(2 : ℝ), 0, 0] (some fun _ => 1)) ∧
      kabsch_rmsd !![(1 : ℝ), 0, 0] !![(2 : ℝ), 0, 0] none false
          (SvdOut.mk 1 ![2, 0, 0] 1) = 1 ∧
      kabsch_weighted_rmsd !![(1 : ℝ), 0, 0] !![(2 : ℝ), 0, 0]
          (some fun _ => 1) (SvdOut.mk 1 (fun _ => 0) 1) = 0 := by
  refine ⟨⟨?_, by simp, by simp, ?_⟩, ⟨?_, by simp, by simp, fun i => le_refl 0⟩,
    ?_, ?_⟩
  · ext i k
    rw [Matrix.mul_apply]
    fin_cases i <;> fin_cases k <;>
      simp [Matrix.diagonal, Fin.sum_univ_succ]
  · intro i
    fin_cases i <;> norm_num
  · ext i k
    simp [kwCov, kwW_some, Fin.sum_univ_one, Matrix.diagonal,
      Fin.sum_univ_three]
  · rw [kabsch_rmsd_none]
    norm_num [rmsdM, Fin.sum_univ_one, Fin.sum_univ_three]
  · rw [kabsch_weighted_rmsd, kabsch_weighted_R]
    have hm : kwMsd !![(1 : ℝ), 0, 0] !![(2 : ℝ), 0, 0]
        (some fun _ => 1) (SvdOut.mk 1 (fun _ => 0) 1) = 0 := by
      norm_num [kwMsd, kwW_some, Fin.sum_univ_one, Fin.sum_univ_three]
    rw [hm]
    norm_num

/-- Witness for C8 (amended): the hypotheses of
`kabsch_rmsd_eq_weighted_uniform` hold at the centered two-point input
`P = Q = [(1,0,0), (-1,0,0)]` with the explicit SVD of the covariance
`diag(2,0,0)`, so the two paths agree there. -/
theorem kabsch_rmsd_eq_weighted_uniform_witness :
    kabsch_rmsd !![(1 : ℝ), 0, 0; -1, 0, 0] !![(1 : ℝ), 0, 0; -1, 0, 0]
        none false (SvdOut.mk 1 ![2, 0, 0] 1) =
      kabsch_weighted_rmsd !![(1 : ℝ), 0, 0; -1, 0, 0]
        !![(1 : ℝ), 0, 0; -1, 0, 0]
        (some fun _ => 1 / ((2 : ℕ) : ℝ))
        (SvdOut.mk 1 (fun i => (![2, 0, 0] : Fin 3 → ℝ) i / ((2 : ℕ) : ℝ)) 1) := by
  refine kabsch_rmsd_eq_weighted_uniform (by norm_num) _ _ ?_ ?_ _
    ⟨?_, by simp, by simp, ?_⟩
  · intro i
    fin_cases i <;> simp [Fin.sum_univ_two]
  · intro i
    fin_cases i <;> simp [Fin.sum_univ_two]
  · ext i k
    rw [Matrix.mul_apply]
    fin_cases i <;> fin_cases k <;>
      simp [Matrix.diagonal, Fin.sum_univ_succ] <;> norm_num
  · intro i
    fin_cases i <;> norm_num

/-- The static atomic mass table `ELEMENTS_WEIGHTS` (lower-cased element
symbol to atomic mass; masses kept as exact decimals). -/
def ELEMENTS_WEIGHTS : String → Option ℚ := fun s =>
  match s with
  | "h" => some 1.008
  | "he" => some 4.003
  | "li" => some 6.941
  | "be" => some 9.012
  | "b" => some 10.811
  | "c" => some 12.011
  | "n" => some 14.007
  | "o" => some 15.999
  | "f" => some 18.998
  | "ne" => some 20.180
  | "na" => some 22.990
  | "mg" => some 24.305
  | "al" => some 26.982
  | "si" => some 28.086
  | "p" => some 30.974
  | "s" => some 32.066
  | "cl" => some 35.453
  | "ar" => some 39.948
  | "k" => some 39.098
  | "ca" => some 40.078
  | "sc" => some 44.956
  | "ti" => some 47.867
  | "v" => some 50.942
  | "cr" => some 51.996
  | "mn" => some 54.938
  | "fe" => some 55.845
  | "co" => some 58.933
  | "ni" => some 58.693
  | "cu" => some 63.546
  | "zn" => some 65.38
  | "ga" => some 69.723
  | "ge" => some 72.631
  | "as" => some 74.922
  | "se" => some 78.971
  | "br" => some 79.904
  | "kr" => some 84.798
  | "rb" => some 84.468
  | "sr" => some 87.62
  | "y" => some 88.906
  | "zr" => some 91.224
  | "nb" => some 92.906
  | "mo" => some 95.95
  | "tc" => some 98.907
  | "ru" => some 101.07
  | "rh" => some 102.906
  | "pd" => some 106.42
  | "ag" => some 107.868
  | "cd" => some 112.414
  | "in" => some 114.818
  | "sn" => some 118.711
  | "sb" => some 121.760
  | "te" => some 126.7
  | "i" => some 126.904
  | "xe" => some 131.294
  | "cs" => some 132.905
  | "ba" => some 137.328
  | "la" => some 138.905
  | "ce" => some 140.116
  | "pr" => some 140.908
  | "nd" => some 144.243
  | "pm" => some 144.913
  | "sm" => some 150.36
  | "eu" => some 151.964
  | "gd" => some 157.25
  | "tb" => some 158.925
  | "dy" => some 162.500
  | "ho" => some 164.930
  | "er" => some 167.259
  | "tm" => some 168.934
  | "yb" => some 173.055
  | "lu" => some 174.967
  | "hf" => some 178.49
  | "ta" => some 180.948
  | "w" => some 183.84
  | "re" => some 186.207
  | "os" => some 190.23
  | "ir" => some 192.217
  | "pt" => some 195.085
  | "au" => some 196.967
  | "hg" => some 200.592
  | "tl" => some 204.383
  | "pb" => some 207.2
  | "bi" => some 208.980
  | "po" => some 208.982
  | "at" => some 209.987
  | "rn" => some 222.081
  | "fr" => some 223.020
  | "ra" => some 226.025
  | "ac" => some 227.028
  | "th" => some 232.038
  | "pa" => some 231.036
  | "u" => some 238.029
  | "np" => some 237
  | "pu" => some 244
  | "am" => some 243
  | "cm" => some 247
  | "bk" => some 247
  | "ct" => some 251
  | "es" => some 252
  | "fm" => some 257
  | "md" => some 258
  | "no" => some 259
  | "lr" => some 262
  | "rf" => some 261
  | "db" => some 262
  | "sg" => some 266
  | "bh" => some 264
  | "hs" => some 269
  | "mt" => some 268
  | "ds" => some 271
  | "rg" => some 272
  | "cn" => some 285
  | "nh" => some 284
  | "fl" => some 289
  | "mc" => some 288
  | "lv" => some 292
  | "ts" => some 294
  | "og" => some 294
  | _ => none

/-- ASCII lower-casing, modelling python `str.lower()` on element symbols. -/
def strLower (s : String) : String := String.mk (s.data.map Char.toLower)

/-- Mass lookup `ELEMENTS_WEIGHTS[x.lower()]` as a real number.  A missing
symbol raises `KeyError` (`UnknownElement`) in the source; this total
model returns 0 there instead.  Any theorem about a code path that
performs mass lookups must therefore restrict itself to labels present
in the table — see the labels-in-table guard on the
`reorder_inertia_hungarian` conjunct of the strategy theorem. -/
noncomputable def massOf (s : String) : ℝ :=
  (((ELEMENTS_WEIGHTS (strLower s)).getD 0 : ℚ) : ℝ)

/-- Function `get_cm(atoms, V)`:
`np.average(V, axis=0, weights=[ELEMENTS_WEIGHTS[x.lower()] for x in atoms])`,
the mass-weighted mean `Σ m_j·V_j / Σ m_j`. -/
noncomputable def get_cm (atoms : List String) (V : List Pt) : Pt := fun i =>
  ((atoms.zip V).map fun p => massOf p.1 * p.2 i).sum / (atoms.map massOf).sum

/-- Function `get_inertia_tensor(atoms, V)`: subtract the center of mass,
then accumulate the six distinct entries of the symmetric inertia tensor
over `zip(atoms, CV)` with per-atom masses. -/
noncomputable def get_inertia_tensor (atoms : List String) (V : List Pt) : Mat3 :=
  let CV := V.map fun v => fun i => v i - get_cm atoms V i
  let pairs := atoms.zip CV
  let Ixx := (pairs.map fun p => massOf p.1 * (p.2 1 * p.2 1 + p.2 2 * p.2 2)).sum
  let Iyy := (pairs.map fun p => massOf p.1 * (p.2 0 * p.2 0 + p.2 2 * p.2 2)).sum
  let Izz := (pairs.map fun p => massOf p.1 * (p.2 0 * p.2 0 + p.2 1 * p.2 1)).sum
  let Ixy := (pairs.map fun p => -(massOf p.1) * p.2 0 * p.2 1).sum
  let Ixz := (pairs.map fun p => -(massOf p.1) * p.2 0 * p.2 2).sum
  let Iyz := (pairs.map fun p => -(massOf p.1) * p.2 1 * p.2 2).sum
  !![Ixx, Ixy, Ixz; Ixy, Iyy, Iyz; Ixz, Iyz, Izz]

/-- Output `(eigval, eigvec)` of the external call `np.linalg.eig(I)`: the
columns `eigvec[:, i]` are eigenvectors for the eigenvalues `eigval[i]`.
Like the SVD, the eigendecomposition is passed as a parameter and its
defining properties are hypothesized. -/
structure EigOut where
  eigval : Fin 3 → ℝ
  eigvec : Mat3

/-- Index of the first maximal entry of a 3-vector, `np.argmax`. -/
noncomputable def argmax3 (v : Fin 3 → ℝ) : Fin 3 :=
  if v 1 ≤ v 0 ∧ v 2 ≤ v 0 then 0 else if v 2 ≤ v 1 then 1 else 2

/-- Function `get_principal_axis(atoms, V)`: eigendecompose the inertia
tensor and return `eigvec[np.argmax(eigval)]` — note this indexes a ROW of
the eigenvector matrix, not a column. -/
noncomputable def get_principal_axis (atoms : List String) (V : List Pt)
    (E : EigOut) : Pt :=
  fun k => E.eigvec (argmax3 E.eigval) k

/-- Mass of hydrogen as used by the embedding. -/
theorem massOf_H : massOf "H" = ((1.008 : ℚ) : ℝ) := rfl

/-- C2: `get_principal_axis` does not return an eigenvector of the largest
eigenvalue of the inertia tensor.  `np.linalg.eig` returns eigenvectors as
COLUMNS of `eigvec`, but the source returns `eigvec[np.argmax(eigval)]`, a
ROW.  On the four-hydrogen input below, with a valid eigendecomposition of
the inertia tensor (first conjunct: each column is an eigenvector; second
conjunct: the last eigenvalue is the strictly largest), the function
returns the row `(1/3, 2/3, 2/3)` (third conjunct), which is not an
eigenvector of the tensor for any eigenvalue (fourth conjunct); the
principal axis is the column `(1/3, -2/3, 2/3)`. -/
theorem get_principal_axis_returns_row_not_eigenvector :
    (∀ idx : Fin 3,
      (get_inertia_tensor ["H", "H", "H", "H"]
          [![2, 2, 1], ![-2, -2, -1], ![-2, 1, 2], ![2, -1, -2]]).mulVec
          (fun i => (!![(2 : ℝ)/3, -2/3, 1/3; 2/3, 1/3, -2/3; 1/3, 2/3, 2/3]) i idx)
        = (![2268/125, 2268/125, 4536/125] : Fin 3 → ℝ) idx •
          (fun i => (!![(2 : ℝ)/3, -2/3, 1/3; 2/3, 1/3, -2/3; 1/3, 2/3, 2/3]) i idx)) ∧
      ((![2268/125, 2268/125, 4536/125] : Fin 3 → ℝ) 0
          < (![2268/125, 2268/125, 4536/125] : Fin 3 → ℝ) 2 ∧
        (![2268/125, 2268/125, 4536/125] : Fin 3 → ℝ) 1
          < (![2268/125, 2268/125, 4536/125] : Fin 3 → ℝ) 2) ∧
      get_principal_axis ["H", "H", "H", "H"]
          [![2, 2, 1], ![-2, -2, -1], ![-2, 1, 2], ![2, -1, -2]]
          (EigOut.mk ![2268/125, 2268/125, 4536/125]
            !![(2 : ℝ)/3, -2/3, 1/3; 2/3, 1/3, -2/3; 1/3, 2/3, 2/3])
        = ![1/3, 2/3, 2/3] ∧
      ¬ ∃ mu : ℝ,
        (get_inertia_tensor ["H", "H", "H", "H"]
            [![2, 2, 1], ![-2, -2, -1], ![-2, 1, 2], ![2, -1, -2]]).mulVec
          ![1/3, 2/3, 2/3] = mu • (![1/3, 2/3, 2/3] : Fin 3 → ℝ) := by
  have hcm : ∀ i, get_cm ["H", "H", "H", "H"]
      [![2, 2, 1], ![-2, -2, -1], ![-2, 1, 2], ![2, -1, -2]] i = 0 := by
    intro i
    fin_cases i <;>
      norm_num [get_cm, massOf_H, List.zip_cons_cons, Fin.isValue]
  have hT : get_inertia_tensor ["H", "H", "H", "H"]
      [![2, 2, 1], ![-2, -2, -1], ![-2, 1, 2], ![2, -1, -2]] =
      !![(504 : ℝ)/25, -504/125, 504/125;
         -504/125, 3276/125, -1008/125;
         504/125, -1008/125, 3276/125] := by
    ext i k
    fin_cases i <;> fin_cases k <;>
      norm_num [get_inertia_tensor, hcm, massOf_H, List.zip_cons_cons]
  refine ⟨?_, by norm_num, ?_, ?_⟩
  · intro idx
    rw [hT]
    funext i
    fin_cases idx <;> fin_cases i <;>
      norm_num [Matrix.mulVec, Matrix.dotProduct, Fin.sum_univ_three,
        Pi.smul_apply, smul_eq_mul]
  · funext k
    rw [get_principal_axis]
    have hargmax : argmax3 (![2268/125, 2268/125, 4536/125] : Fin 3 → ℝ) = 2 := by
      rw [argmax3]
      norm_num
    rw [hargmax]
    fin_cases k <;> norm_num
  · rintro ⟨mu, h⟩
    rw [hT] at h
    have h0 := congrFun h 0
    have h1 := congrFun h 1
    norm_num [Matrix.mulVec, Matrix.dotProduct, Fin.sum_univ_three,
      Pi.smul_apply, smul_eq_mul] at h0 h1
    linarith

/-- Axis-permutation triple, one row of `AXIS_SWAPS`. -/
abbrev Swap3 := Fin 3 → Fin 3

/-- Sign triple, one row of `AXIS_REFLECTIONS` (integers in the source). -/
abbrev Refl3 := Fin 3 → ℤ

/-- The 6 axis permutations, in source order. -/
def AXIS_SWAPS : List Swap3 :=
  [![0, 1, 2], ![0, 2, 1], ![1, 0, 2], ![1, 2, 0], ![2, 1, 0], ![2, 0, 1]]

/-- The 8 sign reflections, in source order. -/
def AXIS_REFLECTIONS : List Refl3 :=
  [![1, 1, 1], ![-1, 1, 1], ![1, -1, 1], ![1, 1, -1],
   ![-1, -1, 1], ![-1, 1, -1], ![1, -1, -1], ![-1, -1, -1]]

/-- The hard-coded `swap_mask` of `check_reflections`. -/
def swap_mask : List ℤ := [1, -1, -1, 1, -1, 1]

/-- The hard-coded `reflection_mask` of `check_reflections`. -/
def reflection_mask : List ℤ := [1, -1, -1, -1, 1, 1, 1, -1]

/-- Sign of an axis permutation: -1 to the number of inversions. -/
def swapParity (f : Swap3) : ℤ :=
  (if f 0 < f 1 then 1 else -1) * (if f 0 < f 2 then 1 else -1) *
    (if f 1 < f 2 then 1 else -1)

/-- Sign of a reflection triple: the product of its entries. -/
def reflParity (r : Refl3) : ℤ := r 0 * r 1 * r 2

/-- A (swap, reflection) candidate is proper when the product of the two
parities is +1. -/
def properPair (c : (Swap3 × ℤ) × (Refl3 × ℤ)) : Prop :=
  swapParity c.1.1 * reflParity c.2.1 = 1

instance properPair.decPred : DecidablePred properPair := fun c => by
  unfold properPair
  infer_instance

/-- The zipped (swap, mask) × (reflection, mask) pairs the double loop of
`check_reflections` runs its body on, in source order: all 48 pairs minus
those the `keep_stereo and i * j == -1: continue` guard skips. -/
def consideredCandidates (keep_stereo : Bool) :
    List ((Swap3 × ℤ) × (Refl3 × ℤ)) :=
  ((AXIS_SWAPS.zip swap_mask).product
      (AXIS_REFLECTIONS.zip reflection_mask)).filter
    fun c => !(keep_stereo && decide (c.1.2 * c.2.2 = -1))

/-- One candidate transform of `q_coord` inside the loop body:
`tmp_coord = q_coord[:, swap]`, then `np.dot(tmp_coord, np.diag(reflection))`,
then `tmp_coord -= centroid(tmp_coord)`. -/
noncomputable def reflectedCoord {n : ℕ} (q_coord : Matrix (Fin n) (Fin 3) ℝ)
    (swap : Swap3) (refl : Refl3) : Matrix (Fin n) (Fin 3) ℝ :=
  let t1 := Matrix.of fun j i => q_coord j (swap i)
  let t2 := Matrix.of fun j i => t1 j i * (refl i : ℝ)
  Matrix.of fun j i => t2 j i - centroid t2 i

/-- The `tmp_review` computed for one candidate of `check_reflections`
(`None` when no reorder method is given). -/
noncomputable def crRev {n : ℕ} (p_atoms q_atoms : Fin n → ℕ)
    (p_coord q_coord : Matrix (Fin n) (Fin 3) ℝ)
    (reorder_method : Option ((Fin n → ℕ) → (Fin n → ℕ) →
      Matrix (Fin n) (Fin 3) ℝ → Matrix (Fin n) (Fin 3) ℝ → (Fin n → Fin n)))
    (c : (Swap3 × ℤ) × (Refl3 × ℤ)) : Option (Fin n → Fin n) :=
  match reorder_method with
  | some rm => some (rm p_atoms q_atoms p_coord (reflectedCoord q_coord c.1.1 c.2.1))
  | none => none

/-- The `this_rmsd` scored for one candidate of `check_reflections`:
reorder the reflected coordinates when a reorder method is given, then
score with the rotation method (plain RMSD when it is `None`). -/
noncomputable def crScore {n : ℕ} (p_atoms q_atoms : Fin n → ℕ)
    (p_coord q_coord : Matrix (Fin n) (Fin 3) ℝ)
    (reorder_method : Option ((Fin n → ℕ) → (Fin n → ℕ) →
      Matrix (Fin n) (Fin 3) ℝ → Matrix (Fin n) (Fin 3) ℝ → (Fin n → Fin n)))
    (rotation_method :
      Option (Matrix (Fin n) (Fin 3) ℝ → Matrix (Fin n) (Fin 3) ℝ → ℝ))
    (c : (Swap3 × ℤ) × (Refl3 × ℤ)) : ℝ :=
  let tmp0 := reflectedCoord q_coord c.1.1 c.2.1
  let tmp : Matrix (Fin n) (Fin 3) ℝ :=
    match reorder_method with
    | some rm => Matrix.of fun j i => tmp0 (rm p_atoms q_atoms p_coord tmp0 j) i
    | none => tmp0
  match rotation_method with
  | none => rmsdM p_coord tmp
  | some rot => rot p_coord tmp

/-- The loop body of `check_reflections`, acting on the tracked minimum
(`none` models the initial `min_rmsd = inf` with unset swap/reflection):
keep the candidate when its RMSD is strictly smaller. -/
noncomputable def crStep {n : ℕ} (p_atoms q_atoms : Fin n → ℕ)
    (p_coord q_coord : Matrix (Fin n) (Fin 3) ℝ)
    (reorder_method : Option ((Fin n → ℕ) → (Fin n → ℕ) →
      Matrix (Fin n) (Fin 3) ℝ → Matrix (Fin n) (Fin 3) ℝ → (Fin n → Fin n)))
    (rotation_method :
      Option (Matrix (Fin n) (Fin 3) ℝ → Matrix (Fin n) (Fin 3) ℝ → ℝ))
    (best : Option (ℝ × Swap3 × Refl3 × Option (Fin n → Fin n)))
    (c : (Swap3 × ℤ) × (Refl3 × ℤ)) :
    Option (ℝ × Swap3 × Refl3 × Option (Fin n → Fin n)) :=
  match best with
  | none => some (crScore p_atoms q_atoms p_coord q_coord reorder_method
      rotation_method c, c.1.1, c.2.1,
      crRev p_atoms q_atoms p_coord q_coord reorder_method c)
  | some b =>
    if crScore p_atoms q_atoms p_coord q_coord reorder_method
        rotation_method c < b.1 then
      some (crScore p_atoms q_atoms p_coord q_coord reorder_method
        rotation_method c, c.1.1, c.2.1,
        crRev p_atoms q_atoms p_coord q_coord reorder_method c)
    else some b

/-- Function `check_reflections(...)` of the source: fold the loop body over
the considered candidates, starting from the unset minimum.  (The final
`p_atoms == q_atoms[min_review]` consistency assertion, which merely aborts
the process, is outside the scope of the claims modelled here.) -/
noncomputable def check_reflections {n : ℕ} (p_atoms q_atoms : Fin n → ℕ)
    (p_coord q_coord : Matrix (Fin n) (Fin 3) ℝ)
    (reorder_method : Option ((Fin n → ℕ) → (Fin n → ℕ) →
      Matrix (Fin n) (Fin 3) ℝ → Matrix (Fin n) (Fin 3) ℝ → (Fin n → Fin n)))
    (rotation_method :
      Option (Matrix (Fin n) (Fin 3) ℝ → Matrix (Fin n) (Fin 3) ℝ → ℝ))
    (keep_stereo : Bool) :
    Option (ℝ × Swap3 × Refl3 × Option (Fin n → Fin n)) :=
  (consideredCandidates keep_stereo).foldl
    (crStep p_atoms q_atoms p_coord q_coord reorder_method rotation_method)
    none

/-- The loop body either keeps the tracked minimum or installs the current
candidate's swap and reflection. -/
theorem crStep_cases {n : ℕ} (pa qa : Fin n → ℕ)
    (pc qc : Matrix (Fin n) (Fin 3) ℝ)
    (rm : Option ((Fin n → ℕ) → (Fin n → ℕ) →
      Matrix (Fin n) (Fin 3) ℝ → Matrix (Fin n) (Fin 3) ℝ → (Fin n → Fin n)))
    (rot : Option (Matrix (Fin n) (Fin 3) ℝ → Matrix (Fin n) (Fin 3) ℝ → ℝ))
    (acc : Option (ℝ × Swap3 × Refl3 × Option (Fin n → Fin n)))
    (c : (Swap3 × ℤ) × (Refl3 × ℤ)) :
    crStep pa qa pc qc rm rot acc c = acc ∨
      ∃ r rev, crStep pa qa pc qc rm rot acc c = some (r, c.1.1, c.2.1, rev) := by
  cases acc with
  | none =>
    right
    exact ⟨_, _, rfl⟩
  | some b =>
    rw [crStep]
    split_ifs with h
    · right
      exact ⟨_, _, rfl⟩
    · left
      rfl

/-- The loop body never unsets the tracked minimum. -/
theorem crStep_ne_none {n : ℕ} (pa qa : Fin n → ℕ)
    (pc qc : Matrix (Fin n) (Fin 3) ℝ)
    (rm : Option ((Fin n → ℕ) → (Fin n → ℕ) →
      Matrix (Fin n) (Fin 3) ℝ → Matrix (Fin n) (Fin 3) ℝ → (Fin n → Fin n)))
    (rot : Option (Matrix (Fin n) (Fin 3) ℝ → Matrix (Fin n) (Fin 3) ℝ → ℝ))
    (acc : Option (ℝ × Swap3 × Refl3 × Option (Fin n → Fin n)))
    (c : (Swap3 × ℤ) × (Refl3 × ℤ)) :
    crStep pa qa pc qc rm rot acc c ≠ none := by
  cases acc with
  | none => exact fun h => Option.noConfusion h
  | some b =>
    rw [crStep]
    split_ifs with h <;> exact fun h2 => Option.noConfusion h2

/-- Folding the loop body from a set minimum keeps it set. -/
theorem crStep_foldl_ne_none {n : ℕ} (pa qa : Fin n → ℕ)
    (pc qc : Matrix (Fin n) (Fin 3) ℝ)
    (rm : Option ((Fin n → ℕ) → (Fin n → ℕ) →
      Matrix (Fin n) (Fin 3) ℝ → Matrix (Fin n) (Fin 3) ℝ → (Fin n → Fin n)))
    (rot : Option (Matrix (Fin n) (Fin 3) ℝ → Matrix (Fin n) (Fin 3) ℝ → ℝ))
    (l : List ((Swap3 × ℤ) × (Refl3 × ℤ)))
    (b : ℝ × Swap3 × Refl3 × Option (Fin n → Fin n)) :
    l.foldl (crStep pa qa pc qc rm rot) (some b) ≠ none := by
  induction l generalizing b with
  | nil => exact fun h => Option.noConfusion h
  | cons c l ih =>
    rw [List.foldl_cons]
    rcases hs : crStep pa qa pc qc rm rot (some b) c with - | b2
    · exact absurd hs (crStep_ne_none pa qa pc qc rm rot (some b) c)
    · exact ih b2

/-- The result of folding the loop body is the start value or carries the
swap and reflection of one of the folded candidates. -/
theorem crStep_foldl_shape {n : ℕ} (pa qa : Fin n → ℕ)
    (pc qc : Matrix (Fin n) (Fin 3) ℝ)
    (rm : Option ((Fin n → ℕ) → (Fin n → ℕ) →
      Matrix (Fin n) (Fin 3) ℝ → Matrix (Fin n) (Fin 3) ℝ → (Fin n → Fin n)))
    (rot : Option (Matrix (Fin n) (Fin 3) ℝ → Matrix (Fin n) (Fin 3) ℝ → ℝ))
    (l : List ((Swap3 × ℤ) × (Refl3 × ℤ))) :
    ∀ acc, l.foldl (crStep pa qa pc qc rm rot) acc = acc ∨
      ∃ c ∈ l, ∃ r rev,
        l.foldl (crStep pa qa pc qc rm rot) acc = some (r, c.1.1, c.2.1, rev) := by
  induction l with
  | nil =>
    intro acc
    left
    rfl
  | cons c l ih =>
    intro acc
    rw [List.foldl_cons]
    rcases ih (crStep pa qa pc qc rm rot acc c) with h | h
    · rw [h]
      rcases crStep_cases pa qa pc qc rm rot acc c with h2 | ⟨r, rev, h2⟩
      · left
        exact h2
      · right
        exact ⟨c, List.mem_cons_self c l, r, rev, h2⟩
    · obtain ⟨c2, hc2, r, rev, h2⟩ := h
      right
      exact ⟨c2, List.mem_cons_of_mem c hc2, r, rev, h2⟩

/-- C5: with `keep_stereo=True`, `check_reflections` considers exactly the
24 proper combinations of the 48: the hard-coded masks agree with the
axis-swap parity and the reflection-sign parity, the candidate list equals
the proper-parity filter of all 48 pairs and has length 24, and the
returned minimum carries a (swap, reflection) pair from that list, whose
parity product is +1 — an improper (mirror) transform is never selected,
for every input and every reorder/rotation method. -/
theorem check_reflections_keep_stereo_proper {n : ℕ} (pa qa : Fin n → ℕ)
    (pc qc : Matrix (Fin n) (Fin 3) ℝ)
    (rm : Option ((Fin n → ℕ) → (Fin n → ℕ) →
      Matrix (Fin n) (Fin 3) ℝ → Matrix (Fin n) (Fin 3) ℝ → (Fin n → Fin n)))
    (rot : Option (Matrix (Fin n) (Fin 3) ℝ → Matrix (Fin n) (Fin 3) ℝ → ℝ)) :
    (∀ c ∈ AXIS_SWAPS.zip swap_mask, swapParity c.1 = c.2) ∧
      (∀ c ∈ AXIS_REFLECTIONS.zip reflection_mask, reflParity c.1 = c.2) ∧
      consideredCandidates true =
        ((AXIS_SWAPS.zip swap_mask).product
            (AXIS_REFLECTIONS.zip reflection_mask)).filter
          (fun c => decide (properPair c)) ∧
      (consideredCandidates true).length = 24 ∧
      ((AXIS_SWAPS.zip swap_mask).product
          (AXIS_REFLECTIONS.zip reflection_mask)).length = 48 ∧
      ∃ r s refl rev,
        check_reflections pa qa pc qc rm rot true = some (r, s, refl, rev) ∧
          swapParity s * reflParity refl = 1 := by
  refine ⟨by decide, by decide, by decide, by decide, by decide, ?_⟩
  have hproper : ∀ c ∈ consideredCandidates true,
      swapParity c.1.1 * reflParity c.2.1 = 1 := by decide
  have hne : check_reflections pa qa pc qc rm rot true ≠ none := by
    have hcons : ∃ c l, consideredCandidates true = c :: l := by
      have : consideredCandidates true ≠ [] := by decide
      exact List.exists_cons_of_ne_nil this
    obtain ⟨c, l, hl⟩ := hcons
    rw [check_reflections, hl, List.foldl_cons]
    rcases hs : crStep pa qa pc qc rm rot none c with - | b2
    · exact absurd hs (crStep_ne_none pa qa pc qc rm rot none c)
    · exact crStep_foldl_ne_none pa qa pc qc rm rot l b2
  rcases crStep_foldl_shape pa qa pc qc rm rot (consideredCandidates true) none
    with h | ⟨c, hc, r, rev, h⟩
  · exact absurd h hne
  · exact ⟨r, c.1.1, c.2.1, rev, h, hproper c hc⟩

/-- Euclidean norm of a row, `np.linalg.norm` along axis 1. -/
noncomputable def norm3 (p : Pt) : ℝ := Real.sqrt (∑ i, p i * p i)

/-- Index list `np.where(l == a)` for a label array. -/
def whereEq (l : List String) (a : String) : List ℕ :=
  (List.range l.length).filter fun j => decide (l.get? j = some a)

/-- Fancy indexing `coord[idx]` for a coordinate array. -/
def gatherPt (coord : List Pt) (idx : List ℕ) : List Pt :=
  idx.map fun j => coord.getD j default

/-- Fancy indexing `l[idx]` for an index array. -/
def applyIdx (l : List ℕ) (idx : List ℕ) : List ℕ :=
  idx.map fun j => l.getD j 0

/-- Scattered assignment `acc[pos] = vals` of numpy. -/
def scatterSet (acc : List ℤ) (pos : List ℕ) (vals : List ℤ) : List ℤ :=
  (pos.zip vals).foldl (fun a pv => a.set pv.1 pv.2) acc

/-- Index sort `np.argsort(v)`: the indices `0..len(v)` sorted by value. -/
noncomputable def argsort {b : Type} [LinearOrder b] [Inhabited b]
    (v : List b) : List ℕ :=
  (List.range v.length).mergeSort fun x y =>
    decide (v.getD x default ≤ v.getD y default)

theorem argsort_perm {b : Type} [LinearOrder b] [Inhabited b] (v : List b) :
    List.Perm (argsort v) (List.range v.length) :=
  List.mergeSort_perm _ _

/-- Reading a list at the index positions `0..len-1` reproduces it. -/
theorem map_getD_range {α : Type} (l : List α) (d : α) :
    (List.range l.length).map (fun j => l.getD j d) = l := by
  apply List.ext_getElem
  · simp
  · intro i h1 h2
    simp [List.getD_eq_getElem?_getD, List.getElem?_eq_getElem h2]

/-- Gathering a list along a permutation of its index range permutes it. -/
theorem applyIdx_perm (l : List ℕ) (idx : List ℕ)
    (h : List.Perm idx (List.range l.length)) :
    List.Perm (applyIdx l idx) l := by
  have h2 := List.Perm.map (fun j => l.getD j 0) h
  rwa [map_getD_range l 0] at h2

theorem mem_whereEq {l : List String} {a : String} {j : ℕ} :
    j ∈ whereEq l a ↔ j < l.length ∧ l.get? j = some a := by
  simp [whereEq, List.mem_filter, List.mem_range, and_comm]

theorem whereEq_nodup (l : List String) (a : String) : (whereEq l a).Nodup :=
  List.Nodup.filter _ (List.nodup_range l.length)

/-- The label-group size equals the label count. -/
theorem length_whereEq (l : List String) (a : String) :
    (whereEq l a).length = l.count a := by
  rw [whereEq, ← List.countP_eq_length_filter]
  induction l with
  | nil => rfl
  | cons x xs ih =>
    rw [List.length_cons, List.range_succ_eq_map, List.countP_cons,
      List.countP_map, List.count_cons]
    have hcomp : (fun j => decide ((x :: xs).get? j = some a)) ∘ Nat.succ =
        fun j => decide (xs.get? j = some a) := by
      funext j
      rfl
    rw [hcomp, ih]
    by_cases hx : x = a
    · simp [hx]
    · simp [hx, Ne.symm hx]

/-- The python parallel swap `l[a], l[b] = l[b], l[a]`.  Out-of-range
indices would raise `IndexError` in python; they never occur in the
source's uses, and the embedding returns the list unchanged there. -/
def listSwap {α : Type} (l : List α) (a b : ℕ) : List α :=
  match l[a]?, l[b]? with
  | some x, some y => (l.set a y).set b x
  | _, _ => l

/-- Setting an entry to its current value changes nothing. -/
theorem set_get?_self {α : Type} (l : List α) : ∀ (a : ℕ) (x : α),
    l[a]? = some x → l.set a x = l := by
  induction l with
  | nil =>
    intro a x h
    simp at h
  | cons y l ih =>
    intro a x h
    cases a with
    | zero =>
      simp at h
      simp [h]
    | succ a =>
      simp at h ⊢
      exact ih a x h

/-- Pushing an element onto a list is, up to permutation, exchanging it
with any entry. -/
theorem cons_perm_set {α : Type} (l : List α) : ∀ (b : ℕ) (x y : α),
    l[b]? = some y → List.Perm (x :: l) (y :: l.set b x) := by
  induction l with
  | nil =>
    intro b x y h
    simp at h
  | cons z l ih =>
    intro b x y h
    cases b with
    | zero =>
      simp at h
      subst h
      simpa using List.Perm.swap z x l
    | succ b =>
      simp at h ⊢
      exact (List.Perm.swap z x l).trans
        ((List.Perm.cons z (ih b x y h)).trans (List.Perm.swap y z (l.set b x)))

/-- Exchanging two entries permutes the list. -/
theorem set_set_perm {α : Type} (l : List α) : ∀ (a b : ℕ) (x y : α),
    a ≠ b → l[a]? = some x → l[b]? = some y →
    List.Perm ((l.set a y).set b x) l := by
  induction l with
  | nil =>
    intro a b x y hab h1 h2
    simp at h1
  | cons z l ih =>
    intro a b x y hab h1 h2
    match a, b with
    | 0, 0 => exact absurd rfl hab
    | 0, Nat.succ b =>
      simp at h1 h2
      subst h1
      simpa using (cons_perm_set l b z y h2).symm
    | Nat.succ a, 0 =>
      simp at h1 h2
      subst h2
      simpa using (cons_perm_set l a z x h1).symm
    | Nat.succ a, Nat.succ b =>
      simp at h1 h2
      have hab2 : a ≠ b := fun h => hab (by rw [h])
      simpa using List.Perm.cons z (ih a b x y hab2 h1 h2)

/-- The python swap permutes the list. -/
theorem listSwap_perm {α : Type} (l : List α) (a b : ℕ) :
    List.Perm (listSwap l a b) l := by
  unfold listSwap
  split
  · rename_i x y h1 h2
    by_cases hab : a = b
    · subst hab
      rw [h1] at h2
      injection h2 with h2
      subst h2
      rw [List.set_set, set_get?_self l a x h1]
    · exact set_set_perm l a b x y hab h1 h2
  · exact List.Perm.refl l

/-- Exact number of while-loop iterations `generate_permutations` performs
before `i` first reaches `m` from a fresh counter state. -/
def heapFuel : ℕ → ℕ
  | 0 => 0
  | m + 1 => (m + 1) * heapFuel m + m + 1

/-- The while-loop of `generate_permutations` (Heap's algorithm), as a
fuel-indexed step function over the state (elements, c, i): when
`c[i] < i`, swap (even `i`: positions 0 and `i`; odd `i`: positions `c[i]`
and `i`), yield, increment `c[i]` and reset `i`; otherwise clear `c[i]`
and advance `i`; stop when `i` reaches `n`. -/
def heapRun {α : Type} (n : ℕ) : ℕ → List α → List ℕ → ℕ → List (List α)
  | 0, _, _, _ => []
  | fuel + 1, es, c, i =>
    if i < n then
      if c.getD i 0 < i then
        (if i % 2 = 0 then listSwap es 0 i else listSwap es (c.getD i 0) i) ::
          heapRun n fuel
            (if i % 2 = 0 then listSwap es 0 i else listSwap es (c.getD i 0) i)
            (c.set i (c.getD i 0 + 1)) 0
      else
        heapRun n fuel es (c.set i 0) (i + 1)
    else []

/-- Function `generate_permutations(elements, n)`: the initial yield
followed by the loop's yields (`c = [0] * n`, `i = 0`; the fuel bound is
exact, see `heapRun_block`). -/
def generate_permutations {α : Type} (elements : List α) (n : ℕ) :
    List (List α) :=
  elements :: heapRun n (heapFuel n + 1) elements (List.replicate n 0) 0

/-- Every list the loop yields is a permutation of the current elements. -/
theorem heapRun_mem_perm {α : Type} (n : ℕ) : ∀ (fuel : ℕ) (es : List α)
    (c : List ℕ) (i : ℕ), ∀ p ∈ heapRun n fuel es c i, List.Perm p es := by
  intro fuel
  induction fuel with
  | zero =>
    intro es c i p hp
    simp [heapRun] at hp
  | succ fuel ih =>
    intro es c i p hp
    rw [heapRun] at hp
    by_cases h1 : i < n
    · rw [if_pos h1] at hp
      by_cases h2 : c.getD i 0 < i
      · rw [if_pos h2] at hp
        rcases List.mem_cons.mp hp with h | h
        · subst h
          split
          · exact listSwap_perm es 0 i
          · exact listSwap_perm es (c.getD i 0) i
        · have := ih _ _ _ p h
          refine this.trans ?_
          split
          · exact listSwap_perm es 0 i
          · exact listSwap_perm es (c.getD i 0) i
      · rw [if_neg h2] at hp
        exact ih _ _ _ p hp
    · rw [if_neg h1] at hp
      simp at hp

/-- Function `reorder_distance(p_atoms, q_atoms, p_coord, q_coord)`: for
each unique label (`np.unique` returns the sorted distinct labels), sort
both groups by distance to the origin and pair by rank
(`view = argsort(B_norms)[argsort(argsort(A_norms))]`), scattering
`q_atom_idx[view]` into positions `p_atom_idx` of a zero-initialised
view. -/
noncomputable def reorder_distance (p_atoms q_atoms : List String)
    (p_coord q_coord : List Pt) : List ℤ :=
  (p_atoms.toFinset.sort (· ≤ ·)).foldl (fun view_reorder atom =>
    let p_atom_idx := whereEq p_atoms atom
    let q_atom_idx := whereEq q_atoms atom
    let A_coord := gatherPt p_coord p_atom_idx
    let B_coord := gatherPt q_coord q_atom_idx
    let A_norms := A_coord.map norm3
    let B_norms := B_coord.map norm3
    let reorder_indices_A := argsort A_norms
    let reorder_indices_B := argsort B_norms
    let translator := argsort reorder_indices_A
    let view := applyIdx reorder_indices_B translator
    scatterSet view_reorder p_atom_idx
      ((applyIdx q_atom_idx view).map Int.ofNat))
    (List.replicate q_atoms.length 0)

/-- Function `reorder_hungarian(...)`: per unique label, solve the
assignment problem on the two coordinate groups and scatter
`q_atom_idx[view]` into positions `p_atom_idx` of a (-1)-initialised view.
The scipy pipeline `cdist` + `linear_sum_assignment` inside
`hungarian(A, B)` is external and passed as the parameter `hungarianF`;
theorems hypothesize what scipy guarantees for a square cost matrix: the
returned column indices are a permutation of `0..len(B)`. -/
noncomputable def reorder_hungarian (hungarianF : List Pt → List Pt → List ℕ)
    (p_atoms q_atoms : List String) (p_coord q_coord : List Pt) : List ℤ :=
  (p_atoms.toFinset.sort (· ≤ ·)).foldl (fun view_reorder atom =>
    let p_atom_idx := whereEq p_atoms atom
    let q_atom_idx := whereEq q_atoms atom
    let A_coord := gatherPt p_coord p_atom_idx
    let B_coord := gatherPt q_coord q_atom_idx
    let view := hungarianF A_coord B_coord
    scatterSet view_reorder p_atom_idx
      ((applyIdx q_atom_idx view).map Int.ofNat))
    (List.replicate q_atoms.length (-1))

/-- The value `kabsch_rmsd(P, Q)` (no weights, no translation) on python
lists of equal length paired row-by-row, with `F` modelling the SVD of
the covariance: rotate `P` by `U` and take the plain RMSD (the list-typed
counterpart of `kabsch_rmsd`). -/
noncomputable def kabsch_rmsd_l (P Q : List Pt) (F : SvdOut) : ℝ :=
  let U := (if F.V.det * F.W.det < 0 then negLastCol F.V else F.V) * F.W
  let Pr := P.map fun p => fun i => ∑ k, p k * U k i
  Real.sqrt ((List.zipWith (fun a b => ∑ i, (a i - b i) * (a i - b i)) Pr Q).sum
    / (P.length : ℝ))

/-- The loop body of `brute_permutation`: reorder the rows of `B` by the
candidate permutation, score with `kabsch_rmsd` (`svdF` models the
`np.linalg.svd` call inside), and keep the candidate on strict improvement
(`none` models the initial `rmsd_min = inf` with unset `view_min`). -/
noncomputable def bpStep (svdF : List Pt → List Pt → SvdOut) (A B : List Pt)
    (best : Option (ℝ × List ℕ)) (reorder_indices : List ℕ) :
    Option (ℝ × List ℕ) :=
  match best with
  | none => some (kabsch_rmsd_l A (gatherPt B reorder_indices)
      (svdF A (gatherPt B reorder_indices)), reorder_indices)
  | some b =>
    if kabsch_rmsd_l A (gatherPt B reorder_indices)
        (svdF A (gatherPt B reorder_indices)) < b.1 then
      some (kabsch_rmsd_l A (gatherPt B reorder_indices)
        (svdF A (gatherPt B reorder_indices)), reorder_indices)
    else some b

/-- Function `brute_permutation(A, B)`: enumerate all permutations of the
row order of `B` with `generate_permutations` and keep the first strict
minimizer of the Kabsch RMSD.  The first candidate always beats the
initial `inf`, so the result is never the unset `None` (the `[]` arm is
unreachable: the candidate list is a cons). -/
noncomputable def brute_permutation (svdF : List Pt → List Pt → SvdOut)
    (A B : List Pt) : List ℕ :=
  match (generate_permutations (List.range A.length) A.length).foldl
      (bpStep svdF A B) none with
  | some b => b.2
  | none => []

/-- Function `reorder_brute(...)`: per unique label, brute-force the group
correspondence and scatter it into a (-1)-initialised view. -/
noncomputable def reorder_brute (svdF : List Pt → List Pt → SvdOut)
    (p_atoms q_atoms : List String) (p_coord q_coord : List Pt) : List ℤ :=
  (p_atoms.toFinset.sort (· ≤ ·)).foldl (fun view_reorder atom =>
    let p_atom_idx := whereEq p_atoms atom
    let q_atom_idx := whereEq q_atoms atom
    let A_coord := gatherPt p_coord p_atom_idx
    let B_coord := gatherPt q_coord q_atom_idx
    let view := brute_permutation svdF A_coord B_coord
    scatterSet view_reorder p_atom_idx
      ((applyIdx q_atom_idx view).map Int.ofNat))
    (List.replicate q_atoms.length (-1))

/-- Function `reorder_inertia_hungarian(...)`: rotate `q_coord` so its
principal inertia axis is parallel resp. antiparallel to that of
`p_coord` (`EP`, `EQ` model the two `np.linalg.eig` calls), reorder both
candidates with the Hungarian strategy, and keep whichever gives the
lower Kabsch RMSD (`F1`, `F2` model the two `np.linalg.svd` calls). -/
noncomputable def reorder_inertia_hungarian
    (hungarianF : List Pt → List Pt → List ℕ)
    (p_atoms q_atoms : List String) (p_coord q_coord : List Pt)
    (EP EQ : EigOut) (F1 F2 : SvdOut) : List ℤ :=
  let p_axis := get_principal_axis p_atoms p_coord EP
  let q_axis := get_principal_axis q_atoms q_coord EQ
  let U1 := rotation_matrix_vectors p_axis q_axis
  let U2 := rotation_matrix_vectors p_axis (fun i => -q_axis i)
  let q_coord1 := q_coord.map fun v => fun i => ∑ k, v k * U1 k i
  let q_coord2 := q_coord.map fun v => fun i => ∑ k, v k * U2 k i
  let q_review1 := reorder_hungarian hungarianF p_atoms q_atoms p_coord q_coord1
  let q_review2 := reorder_hungarian hungarianF p_atoms q_atoms p_coord q_coord2
  let q_coord1r := q_review1.map fun z => q_coord1.getD z.toNat default
  let q_coord2r := q_review2.map fun z => q_coord2.getD z.toNat default
  if kabsch_rmsd_l p_coord q_coord1r F1 < kabsch_rmsd_l p_coord q_coord2r F2
  then q_review1 else q_review2

theorem getD_set_self {α : Type} (l : List α) (i : ℕ) (v d : α)
    (h : i < l.length) : (l.set i v).getD i d = v := by
  simp [List.getD_eq_getElem?_getD, List.getElem?_set_self, h]

theorem getD_set_ne {α : Type} (l : List α) (i j : ℕ) (v d : α) (h : j ≠ i) :
    (l.set i v).getD j d = l.getD j d := by
  simp [List.getD_eq_getElem?_getD, List.getElem?_set_ne (Ne.symm h)]

theorem scatterSet_length (pos : List ℕ) (acc : List ℤ) (vals : List ℤ) :
    (scatterSet acc pos vals).length = acc.length := by
  rw [scatterSet]
  generalize pos.zip vals = pv
  induction pv generalizing acc with
  | nil => rfl
  | cons p pv ih =>
    rw [List.foldl_cons, ih (acc.set p.1 p.2), List.length_set]

/-- Positions outside the scattered index list keep their value. -/
theorem scatterSet_getD_not_mem : ∀ (pos : List ℕ) (acc : List ℤ)
    (vals : List ℤ) (j : ℕ), j ∉ pos →
    (scatterSet acc pos vals).getD j 0 = acc.getD j 0 := by
  intro pos
  induction pos with
  | nil =>
    intro acc vals j hj
    cases vals <;> rfl
  | cons p pos ih =>
    intro acc vals j hj
    cases vals with
    | nil => rfl
    | cons v vals =>
      rw [scatterSet, List.zip_cons_cons, List.foldl_cons]
      have h1 : j ∉ pos := fun h => hj (List.mem_cons_of_mem p h)
      have h2 : j ≠ p := fun h => hj (h ▸ List.mem_cons_self p pos)
      have := ih (acc.set p v) vals j h1
      rw [scatterSet] at this
      rw [this, getD_set_ne acc p j v 0 h2]

/-- Scattered values are read back in order. -/
theorem scatterSet_getD_mem : ∀ (pos : List ℕ) (acc : List ℤ)
    (vals : List ℤ), pos.Nodup → pos.length = vals.length →
    (∀ p ∈ pos, p < acc.length) →
    pos.map (fun j => (scatterSet acc pos vals).getD j 0) = vals := by
  intro pos
  induction pos with
  | nil =>
    intro acc vals hnd hlen hb
    cases vals with
    | nil => rfl
    | cons v vals => simp at hlen
  | cons p pos ih =>
    intro acc vals hnd hlen hb
    cases vals with
    | nil => simp at hlen
    | cons v vals =>
      rw [scatterSet, List.zip_cons_cons, List.foldl_cons, List.map_cons]
      have hpnotin : p ∉ pos := (List.nodup_cons.mp hnd).1
      have hnd2 : pos.Nodup := (List.nodup_cons.mp hnd).2
      have hlen2 : pos.length = vals.length := by
        simpa using hlen
      have hb2 : ∀ q ∈ pos, q < (acc.set p v).length := by
        intro q hq
        rw [List.length_set]
        exact hb q (List.mem_cons_of_mem p hq)
      have htail := ih (acc.set p v) vals hnd2 hlen2 hb2
      rw [scatterSet] at htail
      have hhead : (List.foldl (fun a pv => a.set pv.1 pv.2) (acc.set p v)
          (pos.zip vals)).getD p 0 = v := by
        have hkeep := scatterSet_getD_not_mem pos (acc.set p v) vals p hpnotin
        rw [scatterSet] at hkeep
        rw [hkeep, getD_set_self acc p v 0 (hb p (List.mem_cons_self p pos))]
      rw [htail, hhead]

/-- The per-label slice of a computed view lists exactly that label's
q-indices, up to order. -/
def PermGroup (p_atoms q_atoms : List String) (r : List ℤ) (a : String) : Prop :=
  List.Perm ((whereEq p_atoms a).map fun j => r.getD j 0)
    ((whereEq q_atoms a).map Int.ofNat)

theorem natCast_int_injective : Function.Injective Int.ofNat :=
  fun a b h => by
    simpa using h

/-- One scatter step of a reorder strategy: it establishes the slice
property for its own label, preserves it for every other label, and leaves
positions outside its group unchanged. -/
theorem scatter_step_permGroup (p_atoms q_atoms : List String)
    (r : List ℤ) (atom : String) (view : List ℕ)
    (hlenpq : p_atoms.length = q_atoms.length)
    (hlen : r.length = q_atoms.length)
    (hcount : p_atoms.count atom = q_atoms.count atom)
    (hview : List.Perm view (List.range (whereEq q_atoms atom).length)) :
    PermGroup p_atoms q_atoms
        (scatterSet r (whereEq p_atoms atom)
          ((applyIdx (whereEq q_atoms atom) view).map Int.ofNat)) atom ∧
      (∀ b, b ≠ atom → PermGroup p_atoms q_atoms r b →
        PermGroup p_atoms q_atoms
          (scatterSet r (whereEq p_atoms atom)
            ((applyIdx (whereEq q_atoms atom) view).map Int.ofNat)) b) ∧
      (scatterSet r (whereEq p_atoms atom)
        ((applyIdx (whereEq q_atoms atom) view).map Int.ofNat)).length =
        q_atoms.length := by
  have hvalsperm : List.Perm
      ((applyIdx (whereEq q_atoms atom) view).map Int.ofNat)
      ((whereEq q_atoms atom).map Int.ofNat) :=
    List.Perm.map _ (applyIdx_perm _ _ hview)
  have hvlen : ((applyIdx (whereEq q_atoms atom) view).map
      Int.ofNat).length = (whereEq p_atoms atom).length := by
    rw [List.length_map, applyIdx, List.length_map, hview.length_eq,
      List.length_range, length_whereEq, length_whereEq, hcount]
  have hbound : ∀ p ∈ whereEq p_atoms atom, p < r.length := by
    intro p hp
    rw [hlen, ← hlenpq]
    exact (mem_whereEq.mp hp).1
  have hwrites := scatterSet_getD_mem (whereEq p_atoms atom) r
    ((applyIdx (whereEq q_atoms atom) view).map Int.ofNat)
    (whereEq_nodup p_atoms atom) hvlen.symm hbound
  refine ⟨?_, ?_, ?_⟩
  · rw [PermGroup, hwrites]
    exact hvalsperm
  · intro b hb hgood
    rw [PermGroup]
    have hsame : (whereEq p_atoms b).map
        (fun j => (scatterSet r (whereEq p_atoms atom)
          ((applyIdx (whereEq q_atoms atom) view).map Int.ofNat)).getD j 0) =
        (whereEq p_atoms b).map (fun j => r.getD j 0) := by
      refine List.map_congr_left ?_
      intro j hj
      refine scatterSet_getD_not_mem _ _ _ _ ?_
      intro hj2
      have h1 := (mem_whereEq.mp hj).2
      have h2 := (mem_whereEq.mp hj2).2
      rw [h1] at h2
      exact hb (Option.some_injective _ h2)
    rw [hsame]
    exact hgood
  · rw [scatterSet_length]
    exact hlen

/-- Folding the scatter steps over a list of labels establishes the slice
property for every processed label. -/
theorem foldl_scatter_permGroup (p_atoms q_atoms : List String)
    (inner : String → List ℕ)
    (hlenpq : p_atoms.length = q_atoms.length)
    (hcount : ∀ a, p_atoms.count a = q_atoms.count a)
    (hinner : ∀ a ∈ p_atoms, List.Perm (inner a)
      (List.range (whereEq q_atoms a).length)) :
    ∀ (rem : List String) (r : List ℤ), (∀ a ∈ rem, a ∈ p_atoms) →
      r.length = q_atoms.length →
      (rem.foldl (fun vr atom => scatterSet vr (whereEq p_atoms atom)
        ((applyIdx (whereEq q_atoms atom) (inner atom)).map Int.ofNat))
        r).length = q_atoms.length ∧
      ∀ a, (PermGroup p_atoms q_atoms r a ∨ a ∈ rem) →
        PermGroup p_atoms q_atoms
          (rem.foldl (fun vr atom => scatterSet vr (whereEq p_atoms atom)
            ((applyIdx (whereEq q_atoms atom) (inner atom)).map Int.ofNat))
            r) a := by
  intro rem
  induction rem with
  | nil =>
    intro r hmem hlen
    refine ⟨hlen, ?_⟩
    intro a ha
    rcases ha with h | h
    · exact h
    · simp at h
  | cons atom rem ih =>
    intro r hmem hlen
    rw [List.foldl_cons]
    have hstep := scatter_step_permGroup p_atoms q_atoms r atom (inner atom)
      hlenpq hlen (hcount atom) (hinner atom (hmem atom (List.mem_cons_self atom rem)))
    have hmem2 : ∀ a ∈ rem, a ∈ p_atoms := fun a ha =>
      hmem a (List.mem_cons_of_mem atom ha)
    have h2 := ih _ hmem2 hstep.2.2
    refine ⟨h2.1, ?_⟩
    intro a ha
    by_cases hat : a = atom
    · subst hat
      exact h2.2 a (Or.inl hstep.1)
    · rcases ha with h | h
      · exact h2.2 a (Or.inl (hstep.2.1 a hat h))
      · rcases List.mem_cons.mp h with h3 | h3
        · exact absurd h3 hat
        · exact h2.2 a (Or.inr h3)

/-- A valid correspondence view: length N, entries a permutation of the
integers `0..N-1`, and reading `q_atoms` through it reproduces `p_atoms`
elementwise (hence each label's p-positions receive only that label's
q-indices). -/
def reorderOK (p_atoms q_atoms : List String) (view : List ℤ) : Prop :=
  view.length = p_atoms.length ∧
  view.Nodup ∧
  List.Perm view ((List.range q_atoms.length).map Int.ofNat) ∧
  ∀ j, j < p_atoms.length → ∃ k : ℕ, view.getD j 0 = Int.ofNat k ∧
    k < q_atoms.length ∧ q_atoms.get? k = p_atoms.get? j

/-- A view all of whose label slices are valid is a valid correspondence
view. -/
theorem reorderOK_of_groups (p_atoms q_atoms : List String) (r : List ℤ)
    (hlenpq : p_atoms.length = q_atoms.length)
    (hlenr : r.length = q_atoms.length)
    (hgroup : ∀ a ∈ p_atoms, PermGroup p_atoms q_atoms r a) :
    reorderOK p_atoms q_atoms r := by
  have hpt : ∀ j, j < p_atoms.length → ∃ k : ℕ, r.getD j 0 = Int.ofNat k ∧
      k < q_atoms.length ∧ q_atoms.get? k = p_atoms.get? j := by
    intro j hj
    have ha : p_atoms.get? j = some (p_atoms.get ⟨j, hj⟩) := List.get?_eq_get hj
    have hain : p_atoms.get ⟨j, hj⟩ ∈ p_atoms := List.get_mem p_atoms _ _
    have hg := hgroup _ hain
    have hjmem : j ∈ whereEq p_atoms (p_atoms.get ⟨j, hj⟩) :=
      mem_whereEq.mpr ⟨hj, ha⟩
    have hvmem : r.getD j 0 ∈ (whereEq p_atoms (p_atoms.get ⟨j, hj⟩)).map
        (fun j2 => r.getD j2 0) := List.mem_map_of_mem _ hjmem
    have hin2 := hg.mem_iff.mp hvmem
    obtain ⟨k, hk, hkv⟩ := List.mem_map.mp hin2
    have hk2 := mem_whereEq.mp hk
    refine ⟨k, hkv.symm, hk2.1, ?_⟩
    rw [hk2.2, ha]
  have hnodup : r.Nodup := by
    rw [List.nodup_iff_injective_get]
    intro i1 i2 heq
    by_contra hne
    have hne2 : (i1 : ℕ) ≠ (i2 : ℕ) := fun h => hne (Fin.ext h)
    have hi1 : (i1 : ℕ) < p_atoms.length := by
      have h := i1.isLt
      omega
    have hi2 : (i2 : ℕ) < p_atoms.length := by
      have h := i2.isLt
      omega
    have hd1 : r.getD (i1 : ℕ) 0 = r.get i1 := by
      rw [List.getD_eq_getElem r 0 i1.isLt, List.get_eq_getElem]
    have hd2 : r.getD (i2 : ℕ) 0 = r.get i2 := by
      rw [List.getD_eq_getElem r 0 i2.isLt, List.get_eq_getElem]
    have ha1 : p_atoms.get? (i1 : ℕ) = some (p_atoms.get ⟨(i1 : ℕ), hi1⟩) :=
      List.get?_eq_get hi1
    have ha2 : p_atoms.get? (i2 : ℕ) = some (p_atoms.get ⟨(i2 : ℕ), hi2⟩) :=
      List.get?_eq_get hi2
    by_cases hsame : p_atoms.get ⟨(i1 : ℕ), hi1⟩ = p_atoms.get ⟨(i2 : ℕ), hi2⟩
    · have hg := hgroup _ (List.get_mem p_atoms (i1 : ℕ) hi1)
      have hrnodup : ((whereEq q_atoms
          (p_atoms.get ⟨(i1 : ℕ), hi1⟩)).map Int.ofNat).Nodup :=
        List.Nodup.map natCast_int_injective (whereEq_nodup _ _)
      have hlnodup : ((whereEq p_atoms (p_atoms.get ⟨(i1 : ℕ), hi1⟩)).map
          (fun j2 => r.getD j2 0)).Nodup := (hg.nodup_iff).mpr hrnodup
      have hinj := List.inj_on_of_nodup_map hlnodup
      have hm1 : (i1 : ℕ) ∈ whereEq p_atoms (p_atoms.get ⟨(i1 : ℕ), hi1⟩) :=
        mem_whereEq.mpr ⟨hi1, ha1⟩
      have hm2 : (i2 : ℕ) ∈ whereEq p_atoms (p_atoms.get ⟨(i1 : ℕ), hi1⟩) := by
        refine mem_whereEq.mpr ⟨hi2, ?_⟩
        rw [ha2, hsame]
      exact hne2 (hinj hm1 hm2 (by rw [hd1, hd2, heq]))
    · obtain ⟨k1, hv1, hklt1, hq1⟩ := hpt _ hi1
      obtain ⟨k2, hv2, hklt2, hq2⟩ := hpt _ hi2
      have hkk : Int.ofNat k1 = Int.ofNat k2 := by
        rw [← hv1, ← hv2, hd1, hd2, heq]
      have hk12 : k1 = k2 := natCast_int_injective hkk
      have hpp : p_atoms.get? (i1 : ℕ) = p_atoms.get? (i2 : ℕ) := by
        rw [← hq1, hk12, hq2]
      rw [ha1, ha2] at hpp
      exact hsame (Option.some_injective _ hpp)
  have hsub : ∀ x ∈ r, x ∈ (List.range q_atoms.length).map Int.ofNat := by
    intro x hx
    obtain ⟨n, hn⟩ := List.mem_iff_get?.mp hx
    obtain ⟨hlt, hget⟩ := List.get?_eq_some.mp hn
    have hnp : n < p_atoms.length := by
      omega
    obtain ⟨k, hk1, hk2, -⟩ := hpt n hnp
    have hgd : r.getD n 0 = x := by
      rw [List.getD_eq_getElem r 0 hlt]
      exact hget
    rw [hgd] at hk1
    rw [hk1]
    exact List.mem_map_of_mem _ (List.mem_range.mpr hk2)
  have hperm2 : List.Perm r ((List.range q_atoms.length).map Int.ofNat) := by
    refine List.Subperm.perm_of_length_le (List.subperm_of_subset hnodup hsub) ?_
    rw [List.length_map, List.length_range, hlenr]
  exact ⟨by rw [hlenr, hlenpq], hnodup, hperm2, hpt⟩

/-- Scattering a valid per-label sub-permutation for every unique label of
`p_atoms` produces a valid correspondence view, whatever the initial
array contents. -/
theorem mergeViews_ok (p_atoms q_atoms : List String)
    (init : List ℤ) (inner : String → List ℕ)
    (hinit : init.length = q_atoms.length)
    (hperm : List.Perm p_atoms q_atoms)
    (hinner : ∀ a ∈ p_atoms, List.Perm (inner a)
      (List.range (whereEq q_atoms a).length)) :
    reorderOK p_atoms q_atoms
      ((p_atoms.toFinset.sort (· ≤ ·)).foldl
        (fun vr atom => scatterSet vr (whereEq p_atoms atom)
          ((applyIdx (whereEq q_atoms atom) (inner atom)).map Int.ofNat))
        init) := by
  have hlenpq : p_atoms.length = q_atoms.length := hperm.length_eq
  have hcount : ∀ a, p_atoms.count a = q_atoms.count a := fun a =>
    hperm.count_eq a
  have hmemsort : ∀ a ∈ p_atoms.toFinset.sort (· ≤ ·), a ∈ p_atoms := by
    intro a ha
    rwa [Finset.mem_sort, List.mem_toFinset] at ha
  have hfold := foldl_scatter_permGroup p_atoms q_atoms inner hlenpq hcount
    hinner (p_atoms.toFinset.sort (· ≤ ·)) init hmemsort hinit
  refine reorderOK_of_groups p_atoms q_atoms _ hlenpq hfold.1 ?_
  intro a ha
  refine hfold.2 a (Or.inr ?_)
  rw [Finset.mem_sort, List.mem_toFinset]
  exact ha

theorem argsort_length {b : Type} [LinearOrder b] [Inhabited b]
    (v : List b) : (argsort v).length = v.length := by
  rw [argsort, List.length_mergeSort, List.length_range]

/-- The Hungarian strategy scatters a valid view (helper shared by the
hungarian and inertia-hungarian cases). -/
theorem reorder_hungarian_spec (hungarianF : List Pt → List Pt → List ℕ)
    (hhung : ∀ A B : List Pt, A.length = B.length →
      List.Perm (hungarianF A B) (List.range B.length))
    (p_atoms q_atoms : List String) (p_coord q_coord : List Pt)
    (hperm : List.Perm p_atoms q_atoms) :
    reorderOK p_atoms q_atoms
      (reorder_hungarian hungarianF p_atoms q_atoms p_coord q_coord) := by
  have h := mergeViews_ok p_atoms q_atoms (List.replicate q_atoms.length (-1))
    (fun atom => hungarianF (gatherPt p_coord (whereEq p_atoms atom))
      (gatherPt q_coord (whereEq q_atoms atom)))
    (by rw [List.length_replicate]) hperm ?_
  · exact h
  · intro a ha
    have hlen : (gatherPt p_coord (whereEq p_atoms a)).length =
        (gatherPt q_coord (whereEq q_atoms a)).length := by
      rw [gatherPt, gatherPt, List.length_map, List.length_map,
        length_whereEq, length_whereEq, hperm.count_eq]
    have h2 := hhung _ _ hlen
    have h3 : (gatherPt q_coord (whereEq q_atoms a)).length =
        (whereEq q_atoms a).length := by
      rw [gatherPt, List.length_map]
    rw [h3] at h2
    exact h2

/-- The distance strategy scatters a valid view. -/
theorem reorder_distance_spec (p_atoms q_atoms : List String)
    (p_coord q_coord : List Pt) (hperm : List.Perm p_atoms q_atoms) :
    reorderOK p_atoms q_atoms
      (reorder_distance p_atoms q_atoms p_coord q_coord) := by
  have h := mergeViews_ok p_atoms q_atoms (List.replicate q_atoms.length 0)
    (fun atom => applyIdx
      (argsort ((gatherPt q_coord (whereEq q_atoms atom)).map norm3))
      (argsort (argsort ((gatherPt p_coord (whereEq p_atoms atom)).map norm3))))
    (by rw [List.length_replicate]) hperm ?_
  · exact h
  · intro a ha
    have hlenB : ((gatherPt q_coord (whereEq q_atoms a)).map norm3).length =
        (whereEq q_atoms a).length := by
      rw [List.length_map, gatherPt, List.length_map]
    have hlenA : ((gatherPt p_coord (whereEq p_atoms a)).map norm3).length =
        (whereEq q_atoms a).length := by
      rw [List.length_map, gatherPt, List.length_map,
        length_whereEq, length_whereEq, hperm.count_eq]
    have htrans : List.Perm
        (argsort (argsort ((gatherPt p_coord (whereEq p_atoms a)).map norm3)))
        (List.range (argsort ((gatherPt q_coord
          (whereEq q_atoms a)).map norm3)).length) := by
      have h2 := argsort_perm
        (argsort ((gatherPt p_coord (whereEq p_atoms a)).map norm3))
      rwa [argsort_length, hlenA, ← hlenB, ← argsort_length
        ((gatherPt q_coord (whereEq q_atoms a)).map norm3)] at h2
    have h3 := applyIdx_perm _ _ htrans
    refine h3.trans ?_
    have h4 := argsort_perm ((gatherPt q_coord (whereEq q_atoms a)).map norm3)
    rwa [hlenB] at h4

theorem bpStep_cases (svdF : List Pt → List Pt → SvdOut) (A B : List Pt)
    (acc : Option (ℝ × List ℕ)) (p : List ℕ) :
    bpStep svdF A B acc p = acc ∨
      ∃ r, bpStep svdF A B acc p = some (r, p) := by
  cases acc with
  | none =>
    right
    exact ⟨_, rfl⟩
  | some b =>
    rw [bpStep]
    split_ifs with h
    · right
      exact ⟨_, rfl⟩
    · left
      rfl

theorem bpStep_ne_none (svdF : List Pt → List Pt → SvdOut) (A B : List Pt)
    (acc : Option (ℝ × List ℕ)) (p : List ℕ) :
    bpStep svdF A B acc p ≠ none := by
  cases acc with
  | none => exact fun h => Option.noConfusion h
  | some b =>
    rw [bpStep]
    split_ifs with h <;> exact fun h2 => Option.noConfusion h2

theorem bpStep_foldl_ne_none (svdF : List Pt → List Pt → SvdOut)
    (A B : List Pt) (l : List (List ℕ)) (b : ℝ × List ℕ) :
    l.foldl (bpStep svdF A B) (some b) ≠ none := by
  induction l generalizing b with
  | nil => exact fun h => Option.noConfusion h
  | cons p l ih =>
    rw [List.foldl_cons]
    rcases hs : bpStep svdF A B (some b) p with - | b2
    · exact absurd hs (bpStep_ne_none svdF A B (some b) p)
    · exact ih b2

theorem bpStep_foldl_shape (svdF : List Pt → List Pt → SvdOut)
    (A B : List Pt) (l : List (List ℕ)) :
    ∀ acc, l.foldl (bpStep svdF A B) acc = acc ∨
      ∃ p ∈ l, ∃ r, l.foldl (bpStep svdF A B) acc = some (r, p) := by
  induction l with
  | nil =>
    intro acc
    left
    rfl
  | cons p l ih =>
    intro acc
    rw [List.foldl_cons]
    rcases ih (bpStep svdF A B acc p) with h | h
    · rw [h]
      rcases bpStep_cases svdF A B acc p with h2 | ⟨r, h2⟩
      · left
        exact h2
      · right
        exact ⟨p, List.mem_cons_self p l, r, h2⟩
    · obtain ⟨p2, hp2, r, h2⟩ := h
      right
      exact ⟨p2, List.mem_cons_of_mem p hp2, r, h2⟩

/-- Every candidate that `generate_permutations` yields is a permutation
of the starting list. -/
theorem generate_permutations_mem_perm {α : Type} (l : List α) (n : ℕ) :
    ∀ p ∈ generate_permutations l n, List.Perm p l := by
  intro p hp
  rcases List.mem_cons.mp hp with h | h
  · subst h
    exact List.Perm.refl _
  · exact heapRun_mem_perm n _ _ _ _ p h

/-- The brute-force strategy returns one of the enumerated permutations of
the row indices. -/
theorem brute_permutation_spec (svdF : List Pt → List Pt → SvdOut)
    (A B : List Pt) :
    List.Perm (brute_permutation svdF A B) (List.range A.length) := by
  rw [brute_permutation]
  rcases hsh : (generate_permutations (List.range A.length) A.length).foldl
      (bpStep svdF A B) none with - | b
  · exfalso
    rw [generate_permutations, List.foldl_cons] at hsh
    rcases hs : bpStep svdF A B none (List.range A.length) with - | b2
    · exact absurd hs (bpStep_ne_none svdF A B none _)
    · rw [hs] at hsh
      exact absurd hsh (bpStep_foldl_ne_none svdF A B _ b2)
  · rcases bpStep_foldl_shape svdF A B
        (generate_permutations (List.range A.length) A.length) none with h | h
    · rw [hsh] at h
      exact absurd h.symm (Option.noConfusion)
    · obtain ⟨p, hp, r, h2⟩ := h
      rw [hsh] at h2
      injection h2 with h2
      show List.Perm b.2 (List.range A.length)
      rw [h2]
      exact generate_permutations_mem_perm _ _ p hp

/-- The brute-force strategy scatters a valid view. -/
theorem reorder_brute_spec (svdF : List Pt → List Pt → SvdOut)
    (p_atoms q_atoms : List String) (p_coord q_coord : List Pt)
    (hperm : List.Perm p_atoms q_atoms) :
    reorderOK p_atoms q_atoms
      (reorder_brute svdF p_atoms q_atoms p_coord q_coord) := by
  have h := mergeViews_ok p_atoms q_atoms (List.replicate q_atoms.length (-1))
    (fun atom => brute_permutation svdF
      (gatherPt p_coord (whereEq p_atoms atom))
      (gatherPt q_coord (whereEq q_atoms atom)))
    (by rw [List.length_replicate]) hperm ?_
  · exact h
  · intro a ha
    have h2 := brute_permutation_spec svdF
      (gatherPt p_coord (whereEq p_atoms a))
      (gatherPt q_coord (whereEq q_atoms a))
    rwa [gatherPt, List.length_map, length_whereEq, hperm.count_eq,
      ← length_whereEq] at h2

/-- The inertia-guided strategy returns one of two Hungarian views, hence
a valid view. -/
theorem reorder_inertia_hungarian_spec
    (hungarianF : List Pt → List Pt → List ℕ)
    (hhung : ∀ A B : List Pt, A.length = B.length →
      List.Perm (hungarianF A B) (List.range B.length))
    (p_atoms q_atoms : List String) (p_coord q_coord : List Pt)
    (EP EQ : EigOut) (F1 F2 : SvdOut)
    (hperm : List.Perm p_atoms q_atoms) :
    reorderOK p_atoms q_atoms
      (reorder_inertia_hungarian hungarianF p_atoms q_atoms p_coord q_coord
        EP EQ F1 F2) := by
  rw [reorder_inertia_hungarian]
  split_ifs with h
  · exact reorder_hungarian_spec hungarianF hhung p_atoms q_atoms p_coord _
      hperm
  · exact reorder_hungarian_spec hungarianF hhung p_atoms q_atoms p_coord _
      hperm

/-- C4: for all inputs whose label multisets agree (and any assignment
oracle that returns a permutation of the column indices, as
`scipy.optimize.linear_sum_assignment` does), each of the four
correspondence strategies — `reorder_distance`, `reorder_hungarian`,
`reorder_inertia_hungarian` and `reorder_brute` — returns a length-N,
duplicate-free view that is a permutation of `[0..N)` and matches every
p-row to a q-row carrying the same label: `q_atoms[view[j]] = p_atoms[j]`
for every `j`.  The `reorder_inertia_hungarian` conjunct is guarded by
the requirement that every label occurs in the mass table: that strategy
evaluates `ELEMENTS_WEIGHTS[x.lower()]` via `get_principal_axis`, and
for a label absent from the table the source raises `KeyError`
(`UnknownElement`) instead of returning a view.  The other three
strategies never look up masses. -/
theorem reorder_strategies_valid_views
    (hungarianF : List Pt → List Pt → List ℕ)
    (svdF : List Pt → List Pt → SvdOut)
    (p_atoms q_atoms : List String) (p_coord q_coord : List Pt)
    (EP EQ : EigOut) (F1 F2 : SvdOut)
    (hperm : List.Perm p_atoms q_atoms)
    (hhung : ∀ A B : List Pt, A.length = B.length →
      List.Perm (hungarianF A B) (List.range B.length)) :
    reorderOK p_atoms q_atoms
        (reorder_distance p_atoms q_atoms p_coord q_coord) ∧
      reorderOK p_atoms q_atoms
        (reorder_hungarian hungarianF p_atoms q_atoms p_coord q_coord) ∧
      ((∀ a ∈ p_atoms, (ELEMENTS_WEIGHTS (strLower a)).isSome = true) →
        reorderOK p_atoms q_atoms
          (reorder_inertia_hungarian hungarianF p_atoms q_atoms p_coord
            q_coord EP EQ F1 F2)) ∧
      reorderOK p_atoms q_atoms
        (reorder_brute svdF p_atoms q_atoms p_coord q_coord) :=
  ⟨reorder_distance_spec p_atoms q_atoms p_coord q_coord hperm,
   reorder_hungarian_spec hungarianF hhung p_atoms q_atoms p_coord q_coord
     hperm,
   fun _ => reorder_inertia_hungarian_spec hungarianF hhung p_atoms q_atoms
     p_coord q_coord EP EQ F1 F2 hperm,
   reorder_brute_spec svdF p_atoms q_atoms p_coord q_coord hperm⟩

/-- Witness: the strategy-correctness theorem instantiated on a concrete
one-atom hydrogen system with a trivial assignment oracle; the
labels-in-table guard is discharged for `"H"` and the guarded inertia
conjunct is exercised. -/
theorem reorder_strategies_valid_views_witness :
    List.Perm (["H"] : List String) ["H"] ∧
    (∀ A B : List Pt, A.length = B.length →
      List.Perm ((fun (_ B : List Pt) => List.range B.length) A B)
        (List.range B.length)) ∧
    (∀ a ∈ (["H"] : List String),
      (ELEMENTS_WEIGHTS (strLower a)).isSome = true) ∧
    reorderOK ["H"] ["H"]
      (reorder_distance ["H"] ["H"] [fun _ => (0 : ℝ)] [fun _ => (0 : ℝ)]) ∧
    reorderOK ["H"] ["H"]
      (reorder_inertia_hungarian (fun _ B => List.range B.length) ["H"] ["H"]
        [fun _ => (0 : ℝ)] [fun _ => (0 : ℝ)]
        ⟨fun _ => 0, 1⟩ ⟨fun _ => 0, 1⟩ ⟨1, fun _ => 0, 1⟩
        ⟨1, fun _ => 0, 1⟩) :=
  ⟨List.Perm.refl _, fun _ _ _ => List.Perm.refl _,
   fun a ha => by
     rw [List.mem_singleton] at ha
     subst ha
     rfl,
   (reorder_strategies_valid_views (fun _ B => List.range B.length)
     (fun _ _ => ⟨1, fun _ => 0, 1⟩) ["H"] ["H"]
     [fun _ => (0 : ℝ)] [fun _ => (0 : ℝ)]
     ⟨fun _ => 0, 1⟩ ⟨fun _ => 0, 1⟩ ⟨1, fun _ => 0, 1⟩ ⟨1, fun _ => 0, 1⟩
     (List.Perm.refl _) (fun _ _ _ => List.Perm.refl _)).1,
   (reorder_strategies_valid_views (fun _ B => List.range B.length)
     (fun _ _ => ⟨1, fun _ => 0, 1⟩) ["H"] ["H"]
     [fun _ => (0 : ℝ)] [fun _ => (0 : ℝ)]
     ⟨fun _ => 0, 1⟩ ⟨fun _ => 0, 1⟩ ⟨1, fun _ => 0, 1⟩ ⟨1, fun _ => 0, 1⟩
     (List.Perm.refl _) (fun _ _ _ => List.Perm.refl _)).2.2.1
     (fun a ha => by
       rw [List.mem_singleton] at ha
       subst ha
       rfl)⟩

/-! ### Heap's algorithm: index-level description of the inner blocks.
The loop of `generate_permutations` decomposes into nested blocks; each
block's net effect on the elements, and each intermediate state of a
level-`m` chain, is the composition of explicit index permutations. -/

/-- Index action of swapping positions `a` and `b`. -/
def swapIdx (a b i : ℕ) : ℕ :=
  if i = a then b else if i = b then a else i

/-- Net index permutation applied by one complete inner block of Heap's
algorithm over the first `m` positions: `result[i] = input[netFidx m i]`. -/
def netFidx (m i : ℕ) : ℕ :=
  if m ≤ 1 then i
  else if m % 2 = 1 then swapIdx 0 (m - 1) i
  else if m = 2 then swapIdx 0 1 i
  else if i = 0 then m - 3
  else if i = 1 then m - 2
  else if i = m - 2 then m - 1
  else if i = m - 1 then 0
  else if i ≤ m - 3 then i - 1
  else i

/-- Index permutation carrying the start of an odd-level chain to its
`j`-th intermediate state (`state_j[i] = state_0[tauOidx m j i]`). -/
def tauOidx (m j i : ℕ) : ℕ :=
  if j = 0 then i
  else if i = 0 then (if j % 2 = 1 then m else 0)
  else if i = m then (if j = 1 then m - 1 else if j = m then 0 else j - 1)
  else if i = m - 1 then (if j = m then m - 2 else if j % 2 = 1 then 0 else m)
  else if i = 1 then (if 2 ≤ j then m - 1 else i)
  else if 2 ≤ i then (if i + 1 ≤ j then i - 1 else i)
  else i

/-- Cycle listing of the even-level step permutation: position `t` of the
orbit of `0`. -/
def omIdx (m t : ℕ) : ℕ :=
  if t = 0 then 0
  else if t = 1 then m
  else if t ≤ m - 2 then m - 1 - t
  else if t = m - 1 then m - 2
  else if t = m then m - 1
  else t

/-- Position of `i` in the cycle listing `omIdx`. -/
def omInv (m i : ℕ) : ℕ :=
  if i = 0 then 0
  else if i = m then 1
  else if i = m - 1 then m
  else if i = m - 2 then m - 1
  else if i ≤ m - 3 then m - 1 - i
  else i

/-- Subtract `m+1` once when the argument exceeds `m` (reduction modulo
`m+1` for arguments below `2(m+1)`). -/
def wrapM (m a : ℕ) : ℕ := if a ≤ m then a else a - (m + 1)

/-- Index permutation after `j` steps of an even-level chain. -/
def tauEidx (m j i : ℕ) : ℕ :=
  if i ≤ m then omIdx m (wrapM m (omInv m i + j)) else i

/-- One chain step at level `p` with counter `k`, as an index map. -/
def swapAtIdx (p k i : ℕ) : ℕ :=
  if p % 2 = 0 then swapIdx 0 p i else swapIdx k p i

theorem swapIdx_lt {L a b i : ℕ} (ha : a < L) (hb : b < L) (hi : i < L) :
    swapIdx a b i < L := by
  simp only [swapIdx]
  split_ifs <;> first
    | omega
    | exact (False.elim (by assumption))
    | exact absurd trivial (by assumption)

theorem netFidx_odd {m : ℕ} (hm : m % 2 = 1) (i : ℕ) :
    netFidx m i = swapIdx 0 (m - 1) i := by
  simp only [netFidx, swapIdx]
  split_ifs <;> first
    | omega
    | exact (False.elim (by assumption))
    | exact absurd trivial (by assumption)

theorem netFidx_lt {L m i : ℕ} (hm : m ≤ L) (hi : i < L) :
    netFidx m i < L := by
  simp only [netFidx, swapIdx]
  split_ifs <;> first
    | omega
    | exact (False.elim (by assumption))
    | exact absurd trivial (by assumption)

theorem netFidx_id_high {m i : ℕ} (h : m ≤ i) : netFidx m i = i := by
  simp only [netFidx, swapIdx]
  split_ifs <;> first
    | omega
    | exact (False.elim (by assumption))
    | exact absurd trivial (by assumption)

theorem tauOidx_zero (m i : ℕ) : tauOidx m 0 i = i := by
  simp [tauOidx]

theorem tauOidx_lt {L m j i : ℕ} (hj : j ≤ m) (hm : m < L) (hi : i < L) :
    tauOidx m j i < L := by
  simp only [tauOidx]
  split_ifs <;> first
    | omega
    | exact (False.elim (by assumption))
    | exact absurd trivial (by assumption)

/-- Value table of one odd-level chain step (block net effect followed by
the counter-directed swap), as an index map. -/
theorem gammaO_val {m j : ℕ} (hm : m % 2 = 1) (hj : j + 1 ≤ m) (i : ℕ) :
    netFidx m (swapIdx j m i) =
      if i = j then m
      else if i = m then (if j = 0 then m - 1 else if j = m - 1 then 0 else j)
      else if i = 0 then m - 1
      else if i = m - 1 then 0
      else i := by
  rw [netFidx_odd hm]
  simp only [swapIdx]
  split_ifs <;> first
    | omega
    | exact (False.elim (by assumption))
    | exact absurd trivial (by assumption)

theorem tauO_i0 {m j : ℕ} (hj : j ≠ 0) :
    tauOidx m j 0 = if j % 2 = 1 then m else 0 := by
  simp only [tauOidx]
  split_ifs <;> first
    | omega
    | exact (False.elim (by assumption))
    | exact absurd trivial (by assumption)

theorem tauO_im {m j : ℕ} (hj : j ≠ 0) (hm : m ≠ 0) :
    tauOidx m j m =
      if j = 1 then m - 1 else if j = m then 0 else j - 1 := by
  simp only [tauOidx]
  split_ifs <;> first
    | omega
    | exact (False.elim (by assumption))
    | exact absurd trivial (by assumption)

theorem tauO_im1 {m j : ℕ} (hj : j ≠ 0) (h1 : m - 1 ≠ 0) :
    tauOidx m j (m - 1) =
      if j = m then m - 2 else if j % 2 = 1 then 0 else m := by
  simp only [tauOidx]
  split_ifs <;> first
    | omega
    | exact (False.elim (by assumption))
    | exact absurd trivial (by assumption)

theorem tauO_i1 {m j : ℕ} (hj : 2 ≤ j) (h1 : (1 : ℕ) ≠ m)
    (h2 : m - 1 ≠ 1) : tauOidx m j 1 = m - 1 := by
  simp only [tauOidx]
  split_ifs <;> first
    | omega
    | exact (False.elim (by assumption))
    | exact absurd trivial (by assumption)

theorem tauO_i1_lo {m j : ℕ} (hj : j ≤ 1) (h1 : (1 : ℕ) ≠ m)
    (h2 : m - 1 ≠ 1) : tauOidx m j 1 = 1 := by
  simp only [tauOidx]
  split_ifs <;> first
    | omega
    | exact (False.elim (by assumption))
    | exact absurd trivial (by assumption)

theorem tauO_mid {m j i : ℕ} (h0 : 2 ≤ i) (him : i ≠ m)
    (him1 : i ≠ m - 1) (hij : i + 1 ≤ j) : tauOidx m j i = i - 1 := by
  simp only [tauOidx]
  split_ifs <;> first
    | omega
    | exact (False.elim (by assumption))
    | exact absurd trivial (by assumption)

theorem tauO_gt {m j i : ℕ} (h2 : 2 ≤ i) (him : i ≠ m)
    (him1 : i ≠ m - 1) (hj : j ≤ i) : tauOidx m j i = i := by
  simp only [tauOidx]
  split_ifs <;> first
    | omega
    | exact (False.elim (by assumption))
    | exact absurd trivial (by assumption)

/-- One step of the odd-level chain advances the state permutation. -/
theorem tauOidx_step {m j : ℕ} (hm : m % 2 = 1) (hj : j + 1 ≤ m) (i : ℕ) :
    tauOidx m (j + 1) i = tauOidx m j (netFidx m (swapIdx j m i)) := by
  rw [gammaO_val hm hj]
  rcases show i = j ∨ i = m ∨ (i ≠ j ∧ i ≠ m ∧ i = 0) ∨
      (i ≠ j ∧ i ≠ m ∧ i ≠ 0 ∧ i = m - 1) ∨
      (i ≠ j ∧ i ≠ m ∧ i ≠ 0 ∧ i ≠ m - 1) from by omega with
    h | h | ⟨h1, h2, h3⟩ | ⟨h1, h2, h3, h4⟩ | ⟨h1, h2, h3, h4⟩
  · have harg : (if i = j then m
        else if i = m then if j = 0 then m - 1 else if j = m - 1 then 0 else j
        else if i = 0 then m - 1 else if i = m - 1 then 0 else i) = m := by
      split_ifs <;> first
        | omega
        | exact (False.elim (by assumption))
        | exact absurd trivial (by assumption)
    rw [harg]
    replace h : j = i := h.symm
    subst h
    rcases show j = 0 ∨ (j ≠ 0 ∧ j = m - 1) ∨ (j = 1 ∧ j ≠ m - 1) ∨
        (2 ≤ j ∧ j ≠ m - 1) from by omega with h0 | ⟨h0, h1⟩ | ⟨h0, h1⟩ |
        ⟨h0, h1⟩
    · subst h0
      rw [tauOidx_zero, tauO_i0 (by omega)]
      split_ifs <;> first
        | omega
        | exact (False.elim (by assumption))
        | exact absurd trivial (by assumption)
    · have hj1 : j + 1 = m := by omega
      rw [hj1, h1, tauO_im1 (by omega) (by omega),
        tauO_im (by omega) (by omega)]
      split_ifs <;> first
        | omega
        | exact (False.elim (by assumption))
        | exact absurd trivial (by assumption)
    · subst h0
      rw [tauO_i1 (by omega) (by omega) (by omega),
        tauO_im (by omega) (by omega)]
      split_ifs <;> first
        | omega
        | exact (False.elim (by assumption))
        | exact absurd trivial (by assumption)
    · rw [tauO_mid (by omega) (by omega) (by omega) (by omega),
        tauO_im (by omega) (by omega)]
      split_ifs <;> first
        | omega
        | exact (False.elim (by assumption))
        | exact absurd trivial (by assumption)
  · replace h : m = i := h.symm
    subst h
    have hij : m ≠ j := by omega
    rw [tauO_im (by omega) (by omega)]
    rcases show j = 0 ∨ (j ≠ 0 ∧ j = m - 1) ∨ (j = 1 ∧ j ≠ m - 1) ∨
        (2 ≤ j ∧ j ≠ m - 1) from by omega with h0 | ⟨h0, h1⟩ | ⟨h0, h1⟩ |
        ⟨h0, h1⟩
    · subst h0
      have harg : (if m = 0 then m
          else if m = m then if 0 = 0 then m - 1 else if 0 = m - 1 then 0
            else 0
          else if m = 0 then m - 1 else if m = m - 1 then 0 else m) =
          m - 1 := by
        split_ifs <;> first
          | omega
          | exact (False.elim (by assumption))
          | exact absurd trivial (by assumption)
      rw [harg, tauOidx_zero]
      split_ifs <;> first
        | omega
        | exact (False.elim (by assumption))
        | exact absurd trivial (by assumption)
    · have harg : (if m = j then m
          else if m = m then if j = 0 then m - 1 else if j = m - 1 then 0
            else j
          else if m = 0 then m - 1 else if m = m - 1 then 0 else m) = 0 := by
        split_ifs <;> first
          | omega
          | exact (False.elim (by assumption))
          | exact absurd trivial (by assumption)
      rw [harg, tauO_i0 (by omega)]
      split_ifs <;> first
        | omega
        | exact (False.elim (by assumption))
        | exact absurd trivial (by assumption)
    · have harg : (if m = j then m
          else if m = m then if j = 0 then m - 1 else if j = m - 1 then 0
            else j
          else if m = 0 then m - 1 else if m = m - 1 then 0 else m) = j := by
        split_ifs <;> first
          | omega
          | exact (False.elim (by assumption))
          | exact absurd trivial (by assumption)
      rw [harg, h0, tauO_i1_lo (by omega) (by omega) (by omega)]
      split_ifs <;> first
        | omega
        | exact (False.elim (by assumption))
        | exact absurd trivial (by assumption)
    · have harg : (if m = j then m
          else if m = m then if j = 0 then m - 1 else if j = m - 1 then 0
            else j
          else if m = 0 then m - 1 else if m = m - 1 then 0 else m) = j := by
        split_ifs <;> first
          | omega
          | exact (False.elim (by assumption))
          | exact absurd trivial (by assumption)
      rw [harg, tauO_gt (by omega) (by omega) (by omega) (by omega)]
      split_ifs <;> first
        | omega
        | exact (False.elim (by assumption))
        | exact absurd trivial (by assumption)
  · subst h3
    have harg : (if (0 : ℕ) = j then m
        else if (0 : ℕ) = m then if j = 0 then m - 1 else if j = m - 1 then 0
          else j
        else if (0 : ℕ) = 0 then m - 1 else if (0 : ℕ) = m - 1 then 0
        else 0) = m - 1 := by
      split_ifs <;> first
        | omega
        | exact (False.elim (by assumption))
        | exact absurd trivial (by assumption)
    rw [harg, tauO_i0 (by omega), tauO_im1 (by omega) (by omega)]
    split_ifs <;> first
      | omega
      | exact (False.elim (by assumption))
      | exact absurd trivial (by assumption)
  · subst h4
    have harg : (if m - 1 = j then m
        else if m - 1 = m then if j = 0 then m - 1 else if j = m - 1 then 0
          else j
        else if m - 1 = 0 then m - 1 else if m - 1 = m - 1 then 0
        else m - 1) = 0 := by
      split_ifs <;> first
        | omega
        | exact (False.elim (by assumption))
        | exact absurd trivial (by assumption)
    rw [harg, tauO_im1 (by omega) (by omega)]
    rcases show j = 0 ∨ j ≠ 0 from by omega with h0 | h0
    · subst h0
      rw [tauOidx_zero]
      split_ifs <;> first
        | omega
        | exact (False.elim (by assumption))
        | exact absurd trivial (by assumption)
    · rw [tauO_i0 h0]
      split_ifs <;> first
        | omega
        | exact (False.elim (by assumption))
        | exact absurd trivial (by assumption)
  · have harg : (if i = j then m
        else if i = m then if j = 0 then m - 1 else if j = m - 1 then 0
          else j
        else if i = 0 then m - 1 else if i = m - 1 then 0 else i) = i := by
      split_ifs <;> first
        | omega
        | exact (False.elim (by assumption))
        | exact absurd trivial (by assumption)
    rw [harg]
    rcases show (i = 1 ∧ j = 0) ∨ (i = 1 ∧ 2 ≤ j) ∨
        (2 ≤ i ∧ i + 1 ≤ j) ∨ (2 ≤ i ∧ j ≤ i) from by omega with
      ⟨hA, hB⟩ | ⟨hA, hB⟩ | ⟨hA, hB⟩ | ⟨hA, hB⟩
    · subst hA
      subst hB
      rw [tauOidx_zero, tauO_i1_lo (by omega) (by omega) (by omega)]
    · subst hA
      rw [tauO_i1 (by omega) (by omega) (by omega),
        tauO_i1 (by omega) (by omega) (by omega)]
    · rw [tauO_mid (by omega) (by omega) (by omega) (by omega),
        tauO_mid (by omega) (by omega) (by omega) (by omega)]
    · rw [tauO_gt (by omega) (by omega) (by omega) (by omega),
        tauO_gt (by omega) (by omega) (by omega) (by omega)]

theorem netFidx_even_val {m i : ℕ} (hm : m % 2 = 0) (h4 : 4 ≤ m) :
    netFidx m i = if i = 0 then m - 3 else if i = 1 then m - 2
      else if i = m - 2 then m - 1 else if i = m - 1 then 0
      else if i ≤ m - 3 then i - 1 else i := by
  simp only [netFidx, swapIdx]
  split_ifs <;> first
    | omega
    | exact (False.elim (by assumption))
    | exact absurd trivial (by assumption)

/-- Value of the odd-level state permutation at the chain position `m`. -/
theorem tauO_top_val {m j : ℕ} (hm : m ≠ 0) (hj : j ≤ m) :
    tauOidx m j m = if j = 0 then m else if j = 1 then m - 1
      else if j = m then 0 else j - 1 := by
  rcases show j = 0 ∨ j ≠ 0 from by omega with h0 | h0
  · subst h0
    rw [tauOidx_zero]
    split_ifs <;> first
      | omega
      | exact (False.elim (by assumption))
      | exact absurd trivial (by assumption)
  · rw [tauO_im h0 hm]
    split_ifs <;> first
      | omega
      | exact (False.elim (by assumption))
      | exact absurd trivial (by assumption)

theorem tauOidx_top_le {m j : ℕ} (hm : m % 2 = 1) (hj : j ≤ m) :
    tauOidx m j m ≤ m := by
  rw [tauO_top_val (by omega) hj]
  split_ifs <;> first
    | omega
    | exact (False.elim (by assumption))
    | exact absurd trivial (by assumption)

theorem tauOidx_top_inj {m t u : ℕ} (hm : m % 2 = 1) (ht : t ≤ m)
    (hu : u ≤ m) (h : tauOidx m t m = tauOidx m u m) : t = u := by
  rw [tauO_top_val (by omega) ht, tauO_top_val (by omega) hu] at h
  split_ifs at h <;> omega

set_option maxHeartbeats 1000000 in
/-- Composing a full odd-level chain with the inner block's net effect
gives the even net effect one level up. -/
theorem tauOidx_netF {m : ℕ} (hm : m % 2 = 1) (i : ℕ) :
    tauOidx m m (netFidx m i) = netFidx (m + 1) i := by
  rcases show m = 1 ∨ 3 ≤ m from by omega with h1 | h3
  · subst h1
    have e1 : netFidx 1 i = i := by
      simp [netFidx]
    have e2 : netFidx 2 i = swapIdx 0 1 i := by
      simp [netFidx]
    rw [e1, e2]
    simp only [tauOidx, swapIdx]
    split_ifs <;> first
      | omega
      | exact (False.elim (by assumption))
      | exact absurd trivial (by assumption)
  · rw [netFidx_odd hm]
    rcases show i = 0 ∨ i = m - 1 ∨ i = m ∨ i = 1 ∨
        (2 ≤ i ∧ i ≤ m - 2) ∨ m + 1 ≤ i from by omega with
      h | h | h | h | ⟨hA, hB⟩ | h
    · subst h
      have harg : swapIdx 0 (m - 1) 0 = m - 1 := by
        simp only [swapIdx]
        split_ifs <;> first
          | omega
          | exact (False.elim (by assumption))
          | exact absurd trivial (by assumption)
      rw [harg, tauO_im1 (by omega) (by omega),
        netFidx_even_val (by omega) (by omega)]
      split_ifs <;> first
        | omega
        | exact (False.elim (by assumption))
        | exact absurd trivial (by assumption)
    · subst h
      have harg : swapIdx 0 (m - 1) (m - 1) = 0 := by
        simp only [swapIdx]
        split_ifs <;> first
          | omega
          | exact (False.elim (by assumption))
          | exact absurd trivial (by assumption)
      rw [harg, tauO_i0 (by omega),
        netFidx_even_val (by omega) (by omega)]
      split_ifs <;> first
        | omega
        | exact (False.elim (by assumption))
        | exact absurd trivial (by assumption)
    · replace h : m = i := h.symm
      subst h
      have harg : swapIdx 0 (m - 1) m = m := by
        simp only [swapIdx]
        split_ifs <;> first
          | omega
          | exact (False.elim (by assumption))
          | exact absurd trivial (by assumption)
      rw [harg, tauO_im (by omega) (by omega),
        netFidx_even_val (by omega) (by omega)]
      split_ifs <;> first
        | omega
        | exact (False.elim (by assumption))
        | exact absurd trivial (by assumption)
    · subst h
      have harg : swapIdx 0 (m - 1) 1 = 1 := by
        simp only [swapIdx]
        split_ifs <;> first
          | omega
          | exact (False.elim (by assumption))
          | exact absurd trivial (by assumption)
      rw [harg, tauO_i1 (by omega) (by omega) (by omega),
        netFidx_even_val (by omega) (by omega)]
      split_ifs <;> first
        | omega
        | exact (False.elim (by assumption))
        | exact absurd trivial (by assumption)
    · have harg : swapIdx 0 (m - 1) i = i := by
        simp only [swapIdx]
        split_ifs <;> first
          | omega
          | exact (False.elim (by assumption))
          | exact absurd trivial (by assumption)
      rw [harg, tauO_mid (by omega) (by omega) (by omega) (by omega),
        netFidx_even_val (by omega) (by omega)]
      split_ifs <;> first
        | omega
        | exact (False.elim (by assumption))
        | exact absurd trivial (by assumption)
    · have harg : swapIdx 0 (m - 1) i = i := by
        simp only [swapIdx]
        split_ifs <;> first
          | omega
          | exact (False.elim (by assumption))
          | exact absurd trivial (by assumption)
      rw [harg, tauO_gt (by omega) (by omega) (by omega) (by omega),
        netFidx_id_high (by omega)]

theorem omIdx_le {m t : ℕ} (ht : t ≤ m) : omIdx m t ≤ m := by
  simp only [omIdx]
  split_ifs <;> first
    | omega
    | exact (False.elim (by assumption))
    | exact absurd trivial (by assumption)

theorem omInv_le {m i : ℕ} (hi : i ≤ m) : omInv m i ≤ m := by
  simp only [omInv]
  split_ifs <;> first
    | omega
    | exact (False.elim (by assumption))
    | exact absurd trivial (by assumption)

theorem omIdx_inj {m a b : ℕ} (h2 : 2 ≤ m) (ha : a ≤ m) (hb : b ≤ m)
    (h : omIdx m a = omIdx m b) : a = b := by
  simp only [omIdx] at h
  split_ifs at h <;> omega

theorem wrapM_le {m a : ℕ} (ha : a ≤ 2 * m + 1) : wrapM m a ≤ m := by
  simp only [wrapM]
  split_ifs <;> first
    | omega
    | exact (False.elim (by assumption))
    | exact absurd trivial (by assumption)

theorem omIdx_omInv {m i : ℕ} (hi : i ≤ m) : omIdx m (omInv m i) = i := by
  rcases show i = 0 ∨ (i ≠ 0 ∧ i = m) ∨ (i ≠ 0 ∧ i ≠ m ∧ i = m - 1) ∨
      (i ≠ 0 ∧ i ≠ m ∧ i ≠ m - 1 ∧ i = m - 2) ∨
      (i ≠ 0 ∧ i ≠ m ∧ i ≠ m - 1 ∧ i ≠ m - 2 ∧ 1 ≤ i ∧ i ≤ m - 3) from by
    omega with h | ⟨hA, h⟩ | ⟨hA, hB, h⟩ | ⟨hA, hB, hC, h⟩ |
    ⟨hA, hB, hC, hD, h1, h2⟩
  · have h1 : omInv m i = 0 := by
      simp only [omInv]
      split_ifs <;> first
        | omega
        | exact (False.elim (by assumption))
        | exact absurd trivial (by assumption)
    rw [h1]
    simp only [omIdx]
    split_ifs <;> first
      | omega
      | exact (False.elim (by assumption))
      | exact absurd trivial (by assumption)
  · have h1 : omInv m i = 1 := by
      simp only [omInv]
      split_ifs <;> first
        | omega
        | exact (False.elim (by assumption))
        | exact absurd trivial (by assumption)
    rw [h1]
    simp only [omIdx]
    split_ifs <;> first
      | omega
      | exact (False.elim (by assumption))
      | exact absurd trivial (by assumption)
  · have h1 : omInv m i = m := by
      simp only [omInv]
      split_ifs <;> first
        | omega
        | exact (False.elim (by assumption))
        | exact absurd trivial (by assumption)
    rw [h1]
    simp only [omIdx]
    split_ifs <;> first
      | omega
      | exact (False.elim (by assumption))
      | exact absurd trivial (by assumption)
  · have h1 : omInv m i = m - 1 := by
      simp only [omInv]
      split_ifs <;> first
        | omega
        | exact (False.elim (by assumption))
        | exact absurd trivial (by assumption)
    rw [h1]
    simp only [omIdx]
    split_ifs <;> first
      | omega
      | exact (False.elim (by assumption))
      | exact absurd trivial (by assumption)
  · have h1 : omInv m i = m - 1 - i := by
      simp only [omInv]
      split_ifs <;> first
        | omega
        | exact (False.elim (by assumption))
        | exact absurd trivial (by assumption)
    rw [h1]
    simp only [omIdx]
    split_ifs <;> first
      | omega
      | exact (False.elim (by assumption))
      | exact absurd trivial (by assumption)

theorem tauEidx_zero (m i : ℕ) : tauEidx m 0 i = i := by
  rcases show m < i ∨ i ≤ m from by omega with h | h
  · simp only [tauEidx]
    rw [if_neg (by omega)]
  · simp only [tauEidx]
    rw [if_pos h, Nat.add_zero]
    have h1 : wrapM m (omInv m i) = omInv m i := by
      have h2 := omInv_le h
      simp only [wrapM]
      split_ifs <;> first
        | omega
        | exact (False.elim (by assumption))
        | exact absurd trivial (by assumption)
    rw [h1]
    exact omIdx_omInv h

/-- Value table of one even-level chain step. -/
theorem gammaE_val {m i : ℕ} (hm : m % 2 = 0) (h4 : 4 ≤ m) (hi : i ≤ m) :
    netFidx m (swapIdx 0 m i) =
      if i = 0 then m else if i = m then m - 3 else if i = 1 then m - 2
      else if i = m - 2 then m - 1 else if i = m - 1 then 0 else i - 1 := by
  have hs : swapIdx 0 m i = if i = 0 then m else if i = m then 0 else i := by
    simp only [swapIdx]
  rw [hs]
  rcases show i = 0 ∨ i = m ∨ i = 1 ∨ i = m - 2 ∨ i = m - 1 ∨
      (2 ≤ i ∧ i ≤ m - 3) from by omega with h | h | h | h | h | ⟨hA, hB⟩
  · have h1 : (if i = 0 then m else if i = m then 0 else i) = m := by
      split_ifs <;> first
        | omega
        | exact (False.elim (by assumption))
        | exact absurd trivial (by assumption)
    rw [h1, netFidx_even_val hm h4]
    try split_ifs <;> first
    | omega
    | exact (False.elim (by assumption))
    | exact absurd trivial (by assumption)
  · have h1 : (if i = 0 then m else if i = m then 0 else i) = 0 := by
      split_ifs <;> first
        | omega
        | exact (False.elim (by assumption))
        | exact absurd trivial (by assumption)
    rw [h1, netFidx_even_val hm h4]
    try split_ifs <;> first
      | omega
      | exact (False.elim (by assumption))
      | exact absurd trivial (by assumption)
  · have h1 : (if i = 0 then m else if i = m then 0 else i) = 1 := by
      split_ifs <;> first
        | omega
        | exact (False.elim (by assumption))
        | exact absurd trivial (by assumption)
    rw [h1, netFidx_even_val hm h4]
    try split_ifs <;> first
      | omega
      | exact (False.elim (by assumption))
      | exact absurd trivial (by assumption)
  · have h1 : (if i = 0 then m else if i = m then 0 else i) = m - 2 := by
      split_ifs <;> first
        | omega
        | exact (False.elim (by assumption))
        | exact absurd trivial (by assumption)
    rw [h1, netFidx_even_val hm h4]
    try split_ifs <;> first
    | omega
    | exact (False.elim (by assumption))
    | exact absurd trivial (by assumption)
  · have h1 : (if i = 0 then m else if i = m then 0 else i) = m - 1 := by
      split_ifs <;> first
        | omega
        | exact (False.elim (by assumption))
        | exact absurd trivial (by assumption)
    rw [h1, netFidx_even_val hm h4]
    try split_ifs <;> first
    | omega
    | exact (False.elim (by assumption))
    | exact absurd trivial (by assumption)
  · have h1 : (if i = 0 then m else if i = m then 0 else i) = i := by
      split_ifs <;> first
        | omega
        | exact (False.elim (by assumption))
        | exact absurd trivial (by assumption)
    rw [h1, netFidx_even_val hm h4]
    try split_ifs <;> first
    | omega
    | exact (False.elim (by assumption))
    | exact absurd trivial (by assumption)

theorem gammaE_le {m i : ℕ} (hm : m % 2 = 0) (h4 : 4 ≤ m) (hi : i ≤ m) :
    netFidx m (swapIdx 0 m i) ≤ m := by
  rw [gammaE_val hm h4 hi]
  split_ifs <;> first
    | omega
    | exact (False.elim (by assumption))
    | exact absurd trivial (by assumption)

theorem gammaE_id_high {m i : ℕ} (hm : m ≠ 0) (hi : m < i) :
    netFidx m (swapIdx 0 m i) = i := by
  have hs : swapIdx 0 m i = i := by
    simp only [swapIdx]
    split_ifs <;> first
      | omega
      | exact (False.elim (by assumption))
      | exact absurd trivial (by assumption)
  rw [hs]
  exact netFidx_id_high (by omega)

/-- The even-level chain step advances by one along the cycle listing. -/
theorem omInv_gammaE {m i : ℕ} (hm : m % 2 = 0) (h4 : 4 ≤ m) (hi : i ≤ m) :
    omInv m (netFidx m (swapIdx 0 m i)) = wrapM m (omInv m i + 1) := by
  rw [gammaE_val hm h4 hi]
  rcases show i = 0 ∨ (i ≠ 0 ∧ i = m) ∨ (i ≠ 0 ∧ i ≠ m ∧ i = 1) ∨
      (i ≠ 0 ∧ i ≠ m ∧ i ≠ 1 ∧ i = m - 2) ∨
      (i ≠ 0 ∧ i ≠ m ∧ i ≠ 1 ∧ i ≠ m - 2 ∧ i = m - 1) ∨
      (i ≠ 0 ∧ i ≠ m ∧ i ≠ 1 ∧ i ≠ m - 2 ∧ i ≠ m - 1 ∧ 2 ≤ i ∧ i ≤ m - 3)
      from by omega with h | ⟨hA, h⟩ | ⟨hA, hB, h⟩ | ⟨hA, hB, hC, h⟩ |
    ⟨hA, hB, hC, hD, h⟩ | ⟨hA, hB, hC, hD, hE, h1, h2⟩
  · have hv : (if i = 0 then m else if i = m then m - 3
        else if i = 1 then m - 2 else if i = m - 2 then m - 1
        else if i = m - 1 then 0 else i - 1) = m := by
      split_ifs <;> first
        | omega
        | exact (False.elim (by assumption))
        | exact absurd trivial (by assumption)
    have hw : omInv m i = 0 := by
      simp only [omInv]
      split_ifs <;> first
        | omega
        | exact (False.elim (by assumption))
        | exact absurd trivial (by assumption)
    rw [hv, hw]
    simp only [omInv, wrapM]
    split_ifs <;> first
      | omega
      | exact (False.elim (by assumption))
      | exact absurd trivial (by assumption)
  · have hv : (if i = 0 then m else if i = m then m - 3
        else if i = 1 then m - 2 else if i = m - 2 then m - 1
        else if i = m - 1 then 0 else i - 1) = m - 3 := by
      split_ifs <;> first
        | omega
        | exact (False.elim (by assumption))
        | exact absurd trivial (by assumption)
    have hw : omInv m i = 1 := by
      simp only [omInv]
      split_ifs <;> first
        | omega
        | exact (False.elim (by assumption))
        | exact absurd trivial (by assumption)
    rw [hv, hw]
    simp only [omInv, wrapM]
    split_ifs <;> first
      | omega
      | exact (False.elim (by assumption))
      | exact absurd trivial (by assumption)
  · have hv : (if i = 0 then m else if i = m then m - 3
        else if i = 1 then m - 2 else if i = m - 2 then m - 1
        else if i = m - 1 then 0 else i - 1) = m - 2 := by
      split_ifs <;> first
        | omega
        | exact (False.elim (by assumption))
        | exact absurd trivial (by assumption)
    have hw : omInv m i = m - 2 := by
      simp only [omInv]
      split_ifs <;> first
        | omega
        | exact (False.elim (by assumption))
        | exact absurd trivial (by assumption)
    rw [hv, hw]
    simp only [omInv, wrapM]
    split_ifs <;> first
      | omega
      | exact (False.elim (by assumption))
      | exact absurd trivial (by assumption)
  · have hv : (if i = 0 then m else if i = m then m - 3
        else if i = 1 then m - 2 else if i = m - 2 then m - 1
        else if i = m - 1 then 0 else i - 1) = m - 1 := by
      split_ifs <;> first
        | omega
        | exact (False.elim (by assumption))
        | exact absurd trivial (by assumption)
    have hw : omInv m i = m - 1 := by
      simp only [omInv]
      split_ifs <;> first
        | omega
        | exact (False.elim (by assumption))
        | exact absurd trivial (by assumption)
    rw [hv, hw]
    simp only [omInv, wrapM]
    split_ifs <;> first
      | omega
      | exact (False.elim (by assumption))
      | exact absurd trivial (by assumption)
  · have hv : (if i = 0 then m else if i = m then m - 3
        else if i = 1 then m - 2 else if i = m - 2 then m - 1
        else if i = m - 1 then 0 else i - 1) = 0 := by
      split_ifs <;> first
        | omega
        | exact (False.elim (by assumption))
        | exact absurd trivial (by assumption)
    have hw : omInv m i = m := by
      simp only [omInv]
      split_ifs <;> first
        | omega
        | exact (False.elim (by assumption))
        | exact absurd trivial (by assumption)
    rw [hv, hw]
    simp only [omInv, wrapM]
    split_ifs <;> first
      | omega
      | exact (False.elim (by assumption))
      | exact absurd trivial (by assumption)
  · have hv : (if i = 0 then m else if i = m then m - 3
        else if i = 1 then m - 2 else if i = m - 2 then m - 1
        else if i = m - 1 then 0 else i - 1) = i - 1 := by
      split_ifs <;> first
        | omega
        | exact (False.elim (by assumption))
        | exact absurd trivial (by assumption)
    have hw : omInv m i = m - 1 - i := by
      simp only [omInv]
      split_ifs <;> first
        | omega
        | exact (False.elim (by assumption))
        | exact absurd trivial (by assumption)
    rw [hv, hw]
    simp only [omInv, wrapM]
    split_ifs <;> first
      | omega
      | exact (False.elim (by assumption))
      | exact absurd trivial (by assumption)

/-- One step of the even-level chain advances the state permutation. -/
theorem tauEidx_step {m j : ℕ} (hm : m % 2 = 0) (h2 : 2 ≤ m)
    (hj : j + 1 ≤ m) (i : ℕ) :
    tauEidx m (j + 1) i = tauEidx m j (netFidx m (swapIdx 0 m i)) := by
  rcases show m < i ∨ i ≤ m from by omega with hi | hi
  · rw [gammaE_id_high (by omega) hi]
    simp only [tauEidx]
    rw [if_neg (by omega), if_neg (by omega)]
  · rcases show m = 2 ∨ 4 ≤ m from by omega with h4 | h4
    · subst h4
      rcases show j = 0 ∨ j = 1 from by omega with hj0 | hj0 <;> subst hj0 <;>
        rcases show i = 0 ∨ i = 1 ∨ i = 2 from by omega with h | h | h <;>
        subst h <;> rfl
    · have hgle := gammaE_le hm h4 hi
      have hg := omInv_gammaE hm h4 hi
      have hile := omInv_le hi
      simp only [tauEidx]
      rw [if_pos hi, if_pos hgle, hg]
      have hw : wrapM m (omInv m i + (j + 1)) =
          wrapM m (wrapM m (omInv m i + 1) + j) := by
        simp only [wrapM]
        split_ifs <;> omega
      rw [hw]

/-- Composing a full even-level chain with the inner block's net effect
gives the odd net effect one level up. -/
theorem tauEidx_netF {m : ℕ} (hm : m % 2 = 0) (h2 : 2 ≤ m) (i : ℕ) :
    tauEidx m m (netFidx m i) = netFidx (m + 1) i := by
  have hR : netFidx (m + 1) i = swapIdx 0 m i := by
    rw [netFidx_odd (by omega)]
    simp only [Nat.add_sub_cancel]
  rw [hR]
  rcases show m < i ∨ i ≤ m from by omega with hi | hi
  · rw [netFidx_id_high (by omega)]
    have hs : swapIdx 0 m i = i := by
      simp only [swapIdx]
      split_ifs <;> omega
    rw [hs]
    simp only [tauEidx]
    rw [if_neg (by omega)]
  · rcases show m = 2 ∨ 4 ≤ m from by omega with h4 | h4
    · subst h4
      rcases show i = 0 ∨ i = 1 ∨ i = 2 from by omega with h | h | h <;>
        subst h <;> rfl
    · rcases show i = 0 ∨ (i ≠ 0 ∧ i = 1) ∨ (i ≠ 0 ∧ i ≠ 1 ∧ i = m - 2) ∨
          (i ≠ 0 ∧ i ≠ 1 ∧ i ≠ m - 2 ∧ i = m - 1) ∨
          (i ≠ 0 ∧ i ≠ 1 ∧ i ≠ m - 2 ∧ i ≠ m - 1 ∧ i = m) ∨
          (i ≠ 0 ∧ i ≠ 1 ∧ i ≠ m - 2 ∧ i ≠ m - 1 ∧ i ≠ m ∧ 2 ≤ i ∧
            i ≤ m - 3) from by omega with
        h | ⟨hA, h⟩ | ⟨hA, hB, h⟩ | ⟨hA, hB, hC, h⟩ | ⟨hA, hB, hC, hD, h⟩ |
        ⟨hA, hB, hC, hD, hE, h1, h2⟩
      · have hL : netFidx m i = m - 3 := by
          rw [netFidx_even_val hm h4]
          split_ifs <;> first
          | omega
          | exact (False.elim (by assumption))
          | exact absurd trivial (by assumption)
        have hs : swapIdx 0 m i = m := by
          simp only [swapIdx]
          split_ifs <;> first
          | omega
          | exact (False.elim (by assumption))
          | exact absurd trivial (by assumption)
        rw [hL, hs]
        have hvle : (m - 3 : ℕ) ≤ m := by omega
        simp only [tauEidx]
        rw [if_pos hvle]
        have hwv : omInv m (m - 3) = 2 := by
          simp only [omInv]
          split_ifs <;> first
          | omega
          | exact (False.elim (by assumption))
          | exact absurd trivial (by assumption)
        rw [hwv]
        have hww : wrapM m (2 + m) = 1 := by
          simp only [wrapM]
          split_ifs <;> first
          | omega
          | exact (False.elim (by assumption))
          | exact absurd trivial (by assumption)
        rw [hww]
        have hoo : omIdx m (1) = m := by
          simp only [omIdx]
          split_ifs <;> first
          | omega
          | exact (False.elim (by assumption))
          | exact absurd trivial (by assumption)
        exact hoo
      · have hL : netFidx m i = m - 2 := by
          rw [netFidx_even_val hm h4]
          split_ifs <;> first
          | omega
          | exact (False.elim (by assumption))
          | exact absurd trivial (by assumption)
        have hs : swapIdx 0 m i = 1 := by
          simp only [swapIdx]
          split_ifs <;> first
          | omega
          | exact (False.elim (by assumption))
          | exact absurd trivial (by assumption)
        rw [hL, hs]
        have hvle : (m - 2 : ℕ) ≤ m := by omega
        simp only [tauEidx]
        rw [if_pos hvle]
        have hwv : omInv m (m - 2) = m - 1 := by
          simp only [omInv]
          split_ifs <;> first
          | omega
          | exact (False.elim (by assumption))
          | exact absurd trivial (by assumption)
        rw [hwv]
        have hww : wrapM m (m - 1 + m) = m - 2 := by
          simp only [wrapM]
          split_ifs <;> first
          | omega
          | exact (False.elim (by assumption))
          | exact absurd trivial (by assumption)
        rw [hww]
        have hoo : omIdx m (m - 2) = 1 := by
          simp only [omIdx]
          split_ifs <;> first
          | omega
          | exact (False.elim (by assumption))
          | exact absurd trivial (by assumption)
        exact hoo
      · have hL : netFidx m i = m - 1 := by
          rw [netFidx_even_val hm h4]
          split_ifs <;> first
          | omega
          | exact (False.elim (by assumption))
          | exact absurd trivial (by assumption)
        have hs : swapIdx 0 m i = m - 2 := by
          simp only [swapIdx]
          split_ifs <;> first
          | omega
          | exact (False.elim (by assumption))
          | exact absurd trivial (by assumption)
        rw [hL, hs]
        have hvle : (m - 1 : ℕ) ≤ m := by omega
        simp only [tauEidx]
        rw [if_pos hvle]
        have hwv : omInv m (m - 1) = m := by
          simp only [omInv]
          split_ifs <;> first
          | omega
          | exact (False.elim (by assumption))
          | exact absurd trivial (by assumption)
        rw [hwv]
        have hww : wrapM m (m + m) = m - 1 := by
          simp only [wrapM]
          split_ifs <;> first
          | omega
          | exact (False.elim (by assumption))
          | exact absurd trivial (by assumption)
        rw [hww]
        have hoo : omIdx m (m - 1) = m - 2 := by
          simp only [omIdx]
          split_ifs <;> first
          | omega
          | exact (False.elim (by assumption))
          | exact absurd trivial (by assumption)
        exact hoo
      · have hL : netFidx m i = 0 := by
          rw [netFidx_even_val hm h4]
          split_ifs <;> first
          | omega
          | exact (False.elim (by assumption))
          | exact absurd trivial (by assumption)
        have hs : swapIdx 0 m i = m - 1 := by
          simp only [swapIdx]
          split_ifs <;> first
          | omega
          | exact (False.elim (by assumption))
          | exact absurd trivial (by assumption)
        rw [hL, hs]
        have hvle : (0 : ℕ) ≤ m := by omega
        simp only [tauEidx]
        rw [if_pos hvle]
        have hwv : omInv m (0) = 0 := by
          simp only [omInv]
          split_ifs <;> first
          | omega
          | exact (False.elim (by assumption))
          | exact absurd trivial (by assumption)
        rw [hwv]
        have hww : wrapM m (0 + m) = m := by
          simp only [wrapM]
          split_ifs <;> first
          | omega
          | exact (False.elim (by assumption))
          | exact absurd trivial (by assumption)
        rw [hww]
        have hoo : omIdx m (m) = m - 1 := by
          simp only [omIdx]
          split_ifs <;> first
          | omega
          | exact (False.elim (by assumption))
          | exact absurd trivial (by assumption)
        exact hoo
      · have hL : netFidx m i = m := by
          rw [netFidx_even_val hm h4]
          split_ifs <;> first
          | omega
          | exact (False.elim (by assumption))
          | exact absurd trivial (by assumption)
        have hs : swapIdx 0 m i = 0 := by
          simp only [swapIdx]
          split_ifs <;> first
          | omega
          | exact (False.elim (by assumption))
          | exact absurd trivial (by assumption)
        rw [hL, hs]
        have hvle : (m : ℕ) ≤ m := by omega
        simp only [tauEidx]
        rw [if_pos hvle]
        have hwv : omInv m (m) = 1 := by
          simp only [omInv]
          split_ifs <;> first
          | omega
          | exact (False.elim (by assumption))
          | exact absurd trivial (by assumption)
        rw [hwv]
        have hww : wrapM m (1 + m) = 0 := by
          simp only [wrapM]
          split_ifs <;> first
          | omega
          | exact (False.elim (by assumption))
          | exact absurd trivial (by assumption)
        rw [hww]
        have hoo : omIdx m (0) = 0 := by
          simp only [omIdx]
          split_ifs <;> first
          | omega
          | exact (False.elim (by assumption))
          | exact absurd trivial (by assumption)
        exact hoo
      · have hL : netFidx m i = i - 1 := by
          rw [netFidx_even_val hm h4]
          split_ifs <;> first
          | omega
          | exact (False.elim (by assumption))
          | exact absurd trivial (by assumption)
        have hs : swapIdx 0 m i = i := by
          simp only [swapIdx]
          split_ifs <;> first
          | omega
          | exact (False.elim (by assumption))
          | exact absurd trivial (by assumption)
        rw [hL, hs]
        have hvle : (i - 1 : ℕ) ≤ m := by omega
        simp only [tauEidx]
        rw [if_pos hvle]
        have hwv : omInv m (i - 1) = m - i := by
          simp only [omInv]
          split_ifs <;> first
          | omega
          | exact (False.elim (by assumption))
          | exact absurd trivial (by assumption)
        rw [hwv]
        have hww : wrapM m (m - i + m) = m - i - 1 := by
          simp only [wrapM]
          split_ifs <;> first
          | omega
          | exact (False.elim (by assumption))
          | exact absurd trivial (by assumption)
        rw [hww]
        have hoo : omIdx m (m - i - 1) = i := by
          simp only [omIdx]
          split_ifs <;> first
          | omega
          | exact (False.elim (by assumption))
          | exact absurd trivial (by assumption)
        exact hoo

theorem tauEidx_top_le {m j : ℕ} (hj : j ≤ m) : tauEidx m j m ≤ m := by
  simp only [tauEidx]
  rw [if_pos le_rfl]
  have h1 : omInv m m + j ≤ 2 * m + 1 := by
    have h2 := omInv_le (le_refl m)
    omega
  exact omIdx_le (wrapM_le h1)

theorem tauEidx_top_inj {m t u : ℕ} (hm : m % 2 = 0) (h2 : 2 ≤ m)
    (ht : t ≤ m) (hu : u ≤ m) (h : tauEidx m t m = tauEidx m u m) : t = u := by
  simp only [tauEidx] at h
  rw [if_pos le_rfl, if_pos le_rfl] at h
  have h1 : omInv m m = 1 := by
    simp only [omInv]
    split_ifs <;> omega
  rw [h1] at h
  have hw1 : wrapM m (1 + t) ≤ m := wrapM_le (by omega)
  have hw2 : wrapM m (1 + u) ≤ m := wrapM_le (by omega)
  have h3 := omIdx_inj h2 hw1 hw2 h
  simp only [wrapM] at h3
  split_ifs at h3 <;> omega

theorem tauEidx_lt {L m j i : ℕ} (hj : j ≤ m) (hm : m < L) (hi : i < L) :
    tauEidx m j i < L := by
  simp only [tauEidx]
  split_ifs with h
  · have h1 : omInv m i + j ≤ 2 * m + 1 := by
      have h2 := omInv_le h
      omega
    have h3 := omIdx_le (wrapM_le h1)
    omega
  · omega

/-! ### Heap's algorithm: list-level block decomposition. -/

/-- One chain step at level `p` with counter value `k`: the swap the loop
performs when `c[p] = k` (even `p` swaps `0, p`; odd `p` swaps `k, p`). -/
def swapAt {α : Type} (p k : ℕ) (es : List α) : List α :=
  if p % 2 = 0 then listSwap es 0 p else listSwap es k p

/-- Yields of a level-`p` chain with `k` swaps remaining, given the inner
block (`bm`) and its net effect (`nm`). -/
def chainListL {α : Type} (bm : List α → List (List α))
    (nm : List α → List α) (p : ℕ) : ℕ → List α → List (List α)
  | 0, es => bm es
  | k + 1, es =>
    bm es ++ swapAt p (p - (k + 1)) (nm es) ::
      chainListL bm nm p k (swapAt p (p - (k + 1)) (nm es))

/-- Net element permutation of a level-`p` chain with `k` swaps left. -/
def chainNetL {α : Type} (nm : List α → List α) (p : ℕ) :
    ℕ → List α → List α
  | 0, es => nm es
  | k + 1, es => chainNetL nm p k (swapAt p (p - (k + 1)) (nm es))

/-- Yields and net element permutation of one complete block of Heap's
algorithm over the first `m` positions. -/
def blockNet {α : Type} : ℕ → (List α → List (List α)) × (List α → List α)
  | 0 => (fun _ => [], fun es => es)
  | m + 1 =>
    ((fun es => chainListL (blockNet m).1 (blockNet m).2 m m es),
      (fun es => chainNetL (blockNet m).2 m m es))

def blockRun {α : Type} (m : ℕ) (es : List α) : List (List α) :=
  (blockNet m).1 es

def netF {α : Type} (m : ℕ) (es : List α) : List α := (blockNet m).2 es

/-- All yields of `generate_permutations`: the initial list, then the
complete top-level block. -/
def blockAll {α : Type} (m : ℕ) (es : List α) : List (List α) :=
  es :: blockRun m es

theorem blockRun_zero {α : Type} (es : List α) : blockRun 0 es = [] := rfl

theorem blockRun_succ {α : Type} (m : ℕ) (es : List α) :
    blockRun (m + 1) es = chainListL (blockRun m) (netF m) m m es := rfl

theorem netF_zero {α : Type} (es : List α) : netF 0 es = es := rfl

theorem netF_succ {α : Type} (m : ℕ) (es : List α) :
    netF (m + 1) es = chainNetL (netF m) m m es := rfl

/-- Intermediate states of a level-`p` chain, starting with counter value
`s` and taking `t` steps. -/
def chainStatesFrom {α : Type} (nm : List α → List α) (p : ℕ) :
    ℕ → ℕ → List α → List α
  | _, 0, es => es
  | s, t + 1, es => chainStatesFrom nm p (s + 1) t (swapAt p s (nm es))

theorem chainStatesFrom_succ {α : Type} (nm : List α → List α) (p : ℕ) :
    ∀ (t s : ℕ) (es : List α),
      chainStatesFrom nm p s (t + 1) es =
        swapAt p (s + t) (nm (chainStatesFrom nm p s t es)) := by
  intro t
  induction t with
  | zero =>
    intro s es
    rfl
  | succ t ih =>
    intro s es
    show chainStatesFrom nm p (s + 1) (t + 1) (swapAt p s (nm es)) =
      swapAt p (s + (t + 1)) (nm (chainStatesFrom nm p s (t + 1) es))
    rw [ih (s + 1) (swapAt p s (nm es))]
    have he : s + 1 + t = s + (t + 1) := by omega
    rw [he]
    rfl

/-- The net effect of a chain is the inner net effect of its last state. -/
theorem chainNetL_eq_state {α : Type} (nm : List α → List α) (p : ℕ) :
    ∀ (k s : ℕ) (es : List α), s + k = p →
      chainNetL nm p k es = nm (chainStatesFrom nm p s k es) := by
  intro k
  induction k with
  | zero =>
    intro s es hs
    rfl
  | succ k ih =>
    intro s es hs
    show chainNetL nm p k (swapAt p (p - (k + 1)) (nm es)) =
      nm (chainStatesFrom nm p (s + 1) k (swapAt p s (nm es)))
    have hps : p - (k + 1) = s := by omega
    rw [hps]
    exact ih (s + 1) (swapAt p s (nm es)) (by omega)

/-- Loop iterations consumed by a level-`m` chain with `k` swaps left. -/
def chainFuel (m k : ℕ) : ℕ := (k + 1) * heapFuel m + k + 1

theorem heapFuel_succ (m : ℕ) : heapFuel (m + 1) = chainFuel m m := rfl

theorem getD_replicate (n j : ℕ) : (List.replicate n (0 : ℕ)).getD j 0 = 0 := by
  rcases show j < n ∨ n ≤ j from by omega with h | h
  · rw [List.getD_eq_getElem (List.replicate n 0) 0
      (by simpa using h)]
    simp
  · rw [List.getD_eq_default (List.replicate n 0) 0 (by simpa using h)]

/-- The fuel-indexed loop, started at a level-`m` block boundary with
zeroed counters below `m`, emits the whole block's yields and continues
at `i = m` with unchanged counters and exact fuel accounting. -/
theorem heapRun_block {α : Type} (n : ℕ) : ∀ (m : ℕ), m ≤ n →
    ∀ (es : List α) (c : List ℕ) (fuel : ℕ), c.length = n →
      (∀ j, j < m → c.getD j 0 = 0) → heapFuel m ≤ fuel →
      heapRun n fuel es c 0 =
        blockRun m es ++ heapRun n (fuel - heapFuel m) (netF m es) c m := by
  intro m
  induction m with
  | zero =>
    intro hm es c fuel hc hz hf
    show heapRun n fuel es c 0 = [] ++ heapRun n (fuel - 0) es c 0
    rw [List.nil_append, Nat.sub_zero]
  | succ m ih =>
    intro hm es c fuel hc hz hf
    have hmn : m < n := by omega
    have chain : ∀ (k : ℕ), k ≤ m → ∀ (es : List α) (c : List ℕ)
        (fuel : ℕ), c.length = n → (∀ j, j < m → c.getD j 0 = 0) →
        c.getD m 0 = m - k → chainFuel m k ≤ fuel →
        heapRun n fuel es c 0 =
          chainListL (blockRun m) (netF m) m k es ++
            heapRun n (fuel - chainFuel m k) (chainNetL (netF m) m k es)
              (c.set m 0) (m + 1) := by
      intro k
      induction k with
      | zero =>
        intro hk es2 c2 fuel2 hc2 hz2 hcm2 hf2
        have hY : chainFuel m 0 = heapFuel m + 1 := by
          simp only [chainFuel]
          ring
        rw [ih (by omega) es2 c2 fuel2 hc2 hz2 (by omega)]
        obtain ⟨f2, hf2e⟩ : ∃ f2, fuel2 - heapFuel m = f2 + 1 :=
          ⟨fuel2 - heapFuel m - 1, by omega⟩
        rw [hf2e, heapRun, if_pos hmn, hcm2]
        rw [if_neg (by omega)]
        show blockRun m es2 ++ heapRun n f2 (netF m es2) (c2.set m 0) (m + 1) =
          chainListL (blockRun m) (netF m) m 0 es2 ++
            heapRun n (fuel2 - chainFuel m 0) (chainNetL (netF m) m 0 es2)
              (c2.set m 0) (m + 1)
        have hff : f2 = fuel2 - chainFuel m 0 := by omega
        rw [hff]
        rfl
      | succ k ihk =>
        intro hk es2 c2 fuel2 hc2 hz2 hcm2 hf2
        have hY : chainFuel m (k + 1) = chainFuel m k + heapFuel m + 1 := by
          simp only [chainFuel]
          ring
        rw [ih (by omega) es2 c2 fuel2 hc2 hz2 (by omega)]
        obtain ⟨f2, hf2e⟩ : ∃ f2, fuel2 - heapFuel m = f2 + 1 :=
          ⟨fuel2 - heapFuel m - 1, by omega⟩
        rw [hf2e, heapRun, if_pos hmn, hcm2]
        rw [if_pos (by omega)]
        have hsw : (if m % 2 = 0 then listSwap (netF m es2) 0 m
            else listSwap (netF m es2) (m - (k + 1)) m) =
            swapAt m (m - (k + 1)) (netF m es2) := rfl
        rw [hsw]
        have hctr : m - (k + 1) + 1 = m - k := by omega
        rw [hctr]
        rw [ihk (by omega) (swapAt m (m - (k + 1)) (netF m es2))
          (c2.set m (m - k)) f2
          (by rw [List.length_set]; exact hc2)
          (fun j hj => by
            rw [getD_set_ne c2 m j (m - k) 0 (by omega)]
            exact hz2 j hj)
          (getD_set_self c2 m (m - k) 0 (by omega))
          (by omega)]
        rw [List.set_set]
        show blockRun m es2 ++
            (swapAt m (m - (k + 1)) (netF m es2) ::
              (chainListL (blockRun m) (netF m) m k
                  (swapAt m (m - (k + 1)) (netF m es2)) ++
                heapRun n (f2 - chainFuel m k)
                  (chainNetL (netF m) m k
                    (swapAt m (m - (k + 1)) (netF m es2)))
                  (c2.set m 0) (m + 1))) =
          chainListL (blockRun m) (netF m) m (k + 1) es2 ++
            heapRun n (fuel2 - chainFuel m (k + 1))
              (chainNetL (netF m) m (k + 1) es2) (c2.set m 0) (m + 1)
        have hfe : f2 - chainFuel m k = fuel2 - chainFuel m (k + 1) := by
          omega
        rw [hfe]
        show blockRun m es2 ++
            (swapAt m (m - (k + 1)) (netF m es2) ::
              (chainListL (blockRun m) (netF m) m k
                  (swapAt m (m - (k + 1)) (netF m es2)) ++
                heapRun n (fuel2 - chainFuel m (k + 1))
                  (chainNetL (netF m) m (k + 1) es2)
                  (c2.set m 0) (m + 1))) =
          chainListL (blockRun m) (netF m) m (k + 1) es2 ++
            heapRun n (fuel2 - chainFuel m (k + 1))
              (chainNetL (netF m) m (k + 1) es2) (c2.set m 0) (m + 1)
        rw [show chainListL (blockRun m) (netF m) m (k + 1) es2 =
          blockRun m es2 ++ swapAt m (m - (k + 1)) (netF m es2) ::
            chainListL (blockRun m) (netF m) m k
              (swapAt m (m - (k + 1)) (netF m es2)) from rfl]
        rw [List.append_assoc, List.cons_append]
    have hcm : c.getD m 0 = m - m := by
      rw [hz m (by omega)]
      omega
    rw [chain m le_rfl es c fuel hc (fun j hj => hz j (by omega)) hcm
      (by rw [heapFuel_succ] at hf; exact hf)]
    have hset : c.set m 0 = c := by
      apply set_get?_self
      rw [List.getElem?_eq_getElem (by omega : m < c.length)]
      have h2 := hz m (by omega)
      rw [List.getD_eq_getElem c 0 (by omega)] at h2
      rw [h2]
    rw [hset, ← blockRun_succ, ← netF_succ, ← heapFuel_succ]

/-- `generate_permutations` equals the initial list followed by the full
decomposed block (the loop's fuel bound is exact). -/
theorem generate_eq_blockAll {α : Type} (es : List α) (n : ℕ) :
    generate_permutations es n = blockAll n es := by
  show es :: heapRun n (heapFuel n + 1) es (List.replicate n 0) 0 =
    es :: blockRun n es
  rw [heapRun_block n n le_rfl es (List.replicate n 0) (heapFuel n + 1)
    (List.length_replicate n 0) (fun j _ => getD_replicate n j) (by omega)]
  have h1 : heapFuel n + 1 - heapFuel n = 1 := by omega
  rw [h1, heapRun, if_neg (by omega)]
  rw [List.append_nil]

/-- `fs` is `es` re-indexed entrywise by `f`. -/
def SpecRel {α : Type} (f : ℕ → ℕ) (es fs : List α) : Prop :=
  fs.length = es.length ∧ ∀ i, i < es.length → fs[i]? = es[f i]?

theorem specRel_id {α : Type} (es : List α) : SpecRel (fun i => i) es es :=
  ⟨rfl, fun _ _ => rfl⟩

theorem specRel_comp {α : Type} {f g : ℕ → ℕ} {es fs gs : List α}
    (h1 : SpecRel f es fs) (h2 : SpecRel g fs gs)
    (hg : ∀ i, i < es.length → g i < es.length) :
    SpecRel (fun i => f (g i)) es gs := by
  obtain ⟨hl1, he1⟩ := h1
  obtain ⟨hl2, he2⟩ := h2
  refine ⟨hl2.trans hl1, fun i hi => ?_⟩
  rw [he2 i (by omega), he1 (g i) (hg i hi)]

theorem specRel_congr {α : Type} {f g : ℕ → ℕ} {es fs : List α}
    (h : SpecRel f es fs) (hfg : ∀ i, f i = g i) : SpecRel g es fs :=
  ⟨h.1, fun i hi => by rw [h.2 i hi, hfg i]⟩

theorem listSwap_specRel {α : Type} (es : List α) (a b : ℕ)
    (ha : a < es.length) (hb : b < es.length) :
    SpecRel (swapIdx a b) es (listSwap es a b) := by
  have hga : es[a]? = some es[a] := List.getElem?_eq_getElem ha
  have hgb : es[b]? = some es[b] := List.getElem?_eq_getElem hb
  have hl : listSwap es a b = (es.set a es[b]).set b es[a] := by
    unfold listSwap
    rw [hga, hgb]
  refine ⟨by rw [hl]; simp, fun i hi => ?_⟩
  rw [hl]
  by_cases hib : i = b
  · rw [hib]
    rw [List.getElem?_set_eq_of_lt es[a]
      (by rw [List.length_set]; exact hb)]
    have hv : es[swapIdx a b b]? = some es[a] := by
      by_cases hab : b = a
      · have hsv : swapIdx a b b = b := by
          simp only [swapIdx]
          rw [if_pos hab]
        rw [hsv, hab]
        exact hga
      · have hsv : swapIdx a b b = a := by
          simp only [swapIdx]
          rw [if_neg hab]
          simp
        rw [hsv]
        exact hga
    rw [hv]
  · by_cases hia : i = a
    · rw [hia]
      rw [List.getElem?_set_ne (show b ≠ a from fun h =>
        hib (hia.trans h.symm))]
      rw [List.getElem?_set_eq_of_lt es[b] ha]
      have hv : es[swapIdx a b a]? = some es[b] := by
        simp only [swapIdx]
        split_ifs with h1
        · exact hgb
        · first
          | exact absurd rfl h1
          | exact absurd trivial h1
      rw [hv]
    · rw [List.getElem?_set_ne (show b ≠ i from fun h => hib h.symm),
        List.getElem?_set_ne (show a ≠ i from fun h => hia h.symm)]
      have hv : swapIdx a b i = i := by
        simp only [swapIdx]
        split_ifs <;> omega
      rw [hv]

theorem swapAt_specRel {α : Type} (es : List α) (p k : ℕ)
    (hp : p < es.length) (hk : k < es.length) :
    SpecRel (swapAtIdx p k) es (swapAt p k es) := by
  by_cases h2 : p % 2 = 0
  · have h := listSwap_specRel es 0 p (by omega) hp
    have hfs : swapAt p k es = listSwap es 0 p := by
      rw [swapAt, if_pos h2]
    rw [hfs]
    refine specRel_congr h (fun i => ?_)
    simp only [swapAtIdx]
    rw [if_pos h2]
  · have h := listSwap_specRel es k p hk hp
    have hfs : swapAt p k es = listSwap es k p := by
      rw [swapAt, if_neg h2]
    rw [hfs]
    refine specRel_congr h (fun i => ?_)
    simp only [swapAtIdx]
    rw [if_neg h2]

theorem swapAtIdx_lt {L p k i : ℕ} (hp : p < L) (hk : k < L) (hi : i < L) :
    swapAtIdx p k i < L := by
  simp only [swapAtIdx]
  split_ifs
  · exact swapIdx_lt (by omega) hp hi
  · exact swapIdx_lt hk hp hi

/-- Index permutation after `j` steps of a level-`m` chain (either
parity). -/
def tauIdx (m j i : ℕ) : ℕ :=
  if m % 2 = 1 then tauOidx m j i else tauEidx m j i

theorem tauIdx_zero (m i : ℕ) : tauIdx m 0 i = i := by
  by_cases h : m % 2 = 1
  · rw [tauIdx, if_pos h, tauOidx_zero]
  · rw [tauIdx, if_neg h, tauEidx_zero]

theorem netFidx_id_low {m i : ℕ} (h : m ≤ 1) : netFidx m i = i := by
  simp only [netFidx]
  rw [if_pos h]

theorem tauIdx_step {m j : ℕ} (hj : j + 1 ≤ m) (i : ℕ) :
    tauIdx m (j + 1) i = tauIdx m j (netFidx m (swapAtIdx m j i)) := by
  by_cases h : m % 2 = 1
  · rw [tauIdx, tauIdx, if_pos h, if_pos h]
    have hs : swapAtIdx m j i = swapIdx j m i := by
      simp only [swapAtIdx]
      rw [if_neg (by omega)]
    rw [hs]
    exact tauOidx_step h hj i
  · rw [tauIdx, tauIdx, if_neg h, if_neg h]
    have hs : swapAtIdx m j i = swapIdx 0 m i := by
      simp only [swapAtIdx]
      rw [if_pos (by omega)]
    rw [hs]
    exact tauEidx_step (by omega) (by omega) hj i

theorem tauIdx_netF {m : ℕ} (i : ℕ) :
    tauIdx m m (netFidx m i) = netFidx (m + 1) i := by
  by_cases h : m % 2 = 1
  · rw [tauIdx, if_pos h]
    exact tauOidx_netF h i
  · rcases show m = 0 ∨ 2 ≤ m from by omega with h0 | h0
    · subst h0
      rw [tauIdx, if_neg h, tauEidx_zero, netFidx_id_low (by omega),
        netFidx_id_low (by omega)]
    · rw [tauIdx, if_neg h]
      exact tauEidx_netF (by omega) h0 i

theorem tauIdx_top_le {m j : ℕ} (hj : j ≤ m) : tauIdx m j m ≤ m := by
  by_cases h : m % 2 = 1
  · rw [tauIdx, if_pos h]
    exact tauOidx_top_le h hj
  · rw [tauIdx, if_neg h]
    exact tauEidx_top_le hj

theorem tauIdx_top_inj {m t u : ℕ} (ht : t ≤ m) (hu : u ≤ m)
    (h : tauIdx m t m = tauIdx m u m) : t = u := by
  by_cases hp : m % 2 = 1
  · rw [tauIdx, tauIdx, if_pos hp, if_pos hp] at h
    exact tauOidx_top_inj hp ht hu h
  · rcases show m = 0 ∨ 2 ≤ m from by omega with h0 | h0
    · omega
    · rw [tauIdx, tauIdx, if_neg hp, if_neg hp] at h
      exact tauEidx_top_inj (by omega) h0 ht hu h

theorem tauIdx_lt {L m j i : ℕ} (hj : j ≤ m) (hm : m < L) (hi : i < L) :
    tauIdx m j i < L := by
  by_cases h : m % 2 = 1
  · rw [tauIdx, if_pos h]
    exact tauOidx_lt hj hm hi
  · rw [tauIdx, if_neg h]
    exact tauEidx_lt hj hm hi

/-- The elements after a full level-`m` block are the starting elements
re-indexed by `netFidx m`. -/
theorem netF_specRel {α : Type} :
    ∀ (m : ℕ) (es : List α), m ≤ es.length →
      SpecRel (netFidx m) es (netF m es) := by
  intro m
  induction m with
  | zero =>
    intro es hm
    refine specRel_congr (specRel_id es) (fun i => ?_)
    rw [netFidx_id_low (by omega)]
  | succ m ih =>
    intro es hm
    have hstate : ∀ t, t ≤ m →
        SpecRel (tauIdx m t) es (chainStatesFrom (netF m) m 0 t es) := by
      intro t
      induction t with
      | zero =>
        intro _
        exact specRel_congr (specRel_id es) (fun i => (tauIdx_zero m i).symm)
      | succ t iht =>
        intro ht
        have hprev := iht (by omega)
        rw [chainStatesFrom_succ (netF m) m t 0 es, Nat.zero_add]
        have hX := hprev.1
        have hnm := ih (chainStatesFrom (netF m) m 0 t es) (by omega)
        have hc1 := specRel_comp hprev hnm
          (fun i hi => netFidx_lt (by omega) hi)
        have hnl : (netF m (chainStatesFrom (netF m) m 0 t es)).length =
            es.length := hnm.1.trans hX
        have hsw := swapAt_specRel
          (netF m (chainStatesFrom (netF m) m 0 t es)) m t
          (by rw [hnl]; omega) (by rw [hnl]; omega)
        have hc2 := specRel_comp hc1 hsw
          (fun i hi => swapAtIdx_lt (by omega) (by omega) hi)
        refine specRel_congr hc2 (fun i => ?_)
        exact (tauIdx_step ht i).symm
    have hnet : netF (m + 1) es =
        netF m (chainStatesFrom (netF m) m 0 m es) := by
      rw [netF_succ]
      exact chainNetL_eq_state (netF m) m m 0 es (by omega)
    rw [hnet]
    have hXm := hstate m le_rfl
    have hXl := hXm.1
    have hnm := ih (chainStatesFrom (netF m) m 0 m es) (by omega)
    have hc := specRel_comp hXm hnm (fun i hi => netFidx_lt (by omega) hi)
    exact specRel_congr hc (fun i => tauIdx_netF i)

/-- Each intermediate chain state is the starting elements re-indexed by
the corresponding `tauIdx`. -/
theorem chainStates_specRel {α : Type} (m : ℕ) (es : List α)
    (hm : m + 1 ≤ es.length) :
    ∀ t, t ≤ m → SpecRel (tauIdx m t) es (chainStatesFrom (netF m) m 0 t es) := by
  intro t
  induction t with
  | zero =>
    intro _
    exact specRel_congr (specRel_id es) (fun i => (tauIdx_zero m i).symm)
  | succ t iht =>
    intro ht
    have hprev := iht (by omega)
    rw [chainStatesFrom_succ (netF m) m t 0 es, Nat.zero_add]
    have hX := hprev.1
    have hnm := netF_specRel m (chainStatesFrom (netF m) m 0 t es) (by omega)
    have hc1 := specRel_comp hprev hnm
      (fun i hi => netFidx_lt (by omega) hi)
    have hnl : (netF m (chainStatesFrom (netF m) m 0 t es)).length =
        es.length := hnm.1.trans hX
    have hsw := swapAt_specRel
      (netF m (chainStatesFrom (netF m) m 0 t es)) m t
      (by rw [hnl]; omega) (by rw [hnl]; omega)
    have hc2 := specRel_comp hc1 hsw
      (fun i hi => swapAtIdx_lt (by omega) (by omega) hi)
    refine specRel_congr hc2 (fun i => ?_)
    exact (tauIdx_step ht i).symm

theorem swapAt_perm {α : Type} (p k : ℕ) (es : List α) :
    List.Perm (swapAt p k es) es := by
  rw [swapAt]
  split_ifs
  · exact listSwap_perm es 0 p
  · exact listSwap_perm es k p

theorem netF_perm {α : Type} :
    ∀ (m : ℕ) (es : List α), List.Perm (netF m es) es := by
  intro m
  induction m with
  | zero =>
    intro es
    exact List.Perm.refl es
  | succ m ih =>
    intro es
    rw [netF_succ]
    have aux : ∀ (k : ℕ) (e : List α),
        List.Perm (chainNetL (netF m) m k e) e := by
      intro k
      induction k with
      | zero =>
        intro e
        exact ih e
      | succ k ihk =>
        intro e
        show List.Perm (chainNetL (netF m) m k
          (swapAt m (m - (k + 1)) (netF m e))) e
        exact (ihk _).trans ((swapAt_perm _ _ _).trans (ih e))
    exact aux m es

theorem blockAll_perm {α : Type} :
    ∀ (m : ℕ) (es : List α), ∀ p ∈ blockAll m es, List.Perm p es := by
  intro m
  induction m with
  | zero =>
    intro es p hp
    have h : p = es := by
      simpa [blockAll, blockRun_zero] using hp
    rw [h]
  | succ m ih =>
    intro es p hp
    have aux : ∀ (k : ℕ) (e : List α),
        ∀ p ∈ e :: chainListL (blockRun m) (netF m) m k e,
          List.Perm p e := by
      intro k
      induction k with
      | zero =>
        intro e p hp
        exact ih e p hp
      | succ k ihk =>
        intro e p hp
        rcases List.mem_cons.mp hp with h | h
        · rw [h]
        · rw [show chainListL (blockRun m) (netF m) m (k + 1) e =
            blockRun m e ++ swapAt m (m - (k + 1)) (netF m e) ::
              chainListL (blockRun m) (netF m) m k
                (swapAt m (m - (k + 1)) (netF m e)) from rfl] at h
          rcases List.mem_append.mp h with h2 | h2
          · exact ih e p (List.mem_cons_of_mem e h2)
          · have hp2 := ihk (swapAt m (m - (k + 1)) (netF m e)) p h2
            exact hp2.trans ((swapAt_perm _ _ _).trans (netF_perm m e))
    exact aux m es p hp

theorem chainStates_perm {α : Type} (m : ℕ) :
    ∀ (t s : ℕ) (es : List α),
      List.Perm (chainStatesFrom (netF m) m s t es) es := by
  intro t
  induction t with
  | zero =>
    intro s es
    exact List.Perm.refl es
  | succ t ih =>
    intro s es
    show List.Perm
      (chainStatesFrom (netF m) m (s + 1) t (swapAt m s (netF m es))) es
    exact (ih (s + 1) _).trans ((swapAt_perm _ _ _).trans (netF_perm m es))

theorem listSwap_getElem_high {α : Type} (l : List α) (a b i : ℕ)
    (ha : a < i) (hb : b < i) : (listSwap l a b)[i]? = l[i]? := by
  unfold listSwap
  rcases hA : l[a]? with - | x
  · rfl
  · rcases hB : l[b]? with - | y
    · rfl
    · show ((l.set a y).set b x)[i]? = l[i]?
      rw [List.getElem?_set_ne (by omega), List.getElem?_set_ne (by omega)]

theorem swapAt_getElem_high {α : Type} (p k : ℕ) (es : List α) (i : ℕ)
    (hp : p < i) (hk : k < i) : (swapAt p k es)[i]? = es[i]? := by
  rw [swapAt]
  split_ifs
  · exact listSwap_getElem_high es 0 p i (by omega) hp
  · exact listSwap_getElem_high es k p i hk hp

theorem netF_getElem_high {α : Type} :
    ∀ (m : ℕ) (es : List α) (i : ℕ), m ≤ i →
      (netF m es)[i]? = es[i]? := by
  intro m
  induction m with
  | zero =>
    intro es i _
    rfl
  | succ m ih =>
    intro es i hi
    rw [netF_succ]
    have aux : ∀ (k : ℕ), k ≤ m → ∀ (e : List α),
        (chainNetL (netF m) m k e)[i]? = e[i]? := by
      intro k
      induction k with
      | zero =>
        intro _ e
        exact ih e i (by omega)
      | succ k ihk =>
        intro hk e
        show (chainNetL (netF m) m k
          (swapAt m (m - (k + 1)) (netF m e)))[i]? = e[i]?
        rw [ihk (by omega) _,
          swapAt_getElem_high m (m - (k + 1)) (netF m e) i (by omega)
            (by omega)]
        exact ih e i (by omega)
    exact aux m le_rfl es

theorem blockAll_getElem_high {α : Type} :
    ∀ (m : ℕ) (es : List α), ∀ p ∈ blockAll m es, ∀ i, m ≤ i →
      p[i]? = es[i]? := by
  intro m
  induction m with
  | zero =>
    intro es p hp i _
    have h : p = es := by
      simpa [blockAll, blockRun_zero] using hp
    rw [h]
  | succ m ih =>
    intro es p hp i hi
    have aux : ∀ (k : ℕ), k ≤ m → ∀ (e : List α),
        ∀ p ∈ e :: chainListL (blockRun m) (netF m) m k e,
          p[i]? = e[i]? := by
      intro k
      induction k with
      | zero =>
        intro _ e p hp
        exact ih e p hp i (by omega)
      | succ k ihk =>
        intro hk e p hp
        rcases List.mem_cons.mp hp with h | h
        · rw [h]
        · rw [show chainListL (blockRun m) (netF m) m (k + 1) e =
            blockRun m e ++ swapAt m (m - (k + 1)) (netF m e) ::
              chainListL (blockRun m) (netF m) m k
                (swapAt m (m - (k + 1)) (netF m e)) from rfl] at h
          rcases List.mem_append.mp h with h2 | h2
          · exact ih e p (List.mem_cons_of_mem e h2) i (by omega)
          · have hp2 := ihk (by omega) (swapAt m (m - (k + 1)) (netF m e))
              p h2
            rw [hp2,
              swapAt_getElem_high m (m - (k + 1)) (netF m e) i (by omega)
                (by omega)]
            exact netF_getElem_high m e i (by omega)
    exact aux m le_rfl es p hp

theorem blockAll_length {α : Type} :
    ∀ (m : ℕ) (es : List α), (blockAll m es).length = Nat.factorial m := by
  intro m
  induction m with
  | zero =>
    intro es
    rfl
  | succ m ih =>
    intro es
    have aux : ∀ (k : ℕ) (e : List α),
        (e :: chainListL (blockRun m) (netF m) m k e).length =
          (k + 1) * Nat.factorial m := by
      intro k
      induction k with
      | zero =>
        intro e
        have h := ih e
        rw [show (e :: chainListL (blockRun m) (netF m) m 0 e) =
          blockAll m e from rfl, h, Nat.one_mul]
      | succ k ihk =>
        intro e
        have h1 := ih e
        have h2 := ihk (swapAt m (m - (k + 1)) (netF m e))
        have h3 : (k + 1 + 1) * Nat.factorial m = (k + 1) * Nat.factorial m + Nat.factorial m := by ring
        rw [show (e :: chainListL (blockRun m) (netF m) m (k + 1) e) =
          e :: (blockRun m e ++ swapAt m (m - (k + 1)) (netF m e) ::
            chainListL (blockRun m) (netF m) m k
              (swapAt m (m - (k + 1)) (netF m e))) from rfl]
        simp only [List.length_cons, List.length_append] at h1 h2 ⊢
        simp only [blockAll, List.length_cons] at h1
        omega
    have h := aux m es
    rw [show blockAll (m + 1) es =
      es :: chainListL (blockRun m) (netF m) m m es from rfl, h,
      Nat.factorial_succ]

/-- A level-`m` chain decomposes into the concatenation of the full
yield-lists of its inner blocks, one per intermediate state. -/
theorem chain_decomp {α : Type} (m : ℕ) :
    ∀ (k s : ℕ) (e : List α), s + k = m →
      e :: chainListL (blockRun m) (netF m) m k e =
        ((List.range (k + 1)).map
          (fun t => blockAll m (chainStatesFrom (netF m) m s t e))).flatten := by
  intro k
  induction k with
  | zero =>
    intro s e _
    show blockAll m e = _
    rw [show List.range 1 = [0] from rfl, List.map_cons, List.map_nil,
      List.flatten_cons, List.flatten_nil, List.append_nil]
    rfl
  | succ k ihk =>
    intro s e hs
    rw [List.range_succ_eq_map, List.map_cons, List.flatten_cons,
      List.map_map]
    have hstep : ((List.range (k + 1)).map
        ((fun t => blockAll m (chainStatesFrom (netF m) m s t e)) ∘
          Nat.succ)).flatten =
        swapAt m s (netF m e) ::
          chainListL (blockRun m) (netF m) m k (swapAt m s (netF m e)) := by
      have hfun : ((fun t => blockAll m (chainStatesFrom (netF m) m s t e)) ∘
          Nat.succ) =
          (fun t => blockAll m
            (chainStatesFrom (netF m) m (s + 1) t
              (swapAt m s (netF m e)))) := by
        funext t
        rfl
      rw [hfun, ← ihk (s + 1) (swapAt m s (netF m e)) (by omega)]
    rw [hstep]
    show e :: (blockRun m e ++ swapAt m (m - (k + 1)) (netF m e) ::
        chainListL (blockRun m) (netF m) m k
          (swapAt m (m - (k + 1)) (netF m e))) = _
    have hsw : m - (k + 1) = s := by omega
    rw [hsw]
    show blockAll m e ++ _ = _
    rfl

/-- With distinct starting elements, no yield of a block repeats: within
an inner block the first `m` entries distinguish yields, and across inner
blocks the entry at position `m` does. -/
theorem blockAll_nodup {α : Type} :
    ∀ (m : ℕ) (es : List α), es.Nodup → m ≤ es.length →
      (blockAll m es).Nodup := by
  intro m
  induction m with
  | zero =>
    intro es hnd _
    simp [blockAll, blockRun_zero]
  | succ m ih =>
    intro es hnd hm
    have hdec : blockAll (m + 1) es =
        ((List.range (m + 1)).map
          (fun t => blockAll m (chainStatesFrom (netF m) m 0 t es))).flatten := by
      show es :: chainListL (blockRun m) (netF m) m m es = _
      exact chain_decomp m m 0 es (by omega)
    rw [hdec, List.nodup_flatten]
    constructor
    · intro l hl
      rcases List.mem_map.mp hl with ⟨t, _, rfl⟩
      have hperm := chainStates_perm m t 0 es
      exact ih (chainStatesFrom (netF m) m 0 t es)
        (hperm.symm.nodup hnd) (by rw [hperm.length_eq]; omega)
    · rw [List.pairwise_map]
      refine (List.pairwise_lt_range (m + 1)).imp_of_mem ?_
      intro t u ht hu htu
      have htm : t ≤ m := by
        have := List.mem_range.mp ht
        omega
      have hum : u ≤ m := by
        have := List.mem_range.mp hu
        omega
      intro p hpt hpu
      have h1 := blockAll_getElem_high m
        (chainStatesFrom (netF m) m 0 t es) p hpt m le_rfl
      have h2 := blockAll_getElem_high m
        (chainStatesFrom (netF m) m 0 u es) p hpu m le_rfl
      have hs1 := (chainStates_specRel m es hm t htm).2 m (by omega)
      have hs2 := (chainStates_specRel m es hm u hum).2 m (by omega)
      have he : es[tauIdx m t m]? = es[tauIdx m u m]? := by
        rw [← hs1, ← hs2, ← h1, ← h2]
      have hlt1 : tauIdx m t m < es.length := tauIdx_lt htm (by omega)
        (by omega)
      have hlt2 : tauIdx m u m < es.length := tauIdx_lt hum (by omega)
        (by omega)
      rw [List.getElem?_eq_getElem hlt1, List.getElem?_eq_getElem hlt2] at he
      have hv := (hnd.getElem_inj_iff).mp (Option.some.inj he)
      have := tauIdx_top_inj htm hum hv
      omega

/-- Core enumeration property: on a duplicate-free list of length `n`,
the generator emits a duplicate-free list of `n!` yields that is a
permutation of `es.permutations`. -/
theorem generate_permutations_spec {α : Type} (es : List α) (n : ℕ)
    (hnd : es.Nodup) (hlen : es.length = n) :
    (generate_permutations es n).length = Nat.factorial n ∧
      List.Perm (generate_permutations es n) es.permutations := by
  rw [generate_eq_blockAll]
  have hlen2 : (blockAll n es).length = Nat.factorial n := blockAll_length n es
  refine ⟨hlen2, ?_⟩
  have hnodup : (blockAll n es).Nodup := blockAll_nodup n es hnd (by omega)
  have hsub : blockAll n es ⊆ es.permutations := by
    intro p hp
    exact List.mem_permutations.mpr (blockAll_perm n es p hp)
  have hsp : List.Subperm (blockAll n es) es.permutations :=
    hnodup.subperm hsub
  refine hsp.perm_of_length_le ?_
  rw [List.length_permutations, hlen, hlen2]

/-- C6: for every `n ≥ 1` and every starting list of `n` distinct
elements, `generate_permutations` terminates (the embedded loop's fuel
bound is exact, see `heapRun_block`) and yields each of the `n!`
permutations of the list exactly once: its output has length `n!`, has
no duplicates, and is a rearrangement of `es.permutations`.
Consequently the candidate list that `brute_permutation` folds over —
`generate_permutations` applied to the row indices `[0..n)` — contains
exactly `n!` orderings, one per permutation of the indices. -/
theorem generate_permutations_all_perms {α : Type} (es : List α) (n : ℕ)
    (hn : 1 ≤ n) (hnd : es.Nodup) (hlen : es.length = n) :
    (generate_permutations es n).length = Nat.factorial n ∧
      (generate_permutations es n).Nodup ∧
      List.Perm (generate_permutations es n) es.permutations ∧
      (generate_permutations (List.range n) n).length = Nat.factorial n ∧
      List.Perm (generate_permutations (List.range n) n)
        (List.range n).permutations := by
  obtain ⟨h1, h2⟩ := generate_permutations_spec es n hnd hlen
  obtain ⟨h3, h4⟩ := generate_permutations_spec (List.range n) n
    (List.nodup_range n) (List.length_range n)
  refine ⟨h1, ?_, h2, h3, h4⟩
  rw [generate_eq_blockAll]
  exact blockAll_nodup n es hnd (by omega)

/-- Witness: the enumeration theorem at the concrete list `[0, 1]`. -/
theorem generate_permutations_all_perms_witness :
    1 ≤ 2 ∧ ([0, 1] : List ℕ).Nodup ∧ ([0, 1] : List ℕ).length = 2 ∧
      ((generate_permutations ([0, 1] : List ℕ) 2).length =
          Nat.factorial 2 ∧
        (generate_permutations ([0, 1] : List ℕ) 2).Nodup ∧
        List.Perm (generate_permutations ([0, 1] : List ℕ) 2)
          ([0, 1] : List ℕ).permutations ∧
        (generate_permutations (List.range 2) 2).length = Nat.factorial 2 ∧
        List.Perm (generate_permutations (List.range 2) 2)
          (List.range 2).permutations) :=
  ⟨by decide, by decide, rfl,
    generate_permutations_all_perms [0, 1] 2 (by decide) (by decide) rfl⟩

end CalculateRmsd
